import Mathlib

/-!
Verification of the book_order_simulator matching engine.

The C++ source shares each `Order` object (a `std::shared_ptr<Order>`)
between the order book's id index (`orders_`) and the per-price FIFO
queues inside `PriceLevel`.  We model this aliasing with an explicit
heap: `heap : List Order` is the arena of all order objects ever
created, and both the index and the level queues store *pointers*
(positions) into the heap.  Mutating an order's remaining quantity is a
`set` on the heap, visible through every pointer — exactly the C++
behaviour.

All functions below are translated line by line from
`src/src/MatchingEngine.cpp`, `src/unnamed/part_002` (Order.h) and
`src/unnamed/part_003` (OrderBook.cpp / OrderBook.h).
-/

/-- `OrderSide` from Order.h. -/
inductive OrderSide where
  | BUY
  | SELL
deriving DecidableEq, Repr, Inhabited

/-- The opposing side, as computed at MatchingEngine.cpp lines 127-128. -/
def OrderSide.opposite : OrderSide → OrderSide
  | .BUY => .SELL
  | .SELL => .BUY

/-- The `Order` class of Order.h.  `quantity` is the original quantity
(`quantity_`), `remaining` is `remaining_quantity_`; the constructor sets
`remaining = quantity`.  Timestamps are monotone-clock values, modelled
as naturals. -/
structure Order where
  id : Nat
  side : OrderSide
  price : Nat
  quantity : Nat
  remaining : Nat
  timestamp : Nat
deriving DecidableEq, Repr, Inhabited

/-- `Order::isFilled`. -/
def Order.isFilled (o : Order) : Bool := o.remaining = 0

/-- `Order::reduceQuantity`: subtract `min qty remaining` from the
remaining quantity. -/
def Order.reduceQuantity (o : Order) (qty : Nat) : Order :=
  { o with remaining := o.remaining - min qty o.remaining }

/-- The `Trade` struct of Trade.h (the wall-clock execution timestamp is
real time and is not modelled). -/
structure Trade where
  buy_order_id : Nat
  sell_order_id : Nat
  price : Nat
  quantity : Nat
deriving DecidableEq, Repr, Inhabited

/-- A price level (struct `PriceLevel` in OrderBook.h): the FIFO queue
holds heap pointers to the resting orders. -/
structure PriceLevel where
  price : Nat
  total_quantity : Nat
  orders : List Nat
deriving DecidableEq, Repr, Inhabited

/- ### Heap (shared_ptr arena) primitives -/

/-- Dereference a heap pointer. -/
def hget : List Order → Nat → Option Order
  | [], _ => none
  | o :: _, 0 => some o
  | _ :: t, n + 1 => hget t n

/-- Overwrite the object a heap pointer refers to. -/
def hset : List Order → Nat → Order → List Order
  | [], _, _ => []
  | _ :: t, 0, o => o :: t
  | h :: t, n + 1, o => h :: hset t n o

/-- The remaining quantity read through a pointer (0 for a dangling
pointer, which never occurs in reachable states). -/
def remOf (heap : List Order) (p : Nat) : Nat :=
  match hget heap p with
  | none => 0
  | some o => o.remaining

/-- The order id read through a pointer. -/
def idOf (heap : List Order) (p : Nat) : Option Nat :=
  (hget heap p).map Order.id

/-- Sum of remaining quantities over a pointer list. -/
def sumRem (heap : List Order) (l : List Nat) : Nat :=
  (l.map (remOf heap)).sum

/- ### Association-list maps (std::map / std::unordered_map) -/

/-- `m.find k` on an association list. -/
def mfind {α : Type} : List (Nat × α) → Nat → Option α
  | [], _ => none
  | (k, v) :: t, i => if k = i then some v else mfind t i

/-- `m[k] = v`: replace the binding if the key is present, else append. -/
def minsert {α : Type} : List (Nat × α) → Nat → α → List (Nat × α)
  | [], i, v => [(i, v)]
  | (k, w) :: t, i, v => if k = i then (i, v) :: t else (k, w) :: minsert t i v

/-- `m.erase k`. -/
def merase {α : Type} : List (Nat × α) → Nat → List (Nat × α)
  | [], _ => []
  | (k, w) :: t, i => if k = i then t else (k, w) :: merase t i

/-- The key list of an association list. -/
def keys {α : Type} (m : List (Nat × α)) : List Nat := m.map Prod.fst

/-- The entry with the greatest key (`rbegin` of a `std::map`). -/
def maxEntry {α : Type} : List (Nat × α) → Option (Nat × α)
  | [] => none
  | e :: t =>
    match maxEntry t with
    | none => some e
    | some e' => if e.1 < e'.1 then some e' else some e

/-- The entry with the least key (`begin` of a `std::map`). -/
def minEntry {α : Type} : List (Nat × α) → Option (Nat × α)
  | [] => none
  | e :: t =>
    match minEntry t with
    | none => some e
    | some e' => if e'.1 < e.1 then some e' else some e

/- ### PriceLevel operations (OrderBook.h lines 654-699) -/

/-- `PriceLevel::addOrder`: append the pointer, add its remaining
quantity to the cached total. -/
def PriceLevel.addOrder (heap : List Order) (lvl : PriceLevel) (p : Nat) : PriceLevel :=
  { lvl with orders := lvl.orders ++ [p],
             total_quantity := lvl.total_quantity + remOf heap p }

/-- Remove the first pointer in the list whose order has the given id;
returns the removed pointer and the rest. -/
def removeFirstById (heap : List Order) (oid : Nat) : List Nat → Option (Nat × List Nat)
  | [] => none
  | p :: ps =>
    if idOf heap p = some oid then some (p, ps)
    else
      match removeFirstById heap oid ps with
      | none => none
      | some (q, rest) => some (q, p :: rest)

/-- `PriceLevel::removeOrder`: linear scan by id; subtract the removed
order's current remaining quantity from the cached total. -/
def PriceLevel.removeOrder (heap : List Order) (lvl : PriceLevel) (oid : Nat) :
    PriceLevel × Bool :=
  match removeFirstById heap oid lvl.orders with
  | none => (lvl, false)
  | some (p, rest) =>
    ({ lvl with orders := rest,
                total_quantity := lvl.total_quantity - remOf heap p }, true)

/-- `PriceLevel::updateQuantity`: `total_quantity = total_quantity - old_qty + new_qty`. -/
def PriceLevel.updateQuantity (lvl : PriceLevel) (old_qty new_qty : Nat) : PriceLevel :=
  { lvl with total_quantity := lvl.total_quantity - old_qty + new_qty }

/-- `PriceLevel::isEmpty`. -/
def PriceLevel.isEmpty (lvl : PriceLevel) : Bool := lvl.orders.isEmpty

/- ### OrderBook (OrderBook.cpp) -/

/-- The `OrderBook` class state: bid and ask price-level maps, the
id → order index, plus the heap holding every order object. -/
structure OrderBook where
  heap : List Order
  bids : List (Nat × PriceLevel)
  asks : List (Nat × PriceLevel)
  index : List (Nat × Nat)
deriving DecidableEq, Repr, Inhabited

def OrderBook.empty : OrderBook := ⟨[], [], [], []⟩

/-- `OrderBook::getPriceLevelMap`. -/
def OrderBook.sideLevels (b : OrderBook) : OrderSide → List (Nat × PriceLevel)
  | .BUY => b.bids
  | .SELL => b.asks

/-- Write back the price-level map of one side. -/
def OrderBook.setSideLevels (b : OrderBook) (s : OrderSide)
    (m : List (Nat × PriceLevel)) : OrderBook :=
  match s with
  | .BUY => { b with bids := m }
  | .SELL => { b with asks := m }

/-- `OrderBook::addOrder` (OrderBook.cpp lines 401-422): record in the
index (overwriting any existing binding for the id — there is no
duplicate check), then insert into the side's level at the order's
price, creating the level if absent. -/
def OrderBook.addOrder (b : OrderBook) (p : Nat) : OrderBook × Bool :=
  match hget b.heap p with
  | none => (b, false)
  | some o =>
    let b1 := { b with index := minsert b.index o.id p }
    let m := b1.sideLevels o.side
    let m' :=
      match mfind m o.price with
      | some lvl => minsert m o.price (lvl.addOrder b1.heap p)
      | none => minsert m o.price (PriceLevel.addOrder b1.heap ⟨o.price, 0, []⟩ p)
    (b1.setSideLevels o.side m', true)

/-- `OrderBook::cancelOrder` (OrderBook.cpp lines 424-445). -/
def OrderBook.cancelOrder (b : OrderBook) (oid : Nat) : OrderBook × Bool :=
  match mfind b.index oid with
  | none => (b, false)
  | some p =>
    let o := (hget b.heap p).getD default
    let m := b.sideLevels o.side
    let b1 :=
      match mfind m o.price with
      | none => b
      | some lvl =>
        let r := lvl.removeOrder b.heap oid
        let m' := minsert m o.price r.1
        let m'' := if r.2 ∧ r.1.isEmpty then merase m' o.price else m'
        b.setSideLevels o.side m''
    ({ b1 with index := merase b1.index oid }, true)

/-- `OrderBook::getBestBid`: highest bid key, 0 when absent. -/
def OrderBook.getBestBid (b : OrderBook) : Nat :=
  match maxEntry b.bids with
  | none => 0
  | some e => e.1

/-- `OrderBook::getBestAsk`: lowest ask key, 0 when absent. -/
def OrderBook.getBestAsk (b : OrderBook) : Nat :=
  match minEntry b.asks with
  | none => 0
  | some e => e.1

/-- `OrderBook::getOrder`: look up the id index and dereference. -/
def OrderBook.getOrder (b : OrderBook) (oid : Nat) : Option Order :=
  (mfind b.index oid).bind (hget b.heap)

/-- The best level of one side: `rbegin` (highest price) for the bid
map, `begin` (lowest price) for the ask map. -/
def bestEntryFor (side : OrderSide) (m : List (Nat × PriceLevel)) :
    Option (Nat × PriceLevel) :=
  match side with
  | .BUY => maxEntry m
  | .SELL => minEntry m

/-- `OrderBook::getOrdersForMatching` (OrderBook.cpp lines 571-585):
the FIFO queue of the best level on the given side (highest bid level,
lowest ask level), empty when the side has no levels. -/
def OrderBook.getOrdersForMatching (b : OrderBook) (side : OrderSide) : List Nat :=
  match bestEntryFor side (b.sideLevels side) with
  | none => []
  | some e => e.2.orders

/-- `OrderBook::updateOrderQuantity` (OrderBook.cpp lines 587-600). -/
def OrderBook.updateOrderQuantity (b : OrderBook) (oid old_qty new_qty : Nat) : OrderBook :=
  match mfind b.index oid with
  | none => b
  | some p =>
    let o := (hget b.heap p).getD default
    let m := b.sideLevels o.side
    match mfind m o.price with
    | none => b
    | some lvl =>
      b.setSideLevels o.side (minsert m o.price (lvl.updateQuantity old_qty new_qty))

/- ### MatchingEngine (MatchingEngine.cpp) -/

/-- `MatchingEngine::executeTrade` (lines 197-226): build the trade
record, swapping the participants so that `buy_order_id` is the BUY
side. -/
def executeTrade (buy_order sell_order : Order) (trade_price trade_quantity : Nat) : Trade :=
  if buy_order.side ≠ OrderSide.BUY then
    ⟨sell_order.id, buy_order.id, trade_price, trade_quantity⟩
  else
    ⟨buy_order.id, sell_order.id, trade_price, trade_quantity⟩

/-- The price-compatibility test of MatchingEngine.cpp lines 144-155. -/
def compatible (taker oo : Order) : Bool :=
  (taker.side = OrderSide.BUY && oo.side = OrderSide.SELL
      && decide (oo.price ≤ taker.price))
  || (taker.side = OrderSide.SELL && oo.side = OrderSide.BUY
      && decide (taker.price ≤ oo.price))

/-- The candidate scan of MatchingEngine.cpp lines 136-161: walk the
opposing orders, skipping null/filled ones; remember the price of the
last compatible order (`best_price`) and the compatible order with the
earliest timestamp (`best_match`). -/
def scanBest (taker : Order) (heap : List Order) :
    List Nat → Option (Nat × Order) → Nat → Option (Nat × Order) × Nat
  | [], acc, bp => (acc, bp)
  | q :: rest, acc, bp =>
    match hget heap q with
    | none => scanBest taker heap rest acc bp
    | some oo =>
      if oo.remaining = 0 then scanBest taker heap rest acc bp
      else if compatible taker oo then
        let acc' :=
          match acc with
          | none => some (q, oo)
          | some (mp, mo) =>
            if oo.timestamp < mo.timestamp then some (q, oo) else some (mp, mo)
        scanBest taker heap rest acc' oo.price
      else scanBest taker heap rest acc bp

/-- One trade emitted by the engine, enriched with the book state and
participants at the moment of execution (`pre` is the book when
`executeTrade` ran, `taker` the incoming order's value then, `makerPtr`
and `maker` the chosen resting order). -/
structure Exec where
  pre : OrderBook
  taker : Order
  makerPtr : Nat
  maker : Order
  trade : Trade
deriving DecidableEq, Repr, Inhabited

/-- One iteration of the matching loop of `MatchingEngine::matchOrder`
(MatchingEngine.cpp lines 125-192), acting on the incoming order through
its heap pointer `p`.  Returns `none` when the loop guard fails or a
`break` is taken, otherwise the state after the iteration and the
emitted trade. -/
def matchStep (p : Nat) (b : OrderBook) : Option (OrderBook × Exec) :=
  match hget b.heap p with
  | none => none
  | some o =>
    if o.remaining = 0 then none
    else
      let opposing_side := o.side.opposite
      let opposing_orders := b.getOrdersForMatching opposing_side
      if opposing_orders.isEmpty then none
      else
        match scanBest o b.heap opposing_orders none 0 with
        | (none, _) => none
        | (some (mp, mo), best_price) =>
          let trade_quantity := min o.remaining mo.remaining
          let t := executeTrade o mo best_price trade_quantity
          let e : Exec := ⟨b, o, mp, mo, t⟩
          let o' := o.reduceQuantity trade_quantity
          let mo' := mo.reduceQuantity trade_quantity
          let b1 := { b with heap := hset (hset b.heap p o') mp mo' }
          let b2 := b1.updateOrderQuantity o'.id (o'.remaining + trade_quantity) o'.remaining
          let b3 := b2.updateOrderQuantity mo'.id (mo'.remaining + trade_quantity) mo'.remaining
          let b4 := if mo'.remaining = 0 then (b3.cancelOrder mo'.id).1 else b3
          some (b4, e)

/-- The `while (!order->isFilled())` loop, fuelled; `submitOrder` calls
it with fuel equal to the incoming remaining quantity, which is enough
because every iteration trades at least one unit. -/
def matchLoop : Nat → Nat → OrderBook → OrderBook × List Exec
  | 0, _, b => (b, [])
  | fuel + 1, p, b =>
    match matchStep p b with
    | none => (b, [])
    | some (b', e) =>
      let r := matchLoop fuel p b'
      (r.1, e :: r.2)

/-- `MatchingEngine::submitOrder` (lines 30-43): allocate the incoming
order object, run the matching loop, and add any unfilled residue to
the book.  Returns the new state, the emitted trades and the boolean
result (`true` for every non-null order). -/
def submitOrder (o : Order) (b : OrderBook) : OrderBook × List Exec × Bool :=
  let p := b.heap.length
  let b1 := { b with heap := b.heap ++ [o] }
  let r := matchLoop o.remaining p b1
  if remOf r.1.heap p = 0 then (r.1, r.2, true)
  else ((r.1.addOrder p).1, r.2, true)

/-- `MatchingEngine::cancelOrder` (lines 45-51): cancel in the book;
when that succeeds the order callback is invoked with
`order_book_.getOrder(order_id)` looked up *after* the erase.  The third
component is `some arg` when the callback would be invoked with
argument `arg`, `none` when it is not invoked. -/
def engineCancelOrder (oid : Nat) (b : OrderBook) :
    OrderBook × Bool × Option (Option Order) :=
  let r := b.cancelOrder oid
  if r.2 then (r.1, true, some (r.1.getOrder oid)) else (r.1, false, none)

/-- The sequential-operation semantics the claims quantify over:
starting from the empty book, any sequence of `submitOrder` calls with
pairwise-distinct ids (each order fresh from the `Order` constructor,
so `remaining = quantity`) and `cancelOrder` calls.  `used` collects the
ids submitted so far and `tr` the trades emitted so far, each enriched
with its execution moment. -/
inductive Reach : OrderBook → List Nat → List Exec → Prop
  | empty : Reach OrderBook.empty [] []
  | submit {b : OrderBook} {used : List Nat} {tr : List Exec}
      (id price qty ts : Nat) (side : OrderSide)
      (h : Reach b used tr) (hid : id ∉ used) :
      Reach (submitOrder ⟨id, side, price, qty, qty, ts⟩ b).1 (id :: used)
        (tr ++ (submitOrder ⟨id, side, price, qty, qty, ts⟩ b).2.1)
  | cancel {b : OrderBook} {used : List Nat} {tr : List Exec} (oid : Nat)
      (h : Reach b used tr) :
      Reach (engineCancelOrder oid b).1 used tr

/- ### Helper lemmas: heap primitives -/

theorem hget_lt_length : ∀ {h : List Order} {p : Nat} {o : Order},
    hget h p = some o → p < h.length := by
  intro h
  induction h with
  | nil => intro p o hp; simp [hget] at hp
  | cons a t ih =>
    intro p o hp
    cases p with
    | zero => simp [List.length]
    | succ n =>
      simp only [hget] at hp
      have := ih hp
      simp only [List.length_cons]
      omega

theorem hget_append_lt {h h' : List Order} {p : Nat} (hp : p < h.length) :
    hget (h ++ h') p = hget h p := by
  induction h generalizing p with
  | nil => simp at hp
  | cons a t ih =>
    cases p with
    | zero => simp [hget]
    | succ n =>
      simp only [List.cons_append, hget]
      exact ih (by simpa using Nat.lt_of_succ_lt_succ hp)

theorem hget_append_self (h : List Order) (o : Order) :
    hget (h ++ [o]) h.length = some o := by
  induction h with
  | nil => rfl
  | cons a t ih => simpa [hget] using ih

theorem hset_length (h : List Order) (p : Nat) (o : Order) :
    (hset h p o).length = h.length := by
  induction h generalizing p with
  | nil => rfl
  | cons a t ih =>
    cases p with
    | zero => rfl
    | succ n => simp [hset, ih]

theorem hget_hset_self {h : List Order} {p : Nat} (o : Order) (hp : p < h.length) :
    hget (hset h p o) p = some o := by
  induction h generalizing p with
  | nil => simp at hp
  | cons a t ih =>
    cases p with
    | zero => rfl
    | succ n => exact ih (by simpa using Nat.lt_of_succ_lt_succ hp)

theorem hget_hset_ne {h : List Order} {p q : Nat} (o : Order) (hne : q ≠ p) :
    hget (hset h p o) q = hget h q := by
  induction h generalizing p q with
  | nil => rfl
  | cons a t ih =>
    cases p with
    | zero =>
      cases q with
      | zero => exact absurd rfl hne
      | succ m => rfl
    | succ n =>
      cases q with
      | zero => rfl
      | succ m => exact ih (fun hc => hne (by omega))

theorem ids_hset {h : List Order} {p : Nat} {o o₀ : Order}
    (hp : hget h p = some o₀) (hid : o.id = o₀.id) :
    (hset h p o).map Order.id = h.map Order.id := by
  induction h generalizing p with
  | nil => rfl
  | cons a t ih =>
    cases p with
    | zero =>
      simp only [hget] at hp
      cases hp
      simp [hset, hid]
    | succ n => simp [hset, hget] at hp ⊢; exact ih hp

theorem remOf_hset_ne {h : List Order} {p q : Nat} (o : Order) (hne : q ≠ p) :
    remOf (hset h p o) q = remOf h q := by
  simp [remOf, hget_hset_ne o hne]

theorem remOf_hset_self {h : List Order} {p : Nat} (o : Order) (hp : p < h.length) :
    remOf (hset h p o) p = o.remaining := by
  simp [remOf, hget_hset_self o hp]

theorem remOf_append_lt {h h' : List Order} {p : Nat} (hp : p < h.length) :
    remOf (h ++ h') p = remOf h p := by
  simp [remOf, hget_append_lt hp]

/- ### Helper lemmas: association-list maps -/

theorem mfind_minsert_self {α : Type} (m : List (Nat × α)) (k : Nat) (v : α) :
    mfind (minsert m k v) k = some v := by
  induction m with
  | nil => simp [minsert, mfind]
  | cons e t ih =>
    obtain ⟨ek, ev⟩ := e
    by_cases hk : ek = k
    · simp [minsert, hk, mfind]
    · simp [minsert, hk, mfind, ih]

theorem mfind_minsert_ne {α : Type} {m : List (Nat × α)} {k k' : Nat} (v : α)
    (hne : k' ≠ k) : mfind (minsert m k v) k' = mfind m k' := by
  have hkk : k ≠ k' := fun hc => hne hc.symm
  induction m with
  | nil => simp [minsert, mfind, hkk]
  | cons e t ih =>
    obtain ⟨ek, ev⟩ := e
    by_cases hk : ek = k
    · subst hk
      simp [minsert, mfind, hkk]
    · simp only [minsert, if_neg hk, mfind]
      by_cases hk' : ek = k'
      · simp [hk']
      · simp [hk', ih]

theorem mem_of_mfind {α : Type} {m : List (Nat × α)} {k : Nat} {v : α}
    (h : mfind m k = some v) : (k, v) ∈ m := by
  induction m with
  | nil => simp [mfind] at h
  | cons e t ih =>
    obtain ⟨ek, ev⟩ := e
    by_cases hk : ek = k
    · subst hk
      simp only [mfind, if_pos rfl] at h
      cases h
      exact List.mem_cons_self _ _
    · simp only [mfind, if_neg hk] at h
      exact List.mem_cons_of_mem _ (ih h)

theorem mfind_eq_of_mem {α : Type} {m : List (Nat × α)} {k : Nat} {v : α}
    (hn : (keys m).Nodup) (h : (k, v) ∈ m) : mfind m k = some v := by
  induction m with
  | nil => simp at h
  | cons e t ih =>
    obtain ⟨ek, ev⟩ := e
    simp only [keys, List.map_cons, List.nodup_cons] at hn
    rcases List.mem_cons.mp h with h1 | h1
    · cases h1; simp [mfind]
    · have hk : ek ≠ k := by
        intro hc
        exact hn.1 (hc ▸ (List.mem_map.mpr ⟨(k, v), h1, rfl⟩))
      simp only [mfind, if_neg hk]
      exact ih hn.2 h1

theorem mfind_eq_none_iff {α : Type} {m : List (Nat × α)} {k : Nat} :
    mfind m k = none ↔ k ∉ keys m := by
  induction m with
  | nil => simp [mfind, keys]
  | cons e t ih =>
    obtain ⟨ek, ev⟩ := e
    by_cases hk : ek = k
    · subst hk; simp [mfind, keys]
    · simp only [mfind, if_neg hk, ih, keys, List.map_cons, List.mem_cons]
      constructor
      · rintro h (h1 | h1)
        · exact hk h1.symm
        · exact h h1
      · intro h h1
        exact h (Or.inr h1)

theorem mem_keys_of_mem {α : Type} {m : List (Nat × α)} {k : Nat} {v : α}
    (h : (k, v) ∈ m) : k ∈ keys m :=
  List.mem_map.mpr ⟨(k, v), h, rfl⟩

theorem exists_of_mem_keys {α : Type} {m : List (Nat × α)} {k : Nat}
    (h : k ∈ keys m) : ∃ v, (k, v) ∈ m := by
  rcases List.mem_map.mp h with ⟨⟨a, w⟩, hm, he⟩
  exact ⟨w, by simpa [← he] using hm⟩

theorem mem_minsert_elim {α : Type} {m : List (Nat × α)} {k : Nat} {v : α}
    {a : Nat} {w : α} (hn : (keys m).Nodup) (h : (a, w) ∈ minsert m k v) :
    (a = k ∧ w = v) ∨ ((a, w) ∈ m ∧ a ≠ k) := by
  induction m with
  | nil =>
    simp [minsert] at h
    exact Or.inl h
  | cons e t ih =>
    obtain ⟨ek, ev⟩ := e
    simp only [keys, List.map_cons, List.nodup_cons] at hn
    by_cases hk : ek = k
    · subst hk
      simp only [minsert, if_pos rfl] at h
      rcases List.mem_cons.mp h with h1 | h1
      · cases h1; exact Or.inl ⟨rfl, rfl⟩
      · refine Or.inr ⟨List.mem_cons_of_mem _ h1, ?_⟩
        intro hc
        subst hc
        exact hn.1 (mem_keys_of_mem h1)
    · simp only [minsert, if_neg hk] at h
      rcases List.mem_cons.mp h with h1 | h1
      · cases h1
        exact Or.inr ⟨List.mem_cons_self _ _, hk⟩
      · rcases ih hn.2 h1 with h2 | h2
        · exact Or.inl h2
        · exact Or.inr ⟨List.mem_cons_of_mem _ h2.1, h2.2⟩

theorem mem_minsert_of_ne {α : Type} {m : List (Nat × α)} {k : Nat} {v : α}
    {a : Nat} {w : α} (h : (a, w) ∈ m) (hne : a ≠ k) : (a, w) ∈ minsert m k v := by
  induction m with
  | nil => simp at h
  | cons e t ih =>
    obtain ⟨ek, ev⟩ := e
    by_cases hk : ek = k
    · subst hk
      simp only [minsert, if_pos rfl]
      rcases List.mem_cons.mp h with h1 | h1
      · cases h1; exact absurd rfl hne
      · exact List.mem_cons_of_mem _ h1
    · simp only [minsert, if_neg hk]
      rcases List.mem_cons.mp h with h1 | h1
      · exact h1 ▸ List.mem_cons_self _ _
      · exact List.mem_cons_of_mem _ (ih h1)

theorem self_mem_minsert {α : Type} (m : List (Nat × α)) (k : Nat) (v : α) :
    (k, v) ∈ minsert m k v := by
  induction m with
  | nil => simp [minsert]
  | cons e t ih =>
    obtain ⟨ek, ev⟩ := e
    by_cases hk : ek = k
    · simp [minsert, hk]
    · simp only [minsert, if_neg hk]
      exact List.mem_cons_of_mem _ ih

theorem keys_minsert_mem {α : Type} {m : List (Nat × α)} {k : Nat} (v : α)
    (h : k ∈ keys m) : keys (minsert m k v) = keys m := by
  induction m with
  | nil => simp [keys] at h
  | cons e t ih =>
    obtain ⟨ek, ev⟩ := e
    by_cases hk : ek = k
    · simp [minsert, hk, keys]
    · simp only [keys, List.map_cons, List.mem_cons] at h
      rcases h with h1 | h1
      · exact absurd h1.symm hk
      · simp only [minsert, if_neg hk, keys, List.map_cons]
        rw [show List.map Prod.fst (minsert t k v) = keys (minsert t k v) from rfl,
          ih h1]
        rfl

theorem keys_minsert_not_mem {α : Type} {m : List (Nat × α)} {k : Nat} (v : α)
    (h : k ∉ keys m) : keys (minsert m k v) = keys m ++ [k] := by
  induction m with
  | nil => simp [minsert, keys]
  | cons e t ih =>
    obtain ⟨ek, ev⟩ := e
    simp only [keys, List.map_cons, List.mem_cons] at h
    push_neg at h
    simp only [minsert, if_neg (Ne.symm h.1), keys, List.map_cons]
    rw [show List.map Prod.fst (minsert t k v) = keys (minsert t k v) from rfl,
      ih h.2]
    rfl

theorem keys_minsert_nodup {α : Type} {m : List (Nat × α)} {k : Nat} (v : α)
    (hn : (keys m).Nodup) : (keys (minsert m k v)).Nodup := by
  by_cases h : k ∈ keys m
  · rw [keys_minsert_mem v h]; exact hn
  · rw [keys_minsert_not_mem v h]
    simpa [List.nodup_append] using ⟨hn, h⟩

theorem mem_of_mem_merase {α : Type} {m : List (Nat × α)} {k : Nat}
    {a : Nat} {w : α} (h : (a, w) ∈ merase m k) : (a, w) ∈ m := by
  induction m with
  | nil => simp [merase] at h
  | cons e t ih =>
    obtain ⟨ek, ev⟩ := e
    by_cases hk : ek = k
    · simp only [merase, if_pos hk] at h
      exact List.mem_cons_of_mem _ h
    · simp only [merase, if_neg hk] at h
      rcases List.mem_cons.mp h with h1 | h1
      · exact h1 ▸ List.mem_cons_self _ _
      · exact List.mem_cons_of_mem _ (ih h1)

theorem mem_merase_of_ne {α : Type} {m : List (Nat × α)} {k : Nat}
    {a : Nat} {w : α} (h : (a, w) ∈ m) (hne : a ≠ k) : (a, w) ∈ merase m k := by
  induction m with
  | nil => simp at h
  | cons e t ih =>
    obtain ⟨ek, ev⟩ := e
    by_cases hk : ek = k
    · subst hk
      simp only [merase, if_pos rfl]
      rcases List.mem_cons.mp h with h1 | h1
      · cases h1; exact absurd rfl hne
      · exact h1
    · simp only [merase, if_neg hk]
      rcases List.mem_cons.mp h with h1 | h1
      · exact h1 ▸ List.mem_cons_self _ _
      · exact List.mem_cons_of_mem _ (ih h1)

theorem keys_merase_sub {α : Type} {m : List (Nat × α)} {k : Nat} :
    ∀ a ∈ keys (merase m k), a ∈ keys m := by
  intro a ha
  rcases exists_of_mem_keys ha with ⟨w, hw⟩
  exact mem_keys_of_mem (mem_of_mem_merase hw)

theorem keys_merase_nodup {α : Type} {m : List (Nat × α)} {k : Nat}
    (hn : (keys m).Nodup) : (keys (merase m k)).Nodup := by
  induction m with
  | nil => simp [merase, keys]
  | cons e t ih =>
    obtain ⟨ek, ev⟩ := e
    simp only [keys, List.map_cons, List.nodup_cons] at hn
    by_cases hk : ek = k
    · simpa [merase, hk, keys] using hn.2
    · simp only [merase, if_neg hk, keys, List.map_cons, List.nodup_cons]
      constructor
      · intro hc
        exact hn.1 (keys_merase_sub _ hc)
      · exact ih hn.2

theorem mfind_merase_self {α : Type} {m : List (Nat × α)} {k : Nat}
    (hn : (keys m).Nodup) : mfind (merase m k) k = none := by
  rw [mfind_eq_none_iff]
  intro hc
  induction m with
  | nil => simp [merase, keys] at hc
  | cons e t ih =>
    obtain ⟨ek, ev⟩ := e
    simp only [keys, List.map_cons, List.nodup_cons] at hn
    by_cases hk : ek = k
    · subst hk
      simp only [merase, if_pos rfl] at hc
      exact hn.1 hc
    · simp only [merase, if_neg hk, keys, List.map_cons, List.mem_cons] at hc
      rcases hc with h1 | h1
      · exact hk h1.symm
      · exact ih hn.2 h1

theorem mfind_merase_ne {α : Type} {m : List (Nat × α)} {k a : Nat}
    (hne : a ≠ k) : mfind (merase m k) a = mfind m a := by
  induction m with
  | nil => simp [merase]
  | cons e t ih =>
    obtain ⟨ek, ev⟩ := e
    by_cases hk : ek = k
    · subst hk
      have h1 : merase ((ek, ev) :: t) ek = t := by simp [merase]
      have h2 : mfind ((ek, ev) :: t) a = mfind t a := by
        simp only [mfind]
        rw [if_neg (fun hc : ek = a => hne hc.symm)]
      rw [h1, h2]
    · by_cases ha : ek = a
      · subst ha
        simp [merase, hk, mfind]
      · simp [merase, hk, mfind, ha, ih]

/- ### Helper lemmas: maxEntry / minEntry -/

theorem maxEntry_eq_none_iff {α : Type} {m : List (Nat × α)} :
    maxEntry m = none ↔ m = [] := by
  cases m with
  | nil => simp [maxEntry]
  | cons e t =>
    simp only [maxEntry]
    cases maxEntry t with
    | none => simp
    | some e' =>
      by_cases h : e.1 < e'.1 <;> simp [h]

theorem maxEntry_mem {α : Type} {m : List (Nat × α)} {e : Nat × α}
    (h : maxEntry m = some e) : e ∈ m := by
  induction m generalizing e with
  | nil => simp [maxEntry] at h
  | cons a t ih =>
    rw [maxEntry] at h
    cases hm : maxEntry t with
    | none =>
      simp only [hm] at h
      cases h
      exact List.mem_cons_self _ _
    | some e' =>
      simp only [hm] at h
      by_cases hlt : a.1 < e'.1
      · rw [if_pos hlt] at h
        cases h
        exact List.mem_cons_of_mem _ (ih hm)
      · rw [if_neg hlt] at h
        cases h
        exact List.mem_cons_self _ _

theorem maxEntry_isTop {α : Type} {m : List (Nat × α)} {e : Nat × α}
    (h : maxEntry m = some e) : ∀ a ∈ m, a.1 ≤ e.1 := by
  induction m generalizing e with
  | nil => simp [maxEntry] at h
  | cons x t ih =>
    intro a ha
    rw [maxEntry] at h
    cases hm : maxEntry t with
    | none =>
      simp only [hm] at h
      cases h
      rcases List.mem_cons.mp ha with h1 | h1
      · exact h1 ▸ le_refl _
      · rw [maxEntry_eq_none_iff] at hm
        simp [hm] at h1
    | some e' =>
      simp only [hm] at h
      rcases List.mem_cons.mp ha with h1 | h1
      · subst h1
        by_cases hlt : a.1 < e'.1
        · rw [if_pos hlt] at h; cases h; omega
        · rw [if_neg hlt] at h; cases h; exact le_refl _
      · have := ih hm a h1
        by_cases hlt : x.1 < e'.1
        · rw [if_pos hlt] at h; cases h; exact this
        · rw [if_neg hlt] at h; cases h; omega

theorem minEntry_eq_none_iff {α : Type} {m : List (Nat × α)} :
    minEntry m = none ↔ m = [] := by
  cases m with
  | nil => simp [minEntry]
  | cons e t =>
    simp only [minEntry]
    cases minEntry t with
    | none => simp
    | some e' =>
      by_cases h : e'.1 < e.1 <;> simp [h]

theorem minEntry_mem {α : Type} {m : List (Nat × α)} {e : Nat × α}
    (h : minEntry m = some e) : e ∈ m := by
  induction m generalizing e with
  | nil => simp [minEntry] at h
  | cons a t ih =>
    rw [minEntry] at h
    cases hm : minEntry t with
    | none =>
      simp only [hm] at h
      cases h
      exact List.mem_cons_self _ _
    | some e' =>
      simp only [hm] at h
      by_cases hlt : e'.1 < a.1
      · rw [if_pos hlt] at h
        cases h
        exact List.mem_cons_of_mem _ (ih hm)
      · rw [if_neg hlt] at h
        cases h
        exact List.mem_cons_self _ _

theorem minEntry_isBot {α : Type} {m : List (Nat × α)} {e : Nat × α}
    (h : minEntry m = some e) : ∀ a ∈ m, e.1 ≤ a.1 := by
  induction m generalizing e with
  | nil => simp [minEntry] at h
  | cons x t ih =>
    intro a ha
    rw [minEntry] at h
    cases hm : minEntry t with
    | none =>
      simp only [hm] at h
      cases h
      rcases List.mem_cons.mp ha with h1 | h1
      · exact h1 ▸ le_refl _
      · rw [minEntry_eq_none_iff] at hm
        simp [hm] at h1
    | some e' =>
      simp only [hm] at h
      rcases List.mem_cons.mp ha with h1 | h1
      · subst h1
        by_cases hlt : e'.1 < a.1
        · rw [if_pos hlt] at h; cases h; omega
        · rw [if_neg hlt] at h; cases h; exact le_refl _
      · have := ih hm a h1
        by_cases hlt : e'.1 < x.1
        · rw [if_pos hlt] at h; cases h; exact this
        · rw [if_neg hlt] at h; cases h; omega

/- ### Helper lemmas: sums of remaining quantities -/

theorem sumRem_nil (h : List Order) : sumRem h [] = 0 := rfl

theorem sumRem_cons (h : List Order) (p : Nat) (l : List Nat) :
    sumRem h (p :: l) = remOf h p + sumRem h l := by
  simp [sumRem]

theorem sumRem_append (h : List Order) (l l' : List Nat) :
    sumRem h (l ++ l') = sumRem h l + sumRem h l' := by
  simp [sumRem]

theorem sumRem_congr {h h' : List Order} {l : List Nat}
    (hc : ∀ p ∈ l, remOf h p = remOf h' p) : sumRem h l = sumRem h' l := by
  induction l with
  | nil => rfl
  | cons p t ih =>
    rw [sumRem_cons, sumRem_cons, hc p (List.mem_cons_self _ _),
      ih (fun q hq => hc q (List.mem_cons_of_mem _ hq))]

theorem sumRem_hset_not_mem {h : List Order} {l : List Nat} {p : Nat} (o : Order)
    (hp : p ∉ l) : sumRem (hset h p o) l = sumRem h l :=
  sumRem_congr (fun q hq => remOf_hset_ne o (fun hc => hp (hc ▸ hq)))

theorem sumRem_hset_mem {h : List Order} {l : List Nat} {p : Nat} (o : Order)
    (hn : l.Nodup) (hp : p ∈ l) (hlen : p < h.length) :
    sumRem (hset h p o) l + remOf h p = sumRem h l + o.remaining := by
  induction l with
  | nil => simp at hp
  | cons q t ih =>
    rw [List.nodup_cons] at hn
    rcases List.mem_cons.mp hp with h1 | h1
    · subst h1
      rw [sumRem_cons, sumRem_cons, remOf_hset_self o hlen,
        sumRem_hset_not_mem o hn.1]
      omega
    · have hq : q ≠ p := fun hc => hn.1 (hc ▸ h1)
      rw [sumRem_cons, sumRem_cons, remOf_hset_ne o hq]
      have := ih hn.2 h1
      omega

theorem remOf_le_sumRem {h : List Order} {l : List Nat} {p : Nat} (hp : p ∈ l) :
    remOf h p ≤ sumRem h l := by
  induction l with
  | nil => simp at hp
  | cons q t ih =>
    rw [sumRem_cons]
    rcases List.mem_cons.mp hp with h1 | h1
    · subst h1; omega
    · have := ih h1; omega

theorem sumRem_append_heap {h : List Order} (h' : List Order) {l : List Nat}
    (hl : ∀ p ∈ l, p < h.length) : sumRem (h ++ h') l = sumRem h l :=
  sumRem_congr (fun p hp => remOf_append_lt (hl p hp))

/- ### Helper lemmas: removeFirstById -/

theorem removeFirstById_none_spec {heap : List Order} {oid : Nat} {l : List Nat}
    (h : removeFirstById heap oid l = none) : ∀ p ∈ l, idOf heap p ≠ some oid := by
  induction l with
  | nil => simp
  | cons p ps ih =>
    intro q hq
    by_cases hid : idOf heap p = some oid
    · simp [removeFirstById, hid] at h
    · simp only [removeFirstById, if_neg hid] at h
      cases hr : removeFirstById heap oid ps with
      | none =>
        rcases List.mem_cons.mp hq with h1 | h1
        · exact h1 ▸ hid
        · exact ih hr q h1
      | some r => rw [hr] at h; cases h

theorem removeFirstById_some_spec {heap : List Order} {oid : Nat} :
    ∀ {l : List Nat} {q : Nat} {rest : List Nat},
    removeFirstById heap oid l = some (q, rest) →
    ∃ l₁ l₂, l = l₁ ++ q :: l₂ ∧ rest = l₁ ++ l₂ ∧ idOf heap q = some oid ∧
      ∀ x ∈ l₁, idOf heap x ≠ some oid := by
  intro l
  induction l with
  | nil => intro q rest h; simp [removeFirstById] at h
  | cons p ps ih =>
    intro q rest h
    by_cases hid : idOf heap p = some oid
    · simp only [removeFirstById, if_pos hid] at h
      cases h
      exact ⟨[], ps, rfl, rfl, hid, by simp⟩
    · simp only [removeFirstById, if_neg hid] at h
      cases hr : removeFirstById heap oid ps with
      | none => rw [hr] at h; cases h
      | some r =>
        rw [hr] at h
        obtain ⟨q', rest'⟩ := r
        cases h
        rcases ih hr with ⟨l₁, l₂, he, hrest, hq, hl₁⟩
        refine ⟨p :: l₁, l₂, by simp [he], by simp [hrest], hq, ?_⟩
        intro x hx
        rcases List.mem_cons.mp hx with h1 | h1
        · exact h1 ▸ hid
        · exact hl₁ x h1

theorem removeFirstById_mem {heap : List Order} {oid : Nat} {l : List Nat}
    {q : Nat} {rest : List Nat} (h : removeFirstById heap oid l = some (q, rest)) :
    q ∈ l := by
  rcases removeFirstById_some_spec h with ⟨l₁, l₂, he, _, _, _⟩
  subst he
  simp

theorem removeFirstById_rest_sub {heap : List Order} {oid : Nat} {l : List Nat}
    {q : Nat} {rest : List Nat} (h : removeFirstById heap oid l = some (q, rest)) :
    ∀ x ∈ rest, x ∈ l := by
  rcases removeFirstById_some_spec h with ⟨l₁, l₂, he, hrest, _, _⟩
  subst he; subst hrest
  intro x hx
  simp only [List.mem_append] at hx ⊢
  rcases hx with h1 | h1
  · exact Or.inl h1
  · exact Or.inr (List.mem_cons_of_mem _ h1)

theorem removeFirstById_sum {heap : List Order} {oid : Nat} {l : List Nat}
    {q : Nat} {rest : List Nat} (h : removeFirstById heap oid l = some (q, rest)) :
    sumRem heap l = remOf heap q + sumRem heap rest := by
  rcases removeFirstById_some_spec h with ⟨l₁, l₂, he, hrest, _, _⟩
  subst he; subst hrest
  rw [sumRem_append, sumRem_cons, sumRem_append]
  omega

theorem removeFirstById_nodup {heap : List Order} {oid : Nat} {l : List Nat}
    {q : Nat} {rest : List Nat} (h : removeFirstById heap oid l = some (q, rest))
    (hn : l.Nodup) : rest.Nodup ∧ q ∉ rest := by
  rcases removeFirstById_some_spec h with ⟨l₁, l₂, he, hrest, _, _⟩
  subst he; subst hrest
  rw [List.nodup_middle, List.nodup_cons] at hn
  exact ⟨hn.2, hn.1⟩

theorem removeFirstById_mem_rest {heap : List Order} {oid : Nat} {l : List Nat}
    {q : Nat} {rest : List Nat} (h : removeFirstById heap oid l = some (q, rest))
    (hn : l.Nodup) : ∀ x, x ∈ rest ↔ (x ∈ l ∧ x ≠ q) := by
  rcases removeFirstById_nodup h hn with ⟨hrn, hqr⟩
  rcases removeFirstById_some_spec h with ⟨l₁, l₂, he, hrest, _, _⟩
  subst he; subst hrest
  intro x
  constructor
  · intro hx
    refine ⟨?_, fun hc => hqr (hc ▸ hx)⟩
    simp only [List.mem_append] at hx ⊢
    rcases hx with h1 | h1
    · exact Or.inl h1
    · exact Or.inr (List.mem_cons_of_mem _ h1)
  · rintro ⟨hx, hne⟩
    simp only [List.mem_append, List.mem_cons] at hx
    rcases hx with h1 | h1 | h1
    · exact List.mem_append.mpr (Or.inl h1)
    · exact absurd h1 hne
    · exact List.mem_append.mpr (Or.inr h1)

/- ### Helper lemmas: OrderBook structure -/

theorem sideLevels_set_self (b : OrderBook) (s : OrderSide)
    (m : List (Nat × PriceLevel)) : (b.setSideLevels s m).sideLevels s = m := by
  cases s <;> rfl

theorem sideLevels_set_other {s s' : OrderSide} (b : OrderBook)
    (m : List (Nat × PriceLevel)) (h : s' ≠ s) :
    (b.setSideLevels s m).sideLevels s' = b.sideLevels s' := by
  cases s <;> cases s' <;> first | rfl | exact absurd rfl h

theorem setSideLevels_index (b : OrderBook) (s : OrderSide)
    (m : List (Nat × PriceLevel)) : (b.setSideLevels s m).index = b.index := by
  cases s <;> rfl

theorem setSideLevels_heap (b : OrderBook) (s : OrderSide)
    (m : List (Nat × PriceLevel)) : (b.setSideLevels s m).heap = b.heap := by
  cases s <;> rfl

theorem bids_eq_sideLevels (b : OrderBook) : b.bids = b.sideLevels OrderSide.BUY := rfl

theorem asks_eq_sideLevels (b : OrderBook) : b.asks = b.sideLevels OrderSide.SELL := rfl

theorem opposite_ne (s : OrderSide) : s.opposite ≠ s := by
  cases s <;> simp [OrderSide.opposite]

theorem opposite_opposite (s : OrderSide) : s.opposite.opposite = s := by
  cases s <;> rfl

/-- Shape of a successful `OrderBook::cancelOrder`: some intermediate
book `b1` (the book after the price-level surgery) has its index entry
erased, and the heap and index of `b1` agree with those of `b`. -/
theorem cancelOrder_shape (b : OrderBook) (oid : Nat) {p : Nat}
    (hf : mfind b.index oid = some p) :
    ∃ b1 : OrderBook, b.cancelOrder oid = ({ b1 with index := merase b1.index oid }, true) ∧
      b1.index = b.index ∧ b1.heap = b.heap := by
  unfold OrderBook.cancelOrder
  rw [hf]
  dsimp only
  cases hml : mfind (b.sideLevels ((hget b.heap p).getD default).side)
      ((hget b.heap p).getD default).price with
  | none =>
    dsimp only
    exact ⟨b, rfl, rfl, rfl⟩
  | some lvl =>
    dsimp only
    exact ⟨_, rfl, setSideLevels_index _ _ _, setSideLevels_heap _ _ _⟩

theorem sideLevels_index_update (b : OrderBook) (ix : List (Nat × Nat)) (s : OrderSide) :
    ({ b with index := ix } : OrderBook).sideLevels s = b.sideLevels s := by
  cases s <;> rfl

/-- Shape of `OrderBook::addOrder` when the price level already exists. -/
theorem addOrder_eq_found {b : OrderBook} {p : Nat} {o : Order} {lvl : PriceLevel}
    (h : hget b.heap p = some o) (hml : mfind (b.sideLevels o.side) o.price = some lvl) :
    b.addOrder p =
      (({ b with index := minsert b.index o.id p } : OrderBook).setSideLevels o.side
        (minsert (b.sideLevels o.side) o.price (lvl.addOrder b.heap p)), true) := by
  unfold OrderBook.addOrder
  rw [h]
  dsimp only
  rw [sideLevels_index_update, hml]

/-- Shape of `OrderBook::addOrder` when the price level is created. -/
theorem addOrder_eq_new {b : OrderBook} {p : Nat} {o : Order}
    (h : hget b.heap p = some o) (hml : mfind (b.sideLevels o.side) o.price = none) :
    b.addOrder p =
      (({ b with index := minsert b.index o.id p } : OrderBook).setSideLevels o.side
        (minsert (b.sideLevels o.side) o.price
          (PriceLevel.addOrder b.heap ⟨o.price, 0, []⟩ p)), true) := by
  unfold OrderBook.addOrder
  rw [h]
  dsimp only
  rw [sideLevels_index_update, hml]

/- ### Sample books used by witnesses and counterexamples -/

/-- A book with one resting BUY order, id 1, price 100, remaining 5. -/
def restingBook1 : OrderBook :=
  ⟨[⟨1, OrderSide.BUY, 100, 5, 5, 0⟩], [(100, ⟨100, 5, [0]⟩)], [], [(1, 0)]⟩

/-- `restingBook1` together with a freshly constructed second order object
that reuses the resting id 1 (heap pointer 1), as would happen when a
caller submits a second order with a duplicate id. -/
def dupIdBook : OrderBook :=
  ⟨[⟨1, OrderSide.BUY, 100, 5, 5, 0⟩, ⟨1, OrderSide.SELL, 200, 7, 7, 1⟩],
   [(100, ⟨100, 5, [0]⟩)], [], [(1, 0)]⟩

/- ### Claim C7 -/

/-- C7 counterexample: in `dupIdBook` the id 1 is already resting
(`mfind index 1 = some 0`), yet `addOrder` of the second order object
with the same id 1 (heap pointer 1) returns `true` — there is no
`DuplicateId` failure — and the book does change. -/
theorem addOrder_duplicate_succeeds_cex :
    mfind dupIdBook.index 1 = some 0 ∧
    (dupIdBook.addOrder 1).2 = true ∧
    (dupIdBook.addOrder 1).1 ≠ dupIdBook := by decide

/-- C7 (amended): `OrderBook::addOrder` performs no duplicate-id check.
Adding any order (even one whose id is already resting) succeeds with
`true`, overwrites the id's binding in the index with the new pointer,
and appends the pointer to the FIFO queue of its side's level at its
price. -/
theorem addOrder_overwrites_on_duplicate (b : OrderBook) (p : Nat) (o : Order)
    (h : hget b.heap p = some o) :
    (b.addOrder p).2 = true ∧
    mfind (b.addOrder p).1.index o.id = some p ∧
    ∃ lvl : PriceLevel, mfind ((b.addOrder p).1.sideLevels o.side) o.price = some lvl ∧
      p ∈ lvl.orders := by
  cases hml : mfind (b.sideLevels o.side) o.price with
  | none =>
    rw [addOrder_eq_new h hml]
    refine ⟨rfl, ?_, ?_⟩
    · rw [setSideLevels_index]
      exact mfind_minsert_self _ _ _
    · rw [sideLevels_set_self]
      exact ⟨_, mfind_minsert_self _ _ _, by simp [PriceLevel.addOrder]⟩
  | some lvl =>
    rw [addOrder_eq_found h hml]
    refine ⟨rfl, ?_, ?_⟩
    · rw [setSideLevels_index]
      exact mfind_minsert_self _ _ _
    · rw [sideLevels_set_self]
      exact ⟨_, mfind_minsert_self _ _ _, by simp [PriceLevel.addOrder]⟩

/-- Witness for the amended C7 theorem at a concrete input. -/
theorem addOrder_overwrites_on_duplicate_witness :
    hget dupIdBook.heap 1 = some ⟨1, OrderSide.SELL, 200, 7, 7, 1⟩ ∧
    ((dupIdBook.addOrder 1).2 = true ∧
      mfind (dupIdBook.addOrder 1).1.index 1 = some 1 ∧
      ∃ lvl : PriceLevel,
        mfind ((dupIdBook.addOrder 1).1.sideLevels OrderSide.SELL) 200 = some lvl ∧
        1 ∈ lvl.orders) :=
  ⟨by decide, addOrder_overwrites_on_duplicate dupIdBook 1
    ⟨1, OrderSide.SELL, 200, 7, 7, 1⟩ (by decide)⟩

/- ### Claim C8 -/

/-- C8 counterexample: submitting a zero-quantity order is *not*
rejected — `submitOrder` reports success (`true`, the same value as for
any accepted order) and no `InvalidQuantity` error exists anywhere in
the engine; the order is silently dropped. -/
theorem zeroQuantity_not_rejected_cex :
    (submitOrder ⟨1, OrderSide.BUY, 100, 0, 0, 0⟩ OrderBook.empty).2.2 = true ∧
    (submitOrder ⟨1, OrderSide.BUY, 100, 0, 0, 0⟩ OrderBook.empty).2.1 = [] ∧
    (submitOrder ⟨1, OrderSide.BUY, 100, 0, 0, 0⟩ OrderBook.empty).1.bids = [] ∧
    (submitOrder ⟨1, OrderSide.BUY, 100, 0, 0, 0⟩ OrderBook.empty).1.index = [] := by
  decide

/-- C8 (amended): a submission whose remaining quantity is zero emits no
trade and never enters the book — the bid map, ask map and id index are
untouched — but it is *accepted* (`submitOrder` returns `true`; there is
no `InvalidQuantity` rejection in the code). -/
theorem zeroQuantity_silently_discarded (b : OrderBook) (o : Order)
    (h : o.remaining = 0) :
    (submitOrder o b).2.1 = [] ∧ (submitOrder o b).2.2 = true ∧
    (submitOrder o b).1.bids = b.bids ∧ (submitOrder o b).1.asks = b.asks ∧
    (submitOrder o b).1.index = b.index := by
  unfold submitOrder
  rw [h]
  dsimp only [matchLoop]
  rw [if_pos (show remOf (b.heap ++ [o]) b.heap.length = 0 by
    simp [remOf, hget_append_self, h])]
  exact ⟨rfl, rfl, rfl, rfl, rfl⟩

/-- Witness for the amended C8 theorem at a concrete input. -/
theorem zeroQuantity_silently_discarded_witness :
    (submitOrder ⟨9, OrderSide.SELL, 50, 0, 0, 3⟩ restingBook1).2.1 = [] ∧
    (submitOrder ⟨9, OrderSide.SELL, 50, 0, 0, 3⟩ restingBook1).2.2 = true ∧
    (submitOrder ⟨9, OrderSide.SELL, 50, 0, 0, 3⟩ restingBook1).1.bids = restingBook1.bids ∧
    (submitOrder ⟨9, OrderSide.SELL, 50, 0, 0, 3⟩ restingBook1).1.asks = restingBook1.asks ∧
    (submitOrder ⟨9, OrderSide.SELL, 50, 0, 0, 3⟩ restingBook1).1.index = restingBook1.index :=
  zeroQuantity_silently_discarded restingBook1 ⟨9, OrderSide.SELL, 50, 0, 0, 3⟩ rfl

/- ### Claim C9 -/

/-- C9: cancelling an id that is not in the index is a no-op that
returns `false` (the whole book — bid map, ask map, id index — is
returned unchanged); cancelling an id that is present returns `true`. -/
theorem cancelOrder_unknown_noop_known_true (b : OrderBook) (oid : Nat) :
    (mfind b.index oid = none → b.cancelOrder oid = (b, false)) ∧
    (mfind b.index oid ≠ none → (b.cancelOrder oid).2 = true) := by
  constructor
  · intro h
    unfold OrderBook.cancelOrder
    rw [h]
  · intro h
    cases hf : mfind b.index oid with
    | none => exact absurd hf h
    | some p =>
      rcases cancelOrder_shape b oid hf with ⟨b1, he, _, _⟩
      rw [he]

/-- Witness for C9 at concrete inputs: id 99 is unknown in
`restingBook1`, id 1 is resting there. -/
theorem cancelOrder_unknown_noop_known_true_witness :
    restingBook1.cancelOrder 99 = (restingBook1, false) ∧
    (restingBook1.cancelOrder 1).2 = true :=
  ⟨(cancelOrder_unknown_noop_known_true restingBook1 99).1 (by decide),
   (cancelOrder_unknown_noop_known_true restingBook1 1).2 (by decide)⟩

/- ### Claim C10 -/

/-- C10: for an id that is resting in the book,
`MatchingEngine::cancelOrder` returns `true` and the order callback is
invoked with the null pointer (`some none`: the callback fires, its
argument is `getOrder` looked up *after* the id was erased from the
index, hence null), not with the cancelled order. -/
theorem cancel_callback_receives_none (b : OrderBook) (oid : Nat)
    (hn : (keys b.index).Nodup) (h : mfind b.index oid ≠ none) :
    (engineCancelOrder oid b).2.1 = true ∧
    (engineCancelOrder oid b).2.2 = some none := by
  cases hf : mfind b.index oid with
  | none => exact absurd hf h
  | some p =>
    rcases cancelOrder_shape b oid hf with ⟨b1, he, hidx, hheap⟩
    unfold engineCancelOrder
    rw [he]
    dsimp only
    refine ⟨rfl, ?_⟩
    unfold OrderBook.getOrder
    have hm : mfind (merase b1.index oid) oid = none := by
      rw [hidx]; exact mfind_merase_self hn
    rw [hm]
    rfl

/-- Witness for C10 at a concrete input. -/
theorem cancel_callback_receives_none_witness :
    (engineCancelOrder 1 restingBook1).2.1 = true ∧
    (engineCancelOrder 1 restingBook1).2.2 = some none :=
  cancel_callback_receives_none restingBook1 1 (by decide) (by decide)

/- ### More helper lemmas -/

theorem hget_mem {h : List Order} : ∀ {p : Nat} {o : Order}, hget h p = some o → o ∈ h := by
  induction h with
  | nil => intro p o hp; simp [hget] at hp
  | cons a t ih =>
    intro p o hp
    cases p with
    | zero =>
      simp only [hget] at hp
      cases hp
      exact List.mem_cons_self _ _
    | succ n => exact List.mem_cons_of_mem _ (ih hp)

theorem hget_ids_ne : ∀ {h : List Order}, (h.map Order.id).Nodup →
    ∀ {p q : Nat} {o₁ o₂ : Order},
    hget h p = some o₁ → hget h q = some o₂ → p ≠ q → o₁.id ≠ o₂.id := by
  intro h
  induction h with
  | nil => intro _ p q o₁ o₂ hp; simp [hget] at hp
  | cons a t ih =>
    intro hn p q o₁ o₂ hp hq hne
    simp only [List.map_cons, List.nodup_cons] at hn
    cases p with
    | zero =>
      cases q with
      | zero => exact absurd rfl hne
      | succ n =>
        simp only [hget] at hp hq
        cases hp
        intro hc
        exact hn.1 (hc ▸ List.mem_map.mpr ⟨o₂, hget_mem hq, rfl⟩)
    | succ n =>
      cases q with
      | zero =>
        simp only [hget] at hp hq
        cases hq
        intro hc
        exact hn.1 (hc ▸ List.mem_map.mpr ⟨o₁, hget_mem hp, rfl⟩)
      | succ m =>
        exact ih hn.2 hp hq (fun hc => hne (by omega))

theorem mem_val_eq {α : Type} {m : List (Nat × α)} (hn : (keys m).Nodup) {k : Nat}
    {a b : α} (h1 : (k, a) ∈ m) (h2 : (k, b) ∈ m) : a = b := by
  have ha := mfind_eq_of_mem hn h1
  have hb := mfind_eq_of_mem hn h2
  rw [ha] at hb
  cases hb
  rfl

theorem maxEntry_key_congr {α β : Type} :
    ∀ {m : List (Nat × α)} {m' : List (Nat × β)}, keys m = keys m' →
    (maxEntry m).map Prod.fst = (maxEntry m').map Prod.fst := by
  intro m
  induction m with
  | nil =>
    intro m' h
    have : m' = [] := by
      cases m' with
      | nil => rfl
      | cons e t => simp [keys] at h
    subst this
    rfl
  | cons e t ih =>
    intro m' h
    cases m' with
    | nil => simp [keys] at h
    | cons e' t' =>
      simp only [keys, List.map_cons, List.cons.injEq] at h
      have hkeys : keys t = keys t' := h.2
      have hk : e.1 = e'.1 := h.1
      rw [maxEntry, maxEntry]
      have := ih hkeys
      cases hmt : maxEntry t with
      | none =>
        rw [hmt] at this
        cases hmt' : maxEntry t' with
        | none => simp [hk]
        | some x => rw [hmt'] at this; simp at this
      | some x =>
        rw [hmt] at this
        cases hmt' : maxEntry t' with
        | none => rw [hmt'] at this; simp at this
        | some x' =>
          rw [hmt'] at this
          have hx : x.1 = x'.1 := by simpa using this
          dsimp only
          by_cases hlt : e.1 < x.1
          · rw [if_pos hlt, if_pos (show e'.1 < x'.1 by omega)]
            simp [hx]
          · rw [if_neg hlt, if_neg (show ¬ e'.1 < x'.1 by omega)]
            simp [hk]

theorem minEntry_key_congr {α β : Type} :
    ∀ {m : List (Nat × α)} {m' : List (Nat × β)}, keys m = keys m' →
    (minEntry m).map Prod.fst = (minEntry m').map Prod.fst := by
  intro m
  induction m with
  | nil =>
    intro m' h
    have : m' = [] := by
      cases m' with
      | nil => rfl
      | cons e t => simp [keys] at h
    subst this
    rfl
  | cons e t ih =>
    intro m' h
    cases m' with
    | nil => simp [keys] at h
    | cons e' t' =>
      simp only [keys, List.map_cons, List.cons.injEq] at h
      have hkeys : keys t = keys t' := h.2
      have hk : e.1 = e'.1 := h.1
      rw [minEntry, minEntry]
      have := ih hkeys
      cases hmt : minEntry t with
      | none =>
        rw [hmt] at this
        cases hmt' : minEntry t' with
        | none => simp [hk]
        | some x => rw [hmt'] at this; simp at this
      | some x =>
        rw [hmt] at this
        cases hmt' : minEntry t' with
        | none => rw [hmt'] at this; simp at this
        | some x' =>
          rw [hmt'] at this
          have hx : x.1 = x'.1 := by simpa using this
          dsimp only
          by_cases hlt : x.1 < e.1
          · rw [if_pos hlt, if_pos (show x'.1 < e'.1 by omega)]
            simp [hx]
          · rw [if_neg hlt, if_neg (show ¬ x'.1 < e'.1 by omega)]
            simp [hk]

theorem maxEntry_le_of_sub {α β : Type} {m : List (Nat × α)} {m' : List (Nat × β)}
    (hsub : ∀ a ∈ keys m', a ∈ keys m) {e : Nat × α} {e' : Nat × β}
    (h : maxEntry m = some e) (h' : maxEntry m' = some e') : e'.1 ≤ e.1 := by
  have hm' := maxEntry_mem h'
  have hk : e'.1 ∈ keys m := hsub _ (mem_keys_of_mem hm')
  rcases exists_of_mem_keys hk with ⟨v, hv⟩
  exact maxEntry_isTop h _ hv

theorem minEntry_ge_of_sub {α β : Type} {m : List (Nat × α)} {m' : List (Nat × β)}
    (hsub : ∀ a ∈ keys m', a ∈ keys m) {e : Nat × α} {e' : Nat × β}
    (h : minEntry m = some e) (h' : minEntry m' = some e') : e.1 ≤ e'.1 := by
  have hm' := minEntry_mem h'
  have hk : e'.1 ∈ keys m := hsub _ (mem_keys_of_mem hm')
  rcases exists_of_mem_keys hk with ⟨v, hv⟩
  exact minEntry_isBot h _ hv

theorem bestEntryFor_eq_none_iff {side : OrderSide} {m : List (Nat × PriceLevel)} :
    bestEntryFor side m = none ↔ m = [] := by
  cases side
  · exact maxEntry_eq_none_iff
  · exact minEntry_eq_none_iff

theorem bestEntryFor_mem {side : OrderSide} {m : List (Nat × PriceLevel)}
    {e : Nat × PriceLevel} (h : bestEntryFor side m = some e) : e ∈ m := by
  cases side
  · exact maxEntry_mem h
  · exact minEntry_mem h

/- ### The well-formedness invariant -/

/-- The pointer `p` does not occur in any price level of `b`. -/
def PtrFresh (b : OrderBook) (p : Nat) : Prop :=
  ∀ (s : OrderSide) (k : Nat) (lvl : PriceLevel),
    (k, lvl) ∈ b.sideLevels s → p ∉ lvl.orders

/-- Well-formedness of one price level present in the book under key `k`
on side `side`. -/
structure LevelWF (heap : List Order) (index : List (Nat × Nat))
    (side : OrderSide) (k : Nat) (lvl : PriceLevel) : Prop where
  nonempty : lvl.orders ≠ []
  nodup : lvl.orders.Nodup
  mem : ∀ p ∈ lvl.orders, ∃ o : Order, hget heap p = some o ∧ o.price = k ∧
    o.side = side ∧ 0 < o.remaining ∧ mfind index o.id = some p
  agg : lvl.total_quantity = sumRem heap lvl.orders

/-- The ids of all order objects ever allocated. -/
def heapIds (b : OrderBook) : List Nat := b.heap.map Order.id

/-- The global well-formedness invariant of the order book. -/
structure WF (b : OrderBook) : Prop where
  bidsKeys : (keys b.bids).Nodup
  asksKeys : (keys b.asks).Nodup
  idxKeys : (keys b.index).Nodup
  levelsWF : ∀ (s : OrderSide) {k : Nat} {lvl : PriceLevel},
    (k, lvl) ∈ b.sideLevels s → LevelWF b.heap b.index s k lvl
  disjoint : ∀ (s : OrderSide) (k : Nat) (lvl : PriceLevel)
    (s' : OrderSide) (k' : Nat) (lvl' : PriceLevel),
    (k, lvl) ∈ b.sideLevels s → (k', lvl') ∈ b.sideLevels s' →
    ¬(s = s' ∧ k = k') → ∀ p ∈ lvl.orders, p ∉ lvl'.orders
  idxWF : ∀ {i p : Nat}, (i, p) ∈ b.index →
    ∃ o : Order, hget b.heap p = some o ∧ o.id = i
  idsNodup : (heapIds b).Nodup
  nocross : b.bids ≠ [] → b.asks ≠ [] → b.getBestBid < b.getBestAsk

theorem WF.sideKeys {b : OrderBook} (hwf : WF b) (s : OrderSide) :
    (keys (b.sideLevels s)).Nodup := by
  cases s
  · exact hwf.bidsKeys
  · exact hwf.asksKeys

theorem WF.empty : WF OrderBook.empty := by
  refine ⟨by simp [OrderBook.empty, keys], by simp [OrderBook.empty, keys],
    by simp [OrderBook.empty, keys], ?_, ?_, ?_, ?_, ?_⟩
  · intro s k lvl h
    cases s <;> simp [OrderBook.empty, OrderBook.sideLevels] at h
  · intro s k lvl s' k' lvl' h
    cases s <;> simp [OrderBook.empty, OrderBook.sideLevels] at h
  · intro i p h
    simp [OrderBook.empty] at h
  · simp [heapIds, OrderBook.empty]
  · intro h
    simp [OrderBook.empty] at h

/- ### scanBest unfolding equations -/

theorem scanBest_nil (taker : Order) (heap : List Order) (acc : Option (Nat × Order))
    (bp : Nat) : scanBest taker heap [] acc bp = (acc, bp) := rfl

theorem scanBest_cons_dangling {taker : Order} {heap : List Order} {q : Nat}
    (rest : List Nat) (acc : Option (Nat × Order)) (bp : Nat)
    (hq : hget heap q = none) :
    scanBest taker heap (q :: rest) acc bp = scanBest taker heap rest acc bp := by
  rw [scanBest, hq]

theorem scanBest_cons_filled {taker : Order} {heap : List Order} {q : Nat} {oo : Order}
    (rest : List Nat) (acc : Option (Nat × Order)) (bp : Nat)
    (hq : hget heap q = some oo) (hr : oo.remaining = 0) :
    scanBest taker heap (q :: rest) acc bp = scanBest taker heap rest acc bp := by
  rw [scanBest, hq]
  dsimp only
  rw [if_pos hr]

theorem scanBest_cons_incompat {taker : Order} {heap : List Order} {q : Nat} {oo : Order}
    (rest : List Nat) (acc : Option (Nat × Order)) (bp : Nat)
    (hq : hget heap q = some oo) (hr : ¬oo.remaining = 0)
    (hc : ¬compatible taker oo = true) :
    scanBest taker heap (q :: rest) acc bp = scanBest taker heap rest acc bp := by
  rw [scanBest, hq]
  dsimp only
  rw [if_neg hr, if_neg hc]

theorem scanBest_cons_compat {taker : Order} {heap : List Order} {q : Nat} {oo : Order}
    (rest : List Nat) (acc : Option (Nat × Order)) (bp : Nat)
    (hq : hget heap q = some oo) (hr : ¬oo.remaining = 0)
    (hc : compatible taker oo = true) :
    scanBest taker heap (q :: rest) acc bp =
      scanBest taker heap rest
        (match acc with
         | none => some (q, oo)
         | some (mp, mo) =>
           if oo.timestamp < mo.timestamp then some (q, oo) else some (mp, mo))
        oo.price := by
  rw [scanBest, hq]
  dsimp only
  rw [if_neg hr, if_pos hc]

/- ### scanBest specification lemmas -/

/-- Once the accumulator holds a candidate, the scan keeps holding one,
and the timestamp of the final pick never exceeds the accumulator's. -/
theorem scanBest_persist (taker : Order) (heap : List Order) :
    ∀ (l : List Nat) (mp : Nat) (mo : Order) (bp : Nat),
    ∃ rp ro, (scanBest taker heap l (some (mp, mo)) bp).1 = some (rp, ro) ∧
      ro.timestamp ≤ mo.timestamp := by
  intro l
  induction l with
  | nil => intro mp mo bp; exact ⟨mp, mo, rfl, le_refl _⟩
  | cons x rest ih =>
    intro mp mo bp
    cases hx : hget heap x with
    | none => rw [scanBest_cons_dangling rest _ bp hx]; exact ih mp mo bp
    | some oo =>
      by_cases hr : oo.remaining = 0
      · rw [scanBest_cons_filled rest _ bp hx hr]; exact ih mp mo bp
      · by_cases hc : compatible taker oo = true
        · rw [scanBest_cons_compat rest _ bp hx hr hc]
          dsimp only
          by_cases hts : oo.timestamp < mo.timestamp
          · rw [if_pos hts]
            rcases ih x oo oo.price with ⟨rp, ro, hres, hle⟩
            exact ⟨rp, ro, hres, by omega⟩
          · rw [if_neg hts]
            exact ih mp mo oo.price
        · rw [scanBest_cons_incompat rest _ bp hx hr hc]; exact ih mp mo bp

/-- The final pick has the least timestamp among all valid compatible
candidates in the list. -/
theorem scanBest_min (taker : Order) (heap : List Order) :
    ∀ (l : List Nat) (acc : Option (Nat × Order)) (bp : Nat)
    {q : Nat} {oo : Order}, q ∈ l → hget heap q = some oo → ¬oo.remaining = 0 →
    compatible taker oo = true →
    ∀ {rp : Nat} {ro : Order}, (scanBest taker heap l acc bp).1 = some (rp, ro) →
    ro.timestamp ≤ oo.timestamp := by
  intro l
  induction l with
  | nil => intro acc bp q oo hq; simp at hq
  | cons x rest ih =>
    intro acc bp q oo hq hget0 hr hc rp ro hres
    rcases List.mem_cons.mp hq with h1 | h1
    · subst h1
      rw [scanBest_cons_compat rest acc bp hget0 hr hc] at hres
      cases acc with
      | none =>
        dsimp only at hres
        rcases scanBest_persist taker heap rest q oo oo.price with ⟨rp', ro', hres', hle'⟩
        rw [hres'] at hres
        cases hres
        exact hle'
      | some a =>
        obtain ⟨mp, mo⟩ := a
        dsimp only at hres
        by_cases hts : oo.timestamp < mo.timestamp
        · rw [if_pos hts] at hres
          rcases scanBest_persist taker heap rest q oo oo.price with ⟨rp', ro', hres', hle'⟩
          rw [hres'] at hres
          cases hres
          omega
        · rw [if_neg hts] at hres
          rcases scanBest_persist taker heap rest mp mo oo.price with ⟨rp', ro', hres', hle'⟩
          rw [hres'] at hres
          cases hres
          omega
    · cases hx : hget heap x with
      | none =>
        rw [scanBest_cons_dangling rest acc bp hx] at hres
        exact ih acc bp h1 hget0 hr hc hres
      | some xo =>
        by_cases hxr : xo.remaining = 0
        · rw [scanBest_cons_filled rest acc bp hx hxr] at hres
          exact ih acc bp h1 hget0 hr hc hres
        · by_cases hxc : compatible taker xo = true
          · rw [scanBest_cons_compat rest acc bp hx hxr hxc] at hres
            exact ih _ _ h1 hget0 hr hc hres
          · rw [scanBest_cons_incompat rest acc bp hx hxr hxc] at hres
            exact ih acc bp h1 hget0 hr hc hres

/-- The final pick, when it did not come from the accumulator, is a
valid compatible unfilled member of the list. -/
theorem scanBest_provenance (taker : Order) (heap : List Order) :
    ∀ (l : List Nat) (acc : Option (Nat × Order)) (bp : Nat) {rp : Nat} {ro : Order},
    (scanBest taker heap l acc bp).1 = some (rp, ro) →
    acc = some (rp, ro) ∨ (rp ∈ l ∧ hget heap rp = some ro ∧ ¬ro.remaining = 0 ∧
      compatible taker ro = true) := by
  intro l
  induction l with
  | nil =>
    intro acc bp rp ro h
    rw [scanBest_nil] at h
    exact Or.inl h
  | cons x rest ih =>
    intro acc bp rp ro h
    cases hx : hget heap x with
    | none =>
      rw [scanBest_cons_dangling rest acc bp hx] at h
      rcases ih acc bp h with h1 | h1
      · exact Or.inl h1
      · exact Or.inr ⟨List.mem_cons_of_mem _ h1.1, h1.2⟩
    | some oo =>
      by_cases hr : oo.remaining = 0
      · rw [scanBest_cons_filled rest acc bp hx hr] at h
        rcases ih acc bp h with h1 | h1
        · exact Or.inl h1
        · exact Or.inr ⟨List.mem_cons_of_mem _ h1.1, h1.2⟩
      · by_cases hc : compatible taker oo = true
        · rw [scanBest_cons_compat rest acc bp hx hr hc] at h
          cases acc with
          | none =>
            dsimp only at h
            rcases ih _ _ h with h1 | h1
            · cases h1
              exact Or.inr ⟨List.mem_cons_self _ _, hx, hr, hc⟩
            · exact Or.inr ⟨List.mem_cons_of_mem _ h1.1, h1.2⟩
          | some a =>
            obtain ⟨mp, mo⟩ := a
            dsimp only at h
            by_cases hts : oo.timestamp < mo.timestamp
            · rw [if_pos hts] at h
              rcases ih _ _ h with h1 | h1
              · cases h1
                exact Or.inr ⟨List.mem_cons_self _ _, hx, hr, hc⟩
              · exact Or.inr ⟨List.mem_cons_of_mem _ h1.1, h1.2⟩
            · rw [if_neg hts] at h
              rcases ih _ _ h with h1 | h1
              · exact Or.inl h1
              · exact Or.inr ⟨List.mem_cons_of_mem _ h1.1, h1.2⟩
        · rw [scanBest_cons_incompat rest acc bp hx hr hc] at h
          rcases ih acc bp h with h1 | h1
          · exact Or.inl h1
          · exact Or.inr ⟨List.mem_cons_of_mem _ h1.1, h1.2⟩

/-- When the scan finds nothing the accumulator was empty and no member
of the list is a valid compatible unfilled candidate. -/
theorem scanBest_none (taker : Order) (heap : List Order) :
    ∀ (l : List Nat) (acc : Option (Nat × Order)) (bp : Nat),
    (scanBest taker heap l acc bp).1 = none →
    acc = none ∧ ∀ q ∈ l, ∀ oo : Order, hget heap q = some oo →
      ¬oo.remaining = 0 → compatible taker oo = false := by
  intro l
  induction l with
  | nil =>
    intro acc bp h
    rw [scanBest_nil] at h
    exact ⟨h, by simp⟩
  | cons x rest ih =>
    intro acc bp h
    cases hx : hget heap x with
    | none =>
      rw [scanBest_cons_dangling rest acc bp hx] at h
      rcases ih acc bp h with ⟨h1, h2⟩
      refine ⟨h1, ?_⟩
      intro q hq oo hoo hr
      rcases List.mem_cons.mp hq with hm | hm
      · subst hm; rw [hx] at hoo; cases hoo
      · exact h2 q hm oo hoo hr
    | some oo =>
      by_cases hr : oo.remaining = 0
      · rw [scanBest_cons_filled rest acc bp hx hr] at h
        rcases ih acc bp h with ⟨h1, h2⟩
        refine ⟨h1, ?_⟩
        intro q hq o₂ ho₂ hr₂
        rcases List.mem_cons.mp hq with hm | hm
        · subst hm; rw [hx] at ho₂; cases ho₂; exact absurd hr hr₂
        · exact h2 q hm o₂ ho₂ hr₂
      · by_cases hc : compatible taker oo = true
        · exfalso
          rw [scanBest_cons_compat rest acc bp hx hr hc] at h
          cases acc with
          | none =>
            dsimp only at h
            rcases scanBest_persist taker heap rest x oo oo.price with ⟨rp, ro, hres, _⟩
            rw [hres] at h
            cases h
          | some a =>
            obtain ⟨mp, mo⟩ := a
            dsimp only at h
            by_cases hts : oo.timestamp < mo.timestamp
            · rw [if_pos hts] at h
              rcases scanBest_persist taker heap rest x oo oo.price with ⟨rp, ro, hres, _⟩
              rw [hres] at h
              cases h
            · rw [if_neg hts] at h
              rcases scanBest_persist taker heap rest mp mo oo.price with ⟨rp, ro, hres, _⟩
              rw [hres] at h
              cases h
        · rw [scanBest_cons_incompat rest acc bp hx hr hc] at h
          rcases ih acc bp h with ⟨h1, h2⟩
          refine ⟨h1, ?_⟩
          intro q hq o₂ ho₂ hr₂
          rcases List.mem_cons.mp hq with hm | hm
          · subst hm; rw [hx] at ho₂; cases ho₂
            exact Bool.eq_false_iff.mpr hc
          · exact h2 q hm o₂ ho₂ hr₂

/-- When every valid compatible candidate carries the same price `P` and
the scan finds a match, the reported `best_price` is `P`. -/
theorem scanBest_price (taker : Order) (heap : List Order) (P : Nat) :
    ∀ (l : List Nat) (acc : Option (Nat × Order)) (bp : Nat),
    (∀ q ∈ l, ∀ oo : Order, hget heap q = some oo → ¬oo.remaining = 0 →
      compatible taker oo = true → oo.price = P) →
    (acc ≠ none → bp = P) →
    (scanBest taker heap l acc bp).1 ≠ none →
    (scanBest taker heap l acc bp).2 = P := by
  intro l
  induction l with
  | nil =>
    intro acc bp hall hacc hne
    rw [scanBest_nil] at hne ⊢
    exact hacc hne
  | cons x rest ih =>
    intro acc bp hall hacc hne
    have hall' : ∀ q ∈ rest, ∀ oo : Order, hget heap q = some oo →
        ¬oo.remaining = 0 → compatible taker oo = true → oo.price = P :=
      fun q hq => hall q (List.mem_cons_of_mem _ hq)
    cases hx : hget heap x with
    | none =>
      rw [scanBest_cons_dangling rest acc bp hx] at hne ⊢
      exact ih acc bp hall' hacc hne
    | some oo =>
      by_cases hr : oo.remaining = 0
      · rw [scanBest_cons_filled rest acc bp hx hr] at hne ⊢
        exact ih acc bp hall' hacc hne
      · by_cases hc : compatible taker oo = true
        · rw [scanBest_cons_compat rest acc bp hx hr hc] at hne ⊢
          have hP : oo.price = P := hall x (List.mem_cons_self _ _) oo hx hr hc
          refine ih _ oo.price hall' (fun _ => hP) hne
        · rw [scanBest_cons_incompat rest acc bp hx hr hc] at hne ⊢
          exact ih acc bp hall' hacc hne

/- ### Shape lemmas for updateOrderQuantity and getOrdersForMatching -/

theorem updateOrderQuantity_not_found {b : OrderBook} {i old_qty new_qty : Nat}
    (h : mfind b.index i = none) :
    b.updateOrderQuantity i old_qty new_qty = b := by
  unfold OrderBook.updateOrderQuantity
  rw [h]

theorem updateOrderQuantity_found {b : OrderBook} {i old_qty new_qty p : Nat}
    {o : Order} {lvl : PriceLevel}
    (hp : mfind b.index i = some p) (ho : hget b.heap p = some o)
    (hl : mfind (b.sideLevels o.side) o.price = some lvl) :
    b.updateOrderQuantity i old_qty new_qty =
      b.setSideLevels o.side (minsert (b.sideLevels o.side) o.price
        (lvl.updateQuantity old_qty new_qty)) := by
  unfold OrderBook.updateOrderQuantity
  rw [hp]
  dsimp only
  rw [ho]
  dsimp only [Option.getD]
  rw [hl]

theorem getOrdersForMatching_none {b : OrderBook} {side : OrderSide}
    (h : bestEntryFor side (b.sideLevels side) = none) :
    b.getOrdersForMatching side = [] := by
  unfold OrderBook.getOrdersForMatching
  rw [h]

theorem getOrdersForMatching_some {b : OrderBook} {side : OrderSide}
    {k : Nat} {lvl : PriceLevel}
    (h : bestEntryFor side (b.sideLevels side) = some (k, lvl)) :
    b.getOrdersForMatching side = lvl.orders := by
  unfold OrderBook.getOrdersForMatching
  rw [h]

theorem sideLevels_heap_update (b : OrderBook) (h : List Order) (s : OrderSide) :
    ({ b with heap := h } : OrderBook).sideLevels s = b.sideLevels s := by
  cases s <;> rfl

/- ### Per-trade specification predicates -/

/-- The pointer `p` rests in some level of side `s`. -/
def restsIn (b : OrderBook) (s : OrderSide) (p : Nat) : Prop :=
  ∃ k lvl, (k, lvl) ∈ b.sideLevels s ∧ p ∈ lvl.orders

/-- `cand` is a strictly better price than `maker` for an incoming order
of side `takerSide` (lower ask for a buyer, higher bid for a seller). -/
def priceBetter (takerSide : OrderSide) (cand maker : Nat) : Prop :=
  match takerSide with
  | .BUY => cand < maker
  | .SELL => maker < cand

/-- Everything the spec promises about one emitted trade, stated against
the book state `e.pre` at the moment the trade executed. -/
structure ExecOK (e : Exec) : Prop where
  maker_resting : restsIn e.pre e.taker.side.opposite e.makerPtr
  maker_val : hget e.pre.heap e.makerPtr = some e.maker
  maker_side : e.maker.side = e.taker.side.opposite
  maker_pos : 0 < e.maker.remaining
  taker_pos : 0 < e.taker.remaining
  qty_eq : e.trade.quantity = min e.taker.remaining e.maker.remaining
  price_eq : e.trade.price = e.maker.price
  buy_id : e.trade.buy_order_id =
    (match e.taker.side with | .BUY => e.taker.id | .SELL => e.maker.id)
  sell_id : e.trade.sell_order_id =
    (match e.taker.side with | .BUY => e.maker.id | .SELL => e.taker.id)
  optimal : ∀ {k : Nat} {lvl : PriceLevel} {q : Nat} {oc : Order},
    (k, lvl) ∈ e.pre.sideLevels e.taker.side.opposite → q ∈ lvl.orders →
    hget e.pre.heap q = some oc → 0 < oc.remaining → q ≠ e.makerPtr →
    ¬(priceBetter e.taker.side oc.price e.maker.price ∨
      (oc.price = e.maker.price ∧ oc.timestamp < e.maker.timestamp))

/-- Total quantity of the trades in the trace that reference order id `i`. -/
def tradeSum (tr : List Exec) (i : Nat) : Nat :=
  (tr.map (fun e =>
    if e.trade.buy_order_id = i ∨ e.trade.sell_order_id = i then e.trade.quantity
    else 0)).sum

theorem tradeSum_nil (i : Nat) : tradeSum [] i = 0 := rfl

theorem tradeSum_cons (e : Exec) (tr : List Exec) (i : Nat) :
    tradeSum (e :: tr) i =
      (if e.trade.buy_order_id = i ∨ e.trade.sell_order_id = i then e.trade.quantity
       else 0) + tradeSum tr i := by
  simp [tradeSum]

theorem tradeSum_append (tr tr' : List Exec) (i : Nat) :
    tradeSum (tr ++ tr') i = tradeSum tr i + tradeSum tr' i := by
  simp [tradeSum]

/-- Destruction of a successful `matchStep`: the scrutinees it resolved
and the exact shape of the result state and trade. -/
theorem matchStep_some_spec {b : OrderBook} {p : Nat} {o : Order} {bres : OrderBook}
    {e : Exec} (ho : hget b.heap p = some o) (hstep : matchStep p b = some (bres, e)) :
    ∃ (kB : Nat) (lvlB : PriceLevel) (mp : Nat) (mo : Order) (bp : Nat),
      bestEntryFor o.side.opposite (b.sideLevels o.side.opposite) = some (kB, lvlB) ∧
      scanBest o b.heap lvlB.orders none 0 = (some (mp, mo), bp) ∧
      ¬o.remaining = 0 ∧
      e = ⟨b, o, mp, mo, executeTrade o mo bp (min o.remaining mo.remaining)⟩ ∧
      bres =
        (let q := min o.remaining mo.remaining
         let b1 : OrderBook :=
           { b with heap := hset (hset b.heap p (o.reduceQuantity q)) mp (mo.reduceQuantity q) }
         let b2 := b1.updateOrderQuantity (o.reduceQuantity q).id
           ((o.reduceQuantity q).remaining + q) (o.reduceQuantity q).remaining
         let b3 := b2.updateOrderQuantity (mo.reduceQuantity q).id
           ((mo.reduceQuantity q).remaining + q) (mo.reduceQuantity q).remaining
         if (mo.reduceQuantity q).remaining = 0
         then (b3.cancelOrder (mo.reduceQuantity q).id).1 else b3) := by
  unfold matchStep at hstep
  rw [ho] at hstep
  dsimp only at hstep
  by_cases hrem : o.remaining = 0
  · rw [if_pos hrem] at hstep; cases hstep
  rw [if_neg hrem] at hstep
  cases hbest : bestEntryFor o.side.opposite (b.sideLevels o.side.opposite) with
  | none =>
    rw [getOrdersForMatching_none hbest] at hstep
    simp at hstep
  | some eb =>
    obtain ⟨kB, lvlB⟩ := eb
    rw [getOrdersForMatching_some hbest] at hstep
    by_cases hemp : lvlB.orders.isEmpty = true
    · rw [if_pos hemp] at hstep; cases hstep
    rw [if_neg hemp] at hstep
    cases hscan : scanBest o b.heap lvlB.orders none 0 with
    | mk ores bp =>
      rw [hscan] at hstep
      cases ores with
      | none => dsimp only at hstep; cases hstep
      | some mm =>
        obtain ⟨mp, mo⟩ := mm
        dsimp only at hstep
        rw [Option.some_inj, Prod.mk.injEq] at hstep
        exact ⟨kB, lvlB, mp, mo, bp, rfl, hscan, hrem, hstep.2.symm, hstep.1.symm⟩

theorem merase_minsert_self {α : Type} {m : List (Nat × α)} {k : Nat} (v : α)
    (hn : (keys m).Nodup) : merase (minsert m k v) k = merase m k := by
  induction m with
  | nil => simp [minsert, merase]
  | cons e t ih =>
    obtain ⟨ek, ev⟩ := e
    simp only [keys, List.map_cons, List.nodup_cons] at hn
    by_cases hk : ek = k
    · subst hk
      simp [minsert, merase]
    · simp only [minsert, if_neg hk, merase, if_neg hk]
      rw [ih hn.2]

theorem reduceQuantity_remaining {o : Order} {q : Nat} (h : q ≤ o.remaining) :
    (o.reduceQuantity q).remaining = o.remaining - q := by
  simp [Order.reduceQuantity, Nat.min_eq_left h]

theorem reduceQuantity_id (o : Order) (q : Nat) : (o.reduceQuantity q).id = o.id := rfl

theorem reduceQuantity_side (o : Order) (q : Nat) : (o.reduceQuantity q).side = o.side := rfl

theorem reduceQuantity_price (o : Order) (q : Nat) : (o.reduceQuantity q).price = o.price := rfl

theorem reduceQuantity_eq {o : Order} {q : Nat} (h : q ≤ o.remaining) :
    o.reduceQuantity q = { o with remaining := o.remaining - q } := by
  simp [Order.reduceQuantity, Nat.min_eq_left h]

/-- Full characterisation of `OrderBook::cancelOrder` when the id is
present, its order object is resting in the level the book looks up,
and no other pointer in that level carries the same id. -/
theorem cancelOrder_found_spec {b : OrderBook} {oid mp : Nat} {om : Order}
    {lvl : PriceLevel}
    (hkeys : (keys (b.sideLevels om.side)).Nodup)
    (hf : mfind b.index oid = some mp)
    (hm : hget b.heap mp = some om)
    (hid : om.id = oid)
    (hl : mfind (b.sideLevels om.side) om.price = some lvl)
    (hmem : mp ∈ lvl.orders)
    (huniq : ∀ x ∈ lvl.orders, idOf b.heap x = some oid → x = mp) :
    ∃ rest : List Nat,
      removeFirstById b.heap oid lvl.orders = some (mp, rest) ∧
      b.cancelOrder oid =
        ({ (b.setSideLevels om.side
            (if rest.isEmpty then merase (b.sideLevels om.side) om.price
             else minsert (b.sideLevels om.side) om.price
                ⟨lvl.price, lvl.total_quantity - om.remaining, rest⟩)) with
          index := merase b.index oid }, true) := by
  have hrm : ∃ rest, removeFirstById b.heap oid lvl.orders = some (mp, rest) := by
    cases hr : removeFirstById b.heap oid lvl.orders with
    | none =>
      exact absurd (show idOf b.heap mp = some oid by simp [idOf, hm, hid])
        (removeFirstById_none_spec hr mp hmem)
    | some pr =>
      obtain ⟨pq, rest⟩ := pr
      rcases removeFirstById_some_spec hr with ⟨l₁, l₂, hl₁, hl₂, hqid, _⟩
      have hpq : pq = mp := huniq pq (removeFirstById_mem hr) hqid
      subst hpq
      exact ⟨rest, rfl⟩
  obtain ⟨rest, hrm⟩ := hrm
  refine ⟨rest, hrm, ?_⟩
  unfold OrderBook.cancelOrder
  rw [hf]
  dsimp only
  rw [hm]
  dsimp only [Option.getD]
  rw [hl]
  dsimp only
  unfold PriceLevel.removeOrder
  rw [hrm]
  dsimp only
  have hrq : remOf b.heap mp = om.remaining := by simp [remOf, hm]
  rw [hrq]
  have hcon : (({ price := lvl.price,
                  total_quantity := lvl.total_quantity - om.remaining,
                  orders := rest } : PriceLevel).isEmpty) = rest.isEmpty := rfl
  rw [hcon]
  by_cases hemp : rest.isEmpty = true
  · rw [if_pos (show true = true ∧ rest.isEmpty = true from ⟨rfl, hemp⟩)]
    rw [merase_minsert_self _ hkeys, if_pos hemp, setSideLevels_index]
  · rw [if_neg (show ¬(true = true ∧ rest.isEmpty = true) from fun hc => hemp hc.2)]
    rw [if_neg hemp, setSideLevels_index]

/-- The heap after the two `reduceQuantity` mutations of one match
iteration. -/
def stepHeap (b : OrderBook) (p : Nat) (o : Order) (mp : Nat) (mo : Order)
    (q : Nat) : List Order :=
  hset (hset b.heap p (o.reduceQuantity q)) mp (mo.reduceQuantity q)

/-- The book after the heap mutations and the maker's level-aggregate
update of one match iteration, before any removal of the filled maker. -/
def stepMid (b : OrderBook) (p : Nat) (o : Order) (kB : Nat) (lvlB : PriceLevel)
    (mp : Nat) (mo : Order) (q : Nat) : OrderBook :=
  OrderBook.setSideLevels { b with heap := stepHeap b p o mp mo q }
    o.side.opposite
    (minsert (b.sideLevels o.side.opposite) kB
      (lvlB.updateQuantity mo.remaining (mo.remaining - q)))

/-- All facts available about one iteration of the matching loop, after
resolving every lookup against the well-formed book `b`. -/
structure StepCtx (b : OrderBook) (p : Nat) (o : Order) (bres : OrderBook) (e : Exec)
    (kB : Nat) (lvlB : PriceLevel) (mp : Nat) (mo : Order) (q : Nat) : Prop where
  hbest : bestEntryFor o.side.opposite (b.sideLevels o.side.opposite) = some (kB, lvlB)
  hlmem : (kB, lvlB) ∈ b.sideLevels o.side.opposite
  hmp : mp ∈ lvlB.orders
  hmo : hget b.heap mp = some mo
  hmoprice : mo.price = kB
  hmoside : mo.side = o.side.opposite
  hmopos : 0 < mo.remaining
  hidxmo : mfind b.index mo.id = some mp
  hmin : ∀ x ∈ lvlB.orders, ∀ oc : Order, hget b.heap x = some oc →
    ¬oc.remaining = 0 → compatible o oc = true → mo.timestamp ≤ oc.timestamp
  hcompat : compatible o mo = true
  hq : q = min o.remaining mo.remaining
  hqpos : 0 < q
  hqo : q ≤ o.remaining
  hqmo : q ≤ mo.remaining
  hrem : ¬o.remaining = 0
  hpne : p ≠ mp
  he : e = ⟨b, o, mp, mo, executeTrade o mo mo.price q⟩
  hbres : bres =
    (if mo.remaining - q = 0
     then ((stepMid b p o kB lvlB mp mo q).cancelOrder mo.id).1
     else stepMid b p o kB lvlB mp mo q)

theorem matchStep_ctx {b : OrderBook} {p : Nat} {o : Order} {bres : OrderBook} {e : Exec}
    (hwf : WF b) (ho : hget b.heap p = some o) (hfr : PtrFresh b p)
    (hidx : mfind b.index o.id = none)
    (hstep : matchStep p b = some (bres, e)) :
    ∃ kB lvlB mp mo q, StepCtx b p o bres e kB lvlB mp mo q := by
  rcases matchStep_some_spec ho hstep with
    ⟨kB, lvlB, mp, mo, bp, hbest, hscan, hrem, he, hbres⟩
  have hlmem : (kB, lvlB) ∈ b.sideLevels o.side.opposite := bestEntryFor_mem hbest
  have hlw : LevelWF b.heap b.index o.side.opposite kB lvlB := hwf.levelsWF _ hlmem
  have hscan1 : (scanBest o b.heap lvlB.orders none 0).1 = some (mp, mo) := by
    rw [hscan]
  rcases scanBest_provenance o b.heap lvlB.orders none 0 hscan1 with hcc | hprov
  · cases hcc
  obtain ⟨hmp, hmo, hmorem, hcompat⟩ := hprov
  rcases hlw.mem mp hmp with ⟨mo₁, hmo₁, hmo₁p, hmo₁s, hmo₁r, hmo₁i⟩
  rw [hmo] at hmo₁
  cases hmo₁
  have hallP : ∀ x ∈ lvlB.orders, ∀ oc : Order, hget b.heap x = some oc →
      ¬oc.remaining = 0 → compatible o oc = true → oc.price = kB := by
    intro x hx oc hoc _ _
    rcases hlw.mem x hx with ⟨oc₁, hoc₁, hoc₁p, _, _, _⟩
    rw [hoc] at hoc₁
    cases hoc₁
    exact hoc₁p
  have hbp : bp = kB := by
    have := scanBest_price o b.heap kB lvlB.orders none 0 hallP
      (fun hcc => absurd rfl hcc)
      (by rw [hscan1]; simp)
    rw [hscan] at this
    exact this
  have hmin : ∀ x ∈ lvlB.orders, ∀ oc : Order, hget b.heap x = some oc →
      ¬oc.remaining = 0 → compatible o oc = true → mo.timestamp ≤ oc.timestamp := by
    intro x hx oc hoc hocr hocc
    exact scanBest_min o b.heap lvlB.orders none 0 hx hoc hocr hocc hscan1
  have hpne : p ≠ mp := fun hc => hfr _ _ _ hlmem (hc ▸ hmp)
  have hqo : min o.remaining mo.remaining ≤ o.remaining := Nat.min_le_left _ _
  have hqmo : min o.remaining mo.remaining ≤ mo.remaining := Nat.min_le_right _ _
  refine ⟨kB, lvlB, mp, mo, min o.remaining mo.remaining,
    hbest, hlmem, hmp, hmo, hmo₁p, hmo₁s,
    Nat.pos_of_ne_zero hmorem, hmo₁i, hmin, hcompat, rfl,
    ?_, hqo, hqmo, hrem, hpne, by rw [he, hbp, hmo₁p], ?_⟩
  · have h1 : 0 < o.remaining := Nat.pos_of_ne_zero hrem
    have h2 : 0 < mo.remaining := Nat.pos_of_ne_zero hmorem
    omega
  · rw [hbres]
    dsimp only
    have hb1eq : ∀ hh : List Order, ({ b with heap := hh } : OrderBook).index = b.index := by
      intro hh; rfl
    have hupd1 : ({ b with heap := stepHeap b p o mp mo (min o.remaining mo.remaining) } :
          OrderBook).updateOrderQuantity
        (o.reduceQuantity (min o.remaining mo.remaining)).id
        ((o.reduceQuantity (min o.remaining mo.remaining)).remaining
          + min o.remaining mo.remaining)
        (o.reduceQuantity (min o.remaining mo.remaining)).remaining
        = { b with heap := stepHeap b p o mp mo (min o.remaining mo.remaining) } :=
      updateOrderQuantity_not_found hidx
    have hstep_heap : hset (hset b.heap p (o.reduceQuantity (min o.remaining mo.remaining)))
        mp (mo.reduceQuantity (min o.remaining mo.remaining))
        = stepHeap b p o mp mo (min o.remaining mo.remaining) := rfl
    rw [hstep_heap, hupd1]
    have hmp_lt : mp < b.heap.length := hget_lt_length hmo
    have hmp_lt1 : mp < (hset b.heap p
        (o.reduceQuantity (min o.remaining mo.remaining))).length := by
      rw [hset_length]; exact hmp_lt
    have hgm : hget ({ b with heap := stepHeap b p o mp mo (min o.remaining mo.remaining) } :
          OrderBook).heap mp
        = some (mo.reduceQuantity (min o.remaining mo.remaining)) :=
      hget_hset_self _ hmp_lt1
    have hlfind : mfind (({ b with heap := stepHeap b p o mp mo (min o.remaining mo.remaining) } :
          OrderBook).sideLevels
          (mo.reduceQuantity (min o.remaining mo.remaining)).side)
          (mo.reduceQuantity (min o.remaining mo.remaining)).price = some lvlB := by
      rw [reduceQuantity_side, reduceQuantity_price, sideLevels_heap_update, hmo₁s, hmo₁p]
      exact mfind_eq_of_mem (hwf.sideKeys _) hlmem
    have hupd2 := @updateOrderQuantity_found
        ({ b with heap := stepHeap b p o mp mo (min o.remaining mo.remaining) } :
          OrderBook)
        (mo.reduceQuantity (min o.remaining mo.remaining)).id
        ((mo.reduceQuantity (min o.remaining mo.remaining)).remaining
          + min o.remaining mo.remaining)
        (mo.reduceQuantity (min o.remaining mo.remaining)).remaining
        mp (mo.reduceQuantity (min o.remaining mo.remaining)) lvlB
        hmo₁i hgm hlfind
    rw [hupd2]
    rw [reduceQuantity_side, reduceQuantity_price, sideLevels_heap_update, hmo₁s, hmo₁p]
    rw [reduceQuantity_remaining hqmo, reduceQuantity_id]
    rw [Nat.sub_add_cancel hqmo]
    rfl

theorem setSideLevels_twice (b : OrderBook) (s : OrderSide)
    (m m' : List (Nat × PriceLevel)) :
    (b.setSideLevels s m).setSideLevels s m' = b.setSideLevels s m' := by
  cases s <;> rfl

theorem minsert_minsert_self {α : Type} (m : List (Nat × α)) (k : Nat) (v w : α) :
    minsert (minsert m k v) k w = minsert m k w := by
  induction m with
  | nil => simp [minsert]
  | cons e t ih =>
    obtain ⟨ek, ev⟩ := e
    by_cases hk : ek = k
    · subst hk
      simp [minsert]
    · simp [minsert, hk, ih]

theorem hget_of_lt {h : List Order} : ∀ {p : Nat}, p < h.length → ∃ o, hget h p = some o := by
  induction h with
  | nil => intro p hp; simp at hp
  | cons a t ih =>
    intro p hp
    cases p with
    | zero => exact ⟨a, rfl⟩
    | succ n => exact ih (by simpa using Nat.lt_of_succ_lt_succ hp)

theorem stepHeap_length (b : OrderBook) (p : Nat) (o : Order) (mp : Nat) (mo : Order)
    (q : Nat) : (stepHeap b p o mp mo q).length = b.heap.length := by
  unfold stepHeap
  rw [hset_length, hset_length]

theorem hget_stepHeap_mp {b : OrderBook} {p : Nat} {o : Order} {mp : Nat} {mo : Order}
    {q : Nat} (hlt : mp < b.heap.length) :
    hget (stepHeap b p o mp mo q) mp = some (mo.reduceQuantity q) := by
  unfold stepHeap
  exact hget_hset_self _ (by rw [hset_length]; exact hlt)

theorem hget_stepHeap_p {b : OrderBook} {p : Nat} {o : Order} {mp : Nat} {mo : Order}
    {q : Nat} (hpne : p ≠ mp) (hlt : p < b.heap.length) :
    hget (stepHeap b p o mp mo q) p = some (o.reduceQuantity q) := by
  unfold stepHeap
  rw [hget_hset_ne _ hpne]
  exact hget_hset_self _ hlt

theorem hget_stepHeap_other {b : OrderBook} {p : Nat} {o : Order} {mp : Nat} {mo : Order}
    {q : Nat} {x : Nat} (hx1 : x ≠ p) (hx2 : x ≠ mp) :
    hget (stepHeap b p o mp mo q) x = hget b.heap x := by
  unfold stepHeap
  rw [hget_hset_ne _ hx2, hget_hset_ne _ hx1]

theorem stepHeap_ids {b : OrderBook} {p : Nat} {o : Order} {mp : Nat} {mo : Order}
    {q : Nat} (ho : hget b.heap p = some o) (hmo : hget b.heap mp = some mo)
    (hpne : p ≠ mp) :
    (stepHeap b p o mp mo q).map Order.id = b.heap.map Order.id := by
  unfold stepHeap
  have h1 : hget (hset b.heap p (o.reduceQuantity q)) mp = some mo := by
    rw [hget_hset_ne _ (Ne.symm hpne)]
    exact hmo
  rw [@ids_hset (hset b.heap p (o.reduceQuantity q)) mp (mo.reduceQuantity q) mo
      h1 (reduceQuantity_id mo q),
    @ids_hset b.heap p (o.reduceQuantity q) o ho (reduceQuantity_id o q)]

theorem stepMid_heap (b : OrderBook) (p : Nat) (o : Order) (kB : Nat)
    (lvlB : PriceLevel) (mp : Nat) (mo : Order) (q : Nat) :
    (stepMid b p o kB lvlB mp mo q).heap = stepHeap b p o mp mo q := by
  unfold stepMid
  rw [setSideLevels_heap]

theorem stepMid_index (b : OrderBook) (p : Nat) (o : Order) (kB : Nat)
    (lvlB : PriceLevel) (mp : Nat) (mo : Order) (q : Nat) :
    (stepMid b p o kB lvlB mp mo q).index = b.index := by
  unfold stepMid
  rw [setSideLevels_index]

theorem stepMid_side_self (b : OrderBook) (p : Nat) (o : Order) (kB : Nat)
    (lvlB : PriceLevel) (mp : Nat) (mo : Order) (q : Nat) :
    (stepMid b p o kB lvlB mp mo q).sideLevels o.side.opposite =
      minsert (b.sideLevels o.side.opposite) kB
        (lvlB.updateQuantity mo.remaining (mo.remaining - q)) := by
  unfold stepMid
  rw [sideLevels_set_self]

theorem stepMid_side_other (b : OrderBook) (p : Nat) (o : Order) (kB : Nat)
    (lvlB : PriceLevel) (mp : Nat) (mo : Order) (q : Nat) {s : OrderSide}
    (hs : s ≠ o.side.opposite) :
    (stepMid b p o kB lvlB mp mo q).sideLevels s = b.sideLevels s := by
  unfold stepMid
  rw [sideLevels_set_other _ _ hs, sideLevels_heap_update]

/-- Transfer of a level's well-formedness when the heap and index are
unchanged on its members. -/
theorem LevelWF_congr {heap heap' : List Order} {index index' : List (Nat × Nat)}
    {side : OrderSide} {k : Nat} {lvl : PriceLevel}
    (hw : LevelWF heap index side k lvl)
    (hc : ∀ x ∈ lvl.orders, hget heap' x = hget heap x)
    (hi : ∀ x ∈ lvl.orders, ∀ o : Order, hget heap x = some o →
      mfind index' o.id = mfind index o.id) :
    LevelWF heap' index' side k lvl := by
  refine ⟨hw.nonempty, hw.nodup, ?_, ?_⟩
  · intro x hx
    rcases hw.mem x hx with ⟨o, hgo, hp, hs, hr, hidx⟩
    exact ⟨o, (hc x hx).trans hgo, hp, hs, hr, (hi x hx o hgo).trans hidx⟩
  · rw [hw.agg]
    exact sumRem_congr (fun x hx => by simp [remOf, hc x hx])

theorem getBestBid_congr {b b' : OrderBook} (h : keys b.bids = keys b'.bids) :
    b.getBestBid = b'.getBestBid := by
  unfold OrderBook.getBestBid
  have hm := maxEntry_key_congr h
  cases h1 : maxEntry b.bids with
  | none =>
    rw [h1] at hm
    cases h2 : maxEntry b'.bids with
    | none => rfl
    | some e => rw [h2] at hm; simp at hm
  | some e =>
    rw [h1] at hm
    cases h2 : maxEntry b'.bids with
    | none => rw [h2] at hm; simp at hm
    | some e' =>
      rw [h2] at hm
      simpa using hm

theorem getBestAsk_congr {b b' : OrderBook} (h : keys b.asks = keys b'.asks) :
    b.getBestAsk = b'.getBestAsk := by
  unfold OrderBook.getBestAsk
  have hm := minEntry_key_congr h
  cases h1 : minEntry b.asks with
  | none =>
    rw [h1] at hm
    cases h2 : minEntry b'.asks with
    | none => rfl
    | some e => rw [h2] at hm; simp at hm
  | some e =>
    rw [h1] at hm
    cases h2 : minEntry b'.asks with
    | none => rw [h2] at hm; simp at hm
    | some e' =>
      rw [h2] at hm
      simpa using hm

theorem compatible_congr {o mo oc : Order} (h : compatible o mo = true)
    (hs : oc.side = mo.side) (hp : oc.price = mo.price) : compatible o oc = true := by
  have : compatible o oc = compatible o mo := by
    unfold compatible
    rw [hs, hp]
  rw [this]
  exact h

theorem updateQuantity_orders (lvl : PriceLevel) (a c : Nat) :
    (lvl.updateQuantity a c).orders = lvl.orders := rfl

theorem updateQuantity_total (lvl : PriceLevel) (a c : Nat) :
    (lvl.updateQuantity a c).total_quantity = lvl.total_quantity - a + c := rfl

theorem updateQuantity_price (lvl : PriceLevel) (a c : Nat) :
    (lvl.updateQuantity a c).price = lvl.price := rfl

/-- Heap reads through pointers of untouched levels are unchanged by one
match iteration. -/
theorem step_keep {b : OrderBook} {p : Nat} {o : Order} {bres : OrderBook} {e : Exec}
    {kB : Nat} {lvlB : PriceLevel} {mp : Nat} {mo : Order} {q : Nat}
    (hwf : WF b) (hfr : PtrFresh b p)
    (ctx : StepCtx b p o bres e kB lvlB mp mo q) :
    ∀ (s : OrderSide) (k : Nat) (lvl : PriceLevel), (k, lvl) ∈ b.sideLevels s →
    ¬(s = o.side.opposite ∧ k = kB) → ∀ x ∈ lvl.orders,
    hget (stepHeap b p o mp mo q) x = hget b.heap x := by
  intro s k lvl hmem hne x hx
  have hxp : x ≠ p := fun hc => hfr s k lvl hmem (hc ▸ hx)
  have hxmp : x ≠ mp := by
    intro hc
    exact hwf.disjoint o.side.opposite kB lvlB s k lvl ctx.hlmem hmem
      (fun hcc => hne ⟨hcc.1.symm, hcc.2.symm⟩) mp ctx.hmp (hc ▸ hx)
  exact hget_stepHeap_other hxp hxmp

/-- Every level of the mid state derives from a level of `b` with the
same key and the same FIFO queue. -/
theorem stepMid_levels {b : OrderBook} {p : Nat} {o : Order} {bres : OrderBook} {e : Exec}
    {kB : Nat} {lvlB : PriceLevel} {mp : Nat} {mo : Order} {q : Nat}
    (hwf : WF b) (ctx : StepCtx b p o bres e kB lvlB mp mo q) :
    ∀ (s : OrderSide) (k : Nat) (lvl : PriceLevel),
    (k, lvl) ∈ (stepMid b p o kB lvlB mp mo q).sideLevels s →
    (s = o.side.opposite ∧ k = kB ∧
      lvl = lvlB.updateQuantity mo.remaining (mo.remaining - q)) ∨
    ((k, lvl) ∈ b.sideLevels s ∧ ¬(s = o.side.opposite ∧ k = kB)) := by
  intro s k lvl hmem
  by_cases hs : s = o.side.opposite
  · subst hs
    rw [stepMid_side_self] at hmem
    rcases mem_minsert_elim (hwf.sideKeys _) hmem with ⟨hk, hv⟩ | ⟨hold, hk⟩
    · exact Or.inl ⟨rfl, hk, hv⟩
    · exact Or.inr ⟨hold, fun hc => hk hc.2⟩
  · rw [stepMid_side_other _ _ _ _ _ _ _ _ hs] at hmem
    exact Or.inr ⟨hmem, fun hc => hs hc.1⟩

theorem stepMid_keys {b : OrderBook} {p : Nat} {o : Order} {bres : OrderBook} {e : Exec}
    {kB : Nat} {lvlB : PriceLevel} {mp : Nat} {mo : Order} {q : Nat}
    (ctx : StepCtx b p o bres e kB lvlB mp mo q) :
    ∀ s : OrderSide, keys ((stepMid b p o kB lvlB mp mo q).sideLevels s) =
      keys (b.sideLevels s) := by
  intro s
  by_cases hs : s = o.side.opposite
  · subst hs
    rw [stepMid_side_self]
    exact keys_minsert_mem _ (mem_keys_of_mem ctx.hlmem)
  · rw [stepMid_side_other _ _ _ _ _ _ _ _ hs]

theorem nonempty_of_keys_eq {m1 m2 : List (Nat × PriceLevel)}
    (hk : keys m1 = keys m2) (h1 : m1 ≠ []) : m2 ≠ [] := by
  intro hc
  subst hc
  simp only [keys, List.map_nil, List.map_eq_nil_iff] at hk
  exact h1 hk

/-- `LevelWF` weakened at one exempted pointer `xp`, whose order object
may have zero remaining quantity (used for the instant between a fill
and the removal of the filled maker). -/
structure LevelWFx (heap : List Order) (index : List (Nat × Nat))
    (side : OrderSide) (k : Nat) (lvl : PriceLevel) (xp : Nat) : Prop where
  nonempty : lvl.orders ≠ []
  nodup : lvl.orders.Nodup
  mem : ∀ x ∈ lvl.orders, ∃ o : Order, hget heap x = some o ∧ o.price = k ∧
    o.side = side ∧ (0 < o.remaining ∨ x = xp) ∧ mfind index o.id = some x
  agg : lvl.total_quantity = sumRem heap lvl.orders

/-- `WF` weakened at one exempted pointer. -/
structure WFx (b : OrderBook) (xp : Nat) : Prop where
  bidsKeys : (keys b.bids).Nodup
  asksKeys : (keys b.asks).Nodup
  idxKeys : (keys b.index).Nodup
  levelsWF : ∀ (s : OrderSide) {k : Nat} {lvl : PriceLevel},
    (k, lvl) ∈ b.sideLevels s → LevelWFx b.heap b.index s k lvl xp
  disjoint : ∀ (s : OrderSide) (k : Nat) (lvl : PriceLevel)
    (s' : OrderSide) (k' : Nat) (lvl' : PriceLevel),
    (k, lvl) ∈ b.sideLevels s → (k', lvl') ∈ b.sideLevels s' →
    ¬(s = s' ∧ k = k') → ∀ p ∈ lvl.orders, p ∉ lvl'.orders
  idxWF : ∀ {i p : Nat}, (i, p) ∈ b.index →
    ∃ o : Order, hget b.heap p = some o ∧ o.id = i
  idsNodup : (heapIds b).Nodup
  nocross : b.bids ≠ [] → b.asks ≠ [] → b.getBestBid < b.getBestAsk

theorem LevelWF.toX {heap : List Order} {index : List (Nat × Nat)} {side : OrderSide}
    {k : Nat} {lvl : PriceLevel} (h : LevelWF heap index side k lvl) (xp : Nat) :
    LevelWFx heap index side k lvl xp := by
  refine ⟨h.nonempty, h.nodup, ?_, h.agg⟩
  intro x hx
  rcases h.mem x hx with ⟨o, h1, h2, h3, h4, h5⟩
  exact ⟨o, h1, h2, h3, Or.inl h4, h5⟩

theorem WF.toWFx {b : OrderBook} (h : WF b) (xp : Nat) : WFx b xp := by
  refine ⟨h.bidsKeys, h.asksKeys, h.idxKeys, ?_, h.disjoint, h.idxWF, h.idsNodup,
    h.nocross⟩
  intro s k lvl hm
  exact (h.levelsWF s hm).toX xp

theorem WFx.toWF {b : OrderBook} {xp : Nat} (h : WFx b xp)
    (hpos : ∀ ox : Order, hget b.heap xp = some ox → 0 < ox.remaining) : WF b := by
  refine ⟨h.bidsKeys, h.asksKeys, h.idxKeys, ?_, h.disjoint, h.idxWF, h.idsNodup,
    h.nocross⟩
  intro s k lvl hm
  have hl := h.levelsWF s hm
  refine ⟨hl.nonempty, hl.nodup, ?_, hl.agg⟩
  intro x hx
  rcases hl.mem x hx with ⟨o, h1, h2, h3, h4, h5⟩
  refine ⟨o, h1, h2, h3, ?_, h5⟩
  rcases h4 with h4 | h4
  · exact h4
  · exact hpos o (h4 ▸ h1)

theorem LevelWFx_congr {heap heap' : List Order} {index index' : List (Nat × Nat)}
    {side : OrderSide} {k : Nat} {lvl : PriceLevel} {xp : Nat}
    (hw : LevelWFx heap index side k lvl xp)
    (hc : ∀ x ∈ lvl.orders, hget heap' x = hget heap x)
    (hi : ∀ x ∈ lvl.orders, ∀ o : Order, hget heap x = some o →
      mfind index' o.id = mfind index o.id) :
    LevelWFx heap' index' side k lvl xp := by
  refine ⟨hw.nonempty, hw.nodup, ?_, ?_⟩
  · intro x hx
    rcases hw.mem x hx with ⟨o, hgo, hp, hs, hr, hidx⟩
    exact ⟨o, (hc x hx).trans hgo, hp, hs, hr, (hi x hx o hgo).trans hidx⟩
  · rw [hw.agg]
    exact sumRem_congr (fun x hx => by simp [remOf, hc x hx])

/-- Well-formedness (with the maker pointer exempted from positivity) of
the mid state of one match iteration. -/
theorem stepMid_WFx {b : OrderBook} {p : Nat} {o : Order} {bres : OrderBook} {e : Exec}
    {kB : Nat} {lvlB : PriceLevel} {mp : Nat} {mo : Order} {q : Nat}
    (hwf : WF b) (ho : hget b.heap p = some o) (hfr : PtrFresh b p)
    (hidx : mfind b.index o.id = none)
    (ctx : StepCtx b p o bres e kB lvlB mp mo q) :
    WFx (stepMid b p o kB lvlB mp mo q) mp := by
  have hlw : LevelWF b.heap b.index o.side.opposite kB lvlB :=
    hwf.levelsWF _ ctx.hlmem
  have hkeys := stepMid_keys ctx
  have hbidsk : keys (stepMid b p o kB lvlB mp mo q).bids = keys b.bids := hkeys .BUY
  have hasksk : keys (stepMid b p o kB lvlB mp mo q).asks = keys b.asks := hkeys .SELL
  have hmplt : mp < b.heap.length := hget_lt_length ctx.hmo
  refine ⟨?_, ?_, ?_, ?_, ?_, ?_, ?_, ?_⟩
  · rw [hbidsk]; exact hwf.bidsKeys
  · rw [hasksk]; exact hwf.asksKeys
  · rw [stepMid_index]; exact hwf.idxKeys
  · -- levelsWF
    intro s k lvl hmem
    have hheap : (stepMid b p o kB lvlB mp mo q).heap = stepHeap b p o mp mo q :=
      stepMid_heap _ _ _ _ _ _ _ _
    have hindex : (stepMid b p o kB lvlB mp mo q).index = b.index :=
      stepMid_index _ _ _ _ _ _ _ _
    rw [hheap, hindex]
    rcases stepMid_levels hwf ctx s k lvl hmem with ⟨hs, hk, hv⟩ | ⟨hold, hne⟩
    · subst hs; subst hk; subst hv
      refine ⟨?_, ?_, ?_, ?_⟩
      · rw [updateQuantity_orders]; exact hlw.nonempty
      · rw [updateQuantity_orders]; exact hlw.nodup
      · rw [updateQuantity_orders]
        intro x hx
        have hxp : x ≠ p := fun hc => hfr _ _ _ ctx.hlmem (hc ▸ hx)
        by_cases hxmp : x = mp
        · subst hxmp
          refine ⟨mo.reduceQuantity q, hget_stepHeap_mp hmplt, ?_, ?_, Or.inr rfl, ?_⟩
          · rw [reduceQuantity_price]; exact ctx.hmoprice
          · rw [reduceQuantity_side]; exact ctx.hmoside
          · rw [reduceQuantity_id]; exact ctx.hidxmo
        · rcases hlw.mem x hx with ⟨ox, hgx, hpx, hsx, hrx, hix⟩
          exact ⟨ox, (hget_stepHeap_other hxp hxmp).trans hgx, hpx, hsx,
            Or.inl hrx, hix⟩
      · rw [updateQuantity_orders, updateQuantity_total]
        have hS : lvlB.total_quantity = sumRem b.heap lvlB.orders := hlw.agg
        have hmo_rem : remOf b.heap mp = mo.remaining := by simp [remOf, ctx.hmo]
        have hmoS : mo.remaining ≤ sumRem b.heap lvlB.orders := by
          rw [← hmo_rem]
          exact remOf_le_sumRem ctx.hmp
        have hfixed : sumRem (hset b.heap p (o.reduceQuantity q)) lvlB.orders
            = sumRem b.heap lvlB.orders :=
          sumRem_hset_not_mem _ (hfr _ _ _ ctx.hlmem)
        have hlen2 : mp < (hset b.heap p (o.reduceQuantity q)).length := by
          rw [hset_length]; exact hmplt
        have hkey := sumRem_hset_mem (mo.reduceQuantity q) hlw.nodup ctx.hmp hlen2
        have hrem2 : remOf (hset b.heap p (o.reduceQuantity q)) mp = mo.remaining := by
          rw [remOf_hset_ne _ (Ne.symm ctx.hpne)]
          exact hmo_rem
        rw [hrem2, hfixed, reduceQuantity_remaining ctx.hqmo] at hkey
        have hsh : sumRem (stepHeap b p o mp mo q) lvlB.orders
            = sumRem (hset (hset b.heap p (o.reduceQuantity q)) mp
              (mo.reduceQuantity q)) lvlB.orders := rfl
        rw [hsh]
        omega
    · have hcongr := step_keep hwf hfr ctx s k lvl hold hne
      exact LevelWFx_congr ((hwf.levelsWF s hold).toX mp) hcongr
        (fun x hx ox hox => rfl)
  · -- disjoint
    intro s k lvl s' k' lvl' h1 h2 hne x hx
    have horder : ∀ (s0 : OrderSide) (k0 : Nat) (lvl0 : PriceLevel),
        (k0, lvl0) ∈ (stepMid b p o kB lvlB mp mo q).sideLevels s0 →
        ∃ lvlb, (k0, lvlb) ∈ b.sideLevels s0 ∧ lvl0.orders = lvlb.orders := by
      intro s0 k0 lvl0 hm0
      rcases stepMid_levels hwf ctx s0 k0 lvl0 hm0 with ⟨hs, hk, hv⟩ | ⟨hold, _⟩
      · subst hs; subst hk; subst hv
        exact ⟨lvlB, ctx.hlmem, updateQuantity_orders _ _ _⟩
      · exact ⟨lvl0, hold, rfl⟩
    rcases horder s k lvl h1 with ⟨lb, hb1, he1⟩
    rcases horder s' k' lvl' h2 with ⟨lb', hb2, he2⟩
    rw [he2]
    rw [he1] at hx
    exact hwf.disjoint s k lb s' k' lb' hb1 hb2 hne x hx
  · -- idxWF
    intro i x hmem
    rw [stepMid_index] at hmem
    rcases hwf.idxWF hmem with ⟨o₁, hg, hid⟩
    rw [stepMid_heap]
    by_cases hxp : x = p
    · subst hxp
      rw [ho] at hg
      cases hg
      exfalso
      have hfind : mfind b.index i = some x := mfind_eq_of_mem hwf.idxKeys hmem
      rw [← hid, hidx] at hfind
      cases hfind
    · by_cases hxmp : x = mp
      · subst hxmp
        rw [ctx.hmo] at hg
        cases hg
        exact ⟨mo.reduceQuantity q, hget_stepHeap_mp hmplt,
          by rw [reduceQuantity_id]; exact hid⟩
      · exact ⟨o₁, (hget_stepHeap_other hxp hxmp).trans hg, hid⟩
  · -- idsNodup
    show ((stepMid b p o kB lvlB mp mo q).heap.map Order.id).Nodup
    rw [stepMid_heap, stepHeap_ids ho ctx.hmo ctx.hpne]
    exact hwf.idsNodup
  · -- nocross
    intro hb ha
    have hb' : b.bids ≠ [] := nonempty_of_keys_eq hbidsk hb
    have ha' : b.asks ≠ [] := nonempty_of_keys_eq hasksk ha
    rw [← getBestBid_congr hbidsk.symm, ← getBestAsk_congr hasksk.symm]
    exact hwf.nocross hb' ha'

/-- Well-formedness of the mid state when the maker is only partially
filled. -/
theorem stepMid_WF {b : OrderBook} {p : Nat} {o : Order} {bres : OrderBook} {e : Exec}
    {kB : Nat} {lvlB : PriceLevel} {mp : Nat} {mo : Order} {q : Nat}
    (hwf : WF b) (ho : hget b.heap p = some o) (hfr : PtrFresh b p)
    (hidx : mfind b.index o.id = none)
    (ctx : StepCtx b p o bres e kB lvlB mp mo q)
    (hpart : ¬mo.remaining - q = 0) :
    WF (stepMid b p o kB lvlB mp mo q) := by
  refine (stepMid_WFx hwf ho hfr hidx ctx).toWF ?_
  intro ox hox
  rw [stepMid_heap] at hox
  rw [hget_stepHeap_mp (hget_lt_length ctx.hmo)] at hox
  cases hox
  rw [reduceQuantity_remaining ctx.hqmo]
  omega

theorem WFx.keysNodup {b : OrderBook} {xp : Nat} (h : WFx b xp) (s : OrderSide) :
    (keys (b.sideLevels s)).Nodup := by
  cases s
  · exact h.bidsKeys
  · exact h.asksKeys

theorem setSideLevels_buy_asks (b : OrderBook) (m : List (Nat × PriceLevel)) :
    (b.setSideLevels OrderSide.BUY m).asks = b.asks := rfl

theorem setSideLevels_sell_bids (b : OrderBook) (m : List (Nat × PriceLevel)) :
    (b.setSideLevels OrderSide.SELL m).bids = b.bids := rfl

theorem setSideLevels_buy_bids (b : OrderBook) (m : List (Nat × PriceLevel)) :
    (b.setSideLevels OrderSide.BUY m).bids = m := rfl

theorem setSideLevels_sell_asks (b : OrderBook) (m : List (Nat × PriceLevel)) :
    (b.setSideLevels OrderSide.SELL m).asks = m := rfl

/-- Removing one resting order (the only pointer of its level carrying
id `oid`) preserves well-formedness, even when the removed order's
remaining quantity is zero. -/
theorem removal_WF {B : OrderBook} {os : OrderSide} {kpr oid mp : Nat}
    {lvl : PriceLevel} {om : Order} {rest : List Nat}
    (hx : WFx B mp)
    (hlmem : (kpr, lvl) ∈ B.sideLevels os)
    (hom : hget B.heap mp = some om) (homid : om.id = oid)
    (homp : om.price = kpr)
    (hmem : mp ∈ lvl.orders)
    (hrest : ∀ x, x ∈ rest ↔ (x ∈ lvl.orders ∧ x ≠ mp))
    (hrestnd : rest.Nodup)
    (hsum : sumRem B.heap rest + om.remaining = sumRem B.heap lvl.orders) :
    WF ({ (B.setSideLevels os
      (if rest.isEmpty then merase (B.sideLevels os) kpr
       else minsert (B.sideLevels os) kpr
         ⟨lvl.price, lvl.total_quantity - om.remaining, rest⟩)) with
      index := merase B.index oid }) := by
  have hlw : LevelWFx B.heap B.index os kpr lvl mp := hx.levelsWF os hlmem
  have hIdxOid : mfind B.index oid = some mp := by
    rcases hlw.mem mp hmem with ⟨om₁, hg, _, _, _, hi⟩
    rw [hom] at hg
    cases hg
    rw [← homid]
    exact hi
  have hresonly : ∀ (s : OrderSide) (k : Nat) (l : PriceLevel),
      (k, l) ∈ B.sideLevels s → ∀ x ∈ l.orders, ∀ ox : Order,
      hget B.heap x = some ox → ox.id = oid → x = mp := by
    intro s k l hml x hxl ox hgx hoxid
    rcases (hx.levelsWF s hml).mem x hxl with ⟨ox₁, hg₁, _, _, _, hi₁⟩
    rw [hgx] at hg₁
    cases hg₁
    rw [hoxid, hIdxOid] at hi₁
    cases hi₁
    rfl
  have hmpnot : ∀ (s : OrderSide) (k : Nat) (l : PriceLevel),
      (k, l) ∈ B.sideLevels s → ¬(s = os ∧ k = kpr) → mp ∉ l.orders := by
    intro s k l hml hne
    exact hx.disjoint os kpr lvl s k l hlmem hml
      (fun hc => hne ⟨hc.1.symm, hc.2.symm⟩) mp hmem
  have hkprm : kpr ∈ keys (B.sideLevels os) := mem_keys_of_mem hlmem
  have hlvlfind : mfind (B.sideLevels os) kpr = some lvl :=
    mfind_eq_of_mem (hx.keysNodup os) hlmem
  set lvlF : PriceLevel := ⟨lvl.price, lvl.total_quantity - om.remaining, rest⟩ with hlvlF
  set m2 := (if rest.isEmpty then merase (B.sideLevels os) kpr
    else minsert (B.sideLevels os) kpr lvlF) with hm2def
  have hm2keys_sub : ∀ a ∈ keys m2, a ∈ keys (B.sideLevels os) := by
    intro a ha
    rw [hm2def] at ha
    by_cases hemp : rest.isEmpty = true
    · rw [if_pos hemp] at ha
      exact keys_merase_sub _ ha
    · rw [if_neg hemp] at ha
      rcases exists_of_mem_keys ha with ⟨v, hv⟩
      rcases mem_minsert_elim (hx.keysNodup os) hv with ⟨hk, _⟩ | ⟨hv', _⟩
      · exact hk ▸ hkprm
      · exact mem_keys_of_mem hv'
  have hm2nodup : (keys m2).Nodup := by
    rw [hm2def]
    by_cases hemp : rest.isEmpty = true
    · rw [if_pos hemp]
      exact keys_merase_nodup (hx.keysNodup os)
    · rw [if_neg hemp]
      exact keys_minsert_nodup _ (hx.keysNodup os)
  have hm2mem : ∀ (k : Nat) (l : PriceLevel), (k, l) ∈ m2 →
      ((k, l) ∈ B.sideLevels os ∧ ¬k = kpr) ∨
      (¬rest.isEmpty = true ∧ k = kpr ∧ l = lvlF) := by
    intro k l hl
    rw [hm2def] at hl
    by_cases hemp : rest.isEmpty = true
    · rw [if_pos hemp] at hl
      refine Or.inl ⟨mem_of_mem_merase hl, ?_⟩
      intro hk
      subst hk
      have h1 : mfind (merase (B.sideLevels os) k) k = none :=
        mfind_merase_self (hx.keysNodup os)
      have h2 : mfind (merase (B.sideLevels os) k) k = some l :=
        mfind_eq_of_mem (keys_merase_nodup (hx.keysNodup os)) hl
      rw [h1] at h2
      cases h2
    · rw [if_neg hemp] at hl
      rcases mem_minsert_elim (hx.keysNodup os) hl with ⟨hk, hv⟩ | ⟨hv, hk⟩
      · exact Or.inr ⟨hemp, hk, hv⟩
      · exact Or.inl ⟨hv, hk⟩
  set BC : OrderBook := { (B.setSideLevels os m2) with index := merase B.index oid }
    with hBC
  have hBCheap : BC.heap = B.heap := by
    rw [hBC]
    show (B.setSideLevels os m2).heap = B.heap
    exact setSideLevels_heap _ _ _
  have hBCindex : BC.index = merase B.index oid := rfl
  have hBCside_self : BC.sideLevels os = m2 := by
    rw [hBC]
    show ({ (B.setSideLevels os m2) with index := merase B.index oid } :
      OrderBook).sideLevels os = m2
    rw [sideLevels_index_update, sideLevels_set_self]
  have hBCside_other : ∀ s : OrderSide, s ≠ os → BC.sideLevels s = B.sideLevels s := by
    intro s hs
    rw [hBC]
    show ({ (B.setSideLevels os m2) with index := merase B.index oid } :
      OrderBook).sideLevels s = B.sideLevels s
    rw [sideLevels_index_update, sideLevels_set_other _ _ hs]
  have hBCmem : ∀ (s : OrderSide) (k : Nat) (l : PriceLevel), (k, l) ∈ BC.sideLevels s →
      ((k, l) ∈ B.sideLevels s ∧ ¬(s = os ∧ k = kpr)) ∨
      (s = os ∧ ¬rest.isEmpty = true ∧ k = kpr ∧ l = lvlF) := by
    intro s k l hl
    by_cases hs : s = os
    · subst hs
      rw [hBCside_self] at hl
      rcases hm2mem k l hl with ⟨h1, h2⟩ | ⟨h1, h2, h3⟩
      · exact Or.inl ⟨h1, fun hc => h2 hc.2⟩
      · exact Or.inr ⟨rfl, h1, h2, h3⟩
    · rw [hBCside_other s hs] at hl
      exact Or.inl ⟨hl, fun hc => hs hc.1⟩
  have hlevels : ∀ (s : OrderSide) (k : Nat) (l : PriceLevel), (k, l) ∈ BC.sideLevels s →
      LevelWF BC.heap BC.index s k l := by
    intro s k l hl
    rw [hBCheap, hBCindex]
    rcases hBCmem s k l hl with ⟨hold, hne⟩ | ⟨hs, hemp, hk, hv⟩
    · have hwl := hx.levelsWF s hold
      have hnomp : mp ∉ l.orders := hmpnot s k l hold hne
      refine ⟨hwl.nonempty, hwl.nodup, ?_, hwl.agg⟩
      intro x hxl
      rcases hwl.mem x hxl with ⟨ox, hg, hp, hsx, hr, hi⟩
      have hxmp : x ≠ mp := fun hc => hnomp (hc ▸ hxl)
      refine ⟨ox, hg, hp, hsx, ?_, ?_⟩
      · rcases hr with hr | hr
        · exact hr
        · exact absurd hr hxmp
      · rw [mfind_merase_ne (fun hc => hxmp (hresonly s k l hold x hxl ox hg hc))]
        exact hi
    · subst hs; subst hk; subst hv
      refine ⟨?_, hrestnd, ?_, ?_⟩
      · show rest ≠ []
        intro hc
        subst hc
        exact hemp rfl
      · show ∀ x ∈ rest, _
        intro x hxl
        rcases (hrest x).mp hxl with ⟨hxlvl, hxmp⟩
        rcases hlw.mem x hxlvl with ⟨ox, hg, hp, hsx, hr, hi⟩
        refine ⟨ox, hg, hp, hsx, ?_, ?_⟩
        · rcases hr with hr | hr
          · exact hr
          · exact absurd hr hxmp
        · rw [mfind_merase_ne
            (fun hc => hxmp (hresonly _ _ lvl hlmem x hxlvl ox hg hc))]
          exact hi
      · show lvl.total_quantity - om.remaining = sumRem B.heap rest
        have hagg : lvl.total_quantity = sumRem B.heap lvl.orders := hlw.agg
        omega
  refine ⟨?_, ?_, ?_, ?_, ?_, ?_, ?_, ?_⟩
  · -- bidsKeys
    show (keys BC.bids).Nodup
    by_cases hs : OrderSide.BUY = os
    · rw [show BC.bids = BC.sideLevels OrderSide.BUY from rfl, hs, hBCside_self]
      exact hm2nodup
    · rw [show BC.bids = BC.sideLevels OrderSide.BUY from rfl, hBCside_other _ hs]
      exact hx.bidsKeys
  · show (keys BC.asks).Nodup
    by_cases hs : OrderSide.SELL = os
    · rw [show BC.asks = BC.sideLevels OrderSide.SELL from rfl, hs, hBCside_self]
      exact hm2nodup
    · rw [show BC.asks = BC.sideLevels OrderSide.SELL from rfl, hBCside_other _ hs]
      exact hx.asksKeys
  · show (keys BC.index).Nodup
    rw [hBCindex]
    exact keys_merase_nodup hx.idxKeys
  · intro s k l hl
    exact hlevels s k l hl
  · -- disjoint
    intro s k l s' k' l' h1 h2 hne x hxl
    have horder : ∀ (s0 : OrderSide) (k0 : Nat) (l0 : PriceLevel),
        (k0, l0) ∈ BC.sideLevels s0 →
        ∃ lb, (k0, lb) ∈ B.sideLevels s0 ∧ ∀ y ∈ l0.orders, y ∈ lb.orders := by
      intro s0 k0 l0 hm0
      rcases hBCmem s0 k0 l0 hm0 with ⟨hold, _⟩ | ⟨hs, _, hk, hv⟩
      · exact ⟨l0, hold, fun y hy => hy⟩
      · subst hs; subst hk; subst hv
        exact ⟨lvl, hlmem, fun y hy => ((hrest y).mp hy).1⟩
    rcases horder s k l h1 with ⟨lb, hb1, he1⟩
    rcases horder s' k' l' h2 with ⟨lb', hb2, he2⟩
    intro hc
    exact hx.disjoint s k lb s' k' lb' hb1 hb2 hne x (he1 x hxl) (he2 x hc)
  · -- idxWF
    intro i x hi
    rw [hBCindex] at hi
    rw [hBCheap]
    exact hx.idxWF (mem_of_mem_merase hi)
  · -- idsNodup
    show (BC.heap.map Order.id).Nodup
    rw [hBCheap]
    exact hx.idsNodup
  · -- nocross
    intro hbne hane
    cases hos : os with
    | BUY =>
      have hasks : BC.asks = B.asks := by
        rw [show BC.asks = BC.sideLevels OrderSide.SELL from rfl,
          hBCside_other _ (by simp [hos])]
        rfl
      have hbids : BC.bids = m2 := by
        rw [show BC.bids = BC.sideLevels OrderSide.BUY from rfl, ← hos, hBCside_self]
      have hbidsub : ∀ a ∈ keys BC.bids, a ∈ keys B.bids := by
        rw [hbids]
        intro a ha
        have := hm2keys_sub a ha
        rw [hos] at this
        exact this
      have hBbne : B.bids ≠ [] := by
        intro hc
        cases hb : BC.bids with
        | nil => exact hbne hb
        | cons ee tt =>
          have : ee.1 ∈ keys B.bids := hbidsub ee.1 (by rw [hb]; simp [keys])
          rw [hc] at this
          simp [keys] at this
      have hBane : B.asks ≠ [] := by rw [← hasks]; exact hane
      have hold := hx.nocross hBbne hBane
      have haskeq : BC.getBestAsk = B.getBestAsk := getBestAsk_congr (by rw [hasks])
      rcases (show ∃ e, maxEntry BC.bids = some e by
        cases hh : maxEntry BC.bids with
        | none => exact absurd (maxEntry_eq_none_iff.mp hh) hbne
        | some e => exact ⟨e, rfl⟩) with ⟨eC, heC⟩
      rcases (show ∃ e, maxEntry B.bids = some e by
        cases hh : maxEntry B.bids with
        | none => exact absurd (maxEntry_eq_none_iff.mp hh) hBbne
        | some e => exact ⟨e, rfl⟩) with ⟨eB, heB⟩
      have hle : eC.1 ≤ eB.1 := maxEntry_le_of_sub hbidsub heB heC
      have h1 : BC.getBestBid = eC.1 := by unfold OrderBook.getBestBid; rw [heC]
      have h2 : B.getBestBid = eB.1 := by unfold OrderBook.getBestBid; rw [heB]
      rw [h1, haskeq]
      rw [h2] at hold
      omega
    | SELL =>
      have hbids : BC.bids = B.bids := by
        rw [show BC.bids = BC.sideLevels OrderSide.BUY from rfl,
          hBCside_other _ (by simp [hos])]
        rfl
      have hasks : BC.asks = m2 := by
        rw [show BC.asks = BC.sideLevels OrderSide.SELL from rfl, ← hos, hBCside_self]
      have hasksub : ∀ a ∈ keys BC.asks, a ∈ keys B.asks := by
        rw [hasks]
        intro a ha
        have := hm2keys_sub a ha
        rw [hos] at this
        exact this
      have hBane : B.asks ≠ [] := by
        intro hc
        cases hb : BC.asks with
        | nil => exact hane hb
        | cons ee tt =>
          have : ee.1 ∈ keys B.asks := hasksub ee.1 (by rw [hb]; simp [keys])
          rw [hc] at this
          simp [keys] at this
      have hBbne : B.bids ≠ [] := by rw [← hbids]; exact hbne
      have hold := hx.nocross hBbne hBane
      have hbideq : BC.getBestBid = B.getBestBid := getBestBid_congr (by rw [hbids])
      rcases (show ∃ e, minEntry BC.asks = some e by
        cases hh : minEntry BC.asks with
        | none => exact absurd (minEntry_eq_none_iff.mp hh) hane
        | some e => exact ⟨e, rfl⟩) with ⟨eC, heC⟩
      rcases (show ∃ e, minEntry B.asks = some e by
        cases hh : minEntry B.asks with
        | none => exact absurd (minEntry_eq_none_iff.mp hh) hBane
        | some e => exact ⟨e, rfl⟩) with ⟨eB, heB⟩
      have hge : eB.1 ≤ eC.1 := minEntry_ge_of_sub hasksub heB heC
      have h1 : BC.getBestAsk = eC.1 := by unfold OrderBook.getBestAsk; rw [heC]
      have h2 : B.getBestAsk = eB.1 := by unfold OrderBook.getBestAsk; rw [heB]
      rw [h1, hbideq]
      rw [h2] at hold
      omega

/-- Re-inserting the value a key already maps to leaves the map intact. -/
theorem minsert_self_of_mfind {α : Type} {m : List (Nat × α)} {k : Nat} {v : α}
    (h : mfind m k = some v) : minsert m k v = m := by
  induction m with
  | nil => simp [mfind] at h
  | cons e t ih =>
    obtain ⟨ek, ev⟩ := e
    by_cases hk : ek = k
    · subst hk
      simp only [mfind, if_pos rfl] at h
      cases h
      simp [minsert]
    · simp only [mfind, if_neg hk] at h
      simp only [minsert, if_neg hk]
      rw [ih h]

theorem setSideLevels_self (b : OrderBook) (s : OrderSide) :
    b.setSideLevels s (b.sideLevels s) = b := by
  cases s <;> rfl

/-- Erasing an id that no resting order carries preserves
well-formedness. -/
theorem indexErase_WF {b : OrderBook} {oid : Nat} (hwf : WF b)
    (hno : ∀ (s : OrderSide) (k : Nat) (lvl : PriceLevel),
      (k, lvl) ∈ b.sideLevels s → ∀ x ∈ lvl.orders, ∀ ox : Order,
      hget b.heap x = some ox → ox.id ≠ oid) :
    WF ({ b with index := merase b.index oid }) := by
  refine ⟨hwf.bidsKeys, hwf.asksKeys, keys_merase_nodup hwf.idxKeys, ?_, ?_, ?_,
    hwf.idsNodup, hwf.nocross⟩
  · intro s k lvl hm
    rw [sideLevels_index_update] at hm
    have hl := hwf.levelsWF s hm
    refine ⟨hl.nonempty, hl.nodup, ?_, hl.agg⟩
    intro x hx
    rcases hl.mem x hx with ⟨o, h1, h2, h3, h4, h5⟩
    refine ⟨o, h1, h2, h3, h4, ?_⟩
    show mfind (merase b.index oid) o.id = some x
    rw [mfind_merase_ne (hno s k lvl hm x hx o h1)]
    exact h5
  · intro s k lvl s' k' lvl' h1 h2 hne
    rw [sideLevels_index_update] at h1 h2
    exact hwf.disjoint s k lvl s' k' lvl' h1 h2 hne
  · intro i p hm
    exact hwf.idxWF (mem_of_mem_merase hm)

/-- `OrderBook::cancelOrder` preserves well-formedness. -/
theorem WF_cancelOrder {b : OrderBook} (hwf : WF b) (oid : Nat) :
    WF (b.cancelOrder oid).1 := by
  cases hf : mfind b.index oid with
  | none =>
    unfold OrderBook.cancelOrder
    rw [hf]
    exact hwf
  | some mp =>
    rcases hwf.idxWF (mem_of_mfind hf) with ⟨om, hom, homid⟩
    by_cases hR : ∃ lvl, mfind (b.sideLevels om.side) om.price = some lvl ∧
        mp ∈ lvl.orders
    · rcases hR with ⟨lvl, hl, hmem⟩
      have hlw : LevelWF b.heap b.index om.side om.price lvl :=
        hwf.levelsWF om.side (mem_of_mfind hl)
      have huniq : ∀ x ∈ lvl.orders, idOf b.heap x = some oid → x = mp := by
        intro x hx hidx
        rcases hlw.mem x hx with ⟨ox, hgx, _, _, _, hix⟩
        have hxid : ox.id = oid := by
          rw [idOf, hgx] at hidx
          simpa using hidx
        rw [hxid, hf] at hix
        cases hix
        rfl
      rcases cancelOrder_found_spec (hwf.sideKeys om.side) hf hom homid hl hmem huniq
        with ⟨rest, hrm, heq⟩
      rw [heq]
      have hrest := removeFirstById_mem_rest hrm hlw.nodup
      rcases removeFirstById_nodup hrm hlw.nodup with ⟨hrnd, _⟩
      have hsum0 := removeFirstById_sum hrm
      have hremmp : remOf b.heap mp = om.remaining := by simp [remOf, hom]
      exact removal_WF (hwf.toWFx mp) (mem_of_mfind hl) hom homid rfl hmem hrest hrnd
        (by rw [hremmp] at hsum0; omega)
    · have hno : ∀ (s : OrderSide) (k : Nat) (l : PriceLevel),
          (k, l) ∈ b.sideLevels s → ∀ x ∈ l.orders, ∀ ox : Order,
          hget b.heap x = some ox → ox.id ≠ oid := by
        intro s k l hml x hxl ox hgx hc
        rcases (hwf.levelsWF s hml).mem x hxl with ⟨ox₁, hg₁, hp₁, hs₁, _, hi₁⟩
        rw [hgx] at hg₁
        cases hg₁
        rw [hc, hf] at hi₁
        cases hi₁
        rw [hom] at hgx
        cases hgx
        exact hR ⟨l, by rw [hp₁, hs₁]; exact mfind_eq_of_mem (hwf.sideKeys s) hml,
          hxl⟩
      have heq : b.cancelOrder oid = ({ b with index := merase b.index oid }, true) := by
        unfold OrderBook.cancelOrder
        rw [hf]
        dsimp only
        rw [hom]
        dsimp only [Option.getD]
        cases hl : mfind (b.sideLevels om.side) om.price with
        | none => rfl
        | some lvl =>
          dsimp only
          have hrm : removeFirstById b.heap oid lvl.orders = none := by
            cases hr : removeFirstById b.heap oid lvl.orders with
            | none => rfl
            | some pr =>
              obtain ⟨x, rest⟩ := pr
              exfalso
              have hx : x ∈ lvl.orders := removeFirstById_mem hr
              rcases removeFirstById_some_spec hr with ⟨l₁, l₂, _, _, hqid, _⟩
              rcases (show ∃ ox, hget b.heap x = some ox ∧ ox.id = oid by
                cases hg : hget b.heap x with
                | none => rw [idOf, hg] at hqid; cases hqid
                | some ox =>
                  rw [idOf, hg] at hqid
                  exact ⟨ox, rfl, by simpa using hqid⟩) with ⟨ox, hgx, hoxid⟩
              exact hno om.side om.price lvl (mem_of_mfind hl) x hx ox hgx hoxid
          unfold PriceLevel.removeOrder
          rw [hrm]
          dsimp only
          rw [if_neg (by simp)]
          rw [minsert_self_of_mfind hl, setSideLevels_self]
      rw [heq]
      exact indexErase_WF hwf hno

/-- Cancelling an id that is resting (its index pointer sits in the level
at its own side and price) yields a well-formed book, from a book that is
well-formed except possibly at that very pointer. -/
theorem cancel_resting_WF {B : OrderBook} {oid mp : Nat} {om : Order}
    {lvl : PriceLevel}
    (hx : WFx B mp)
    (hf : mfind B.index oid = some mp)
    (hom : hget B.heap mp = some om)
    (homid : om.id = oid)
    (hl : mfind (B.sideLevels om.side) om.price = some lvl)
    (hmem : mp ∈ lvl.orders) :
    WF (B.cancelOrder oid).1 := by
  have hlw : LevelWFx B.heap B.index om.side om.price lvl mp :=
    hx.levelsWF om.side (mem_of_mfind hl)
  have huniq : ∀ x ∈ lvl.orders, idOf B.heap x = some oid → x = mp := by
    intro x hx1 hidx
    rcases hlw.mem x hx1 with ⟨ox, hgx, _, _, _, hix⟩
    have hxid : ox.id = oid := by
      rw [idOf, hgx] at hidx
      simpa using hidx
    rw [hxid, hf] at hix
    cases hix
    rfl
  rcases cancelOrder_found_spec (hx.keysNodup om.side) hf hom homid hl hmem huniq
    with ⟨rest, hrm, heq⟩
  rw [heq]
  have hrest := removeFirstById_mem_rest hrm hlw.nodup
  rcases removeFirstById_nodup hrm hlw.nodup with ⟨hrnd, _⟩
  have hsum0 := removeFirstById_sum hrm
  have hremmp : remOf B.heap mp = om.remaining := by simp [remOf, hom]
  exact removal_WF hx (mem_of_mfind hl) hom homid rfl hmem hrest hrnd
    (by rw [hremmp] at hsum0; omega)

/-- One iteration of the matching loop preserves well-formedness. -/
theorem matchStep_WF {b : OrderBook} {p : Nat} {o : Order} {bres : OrderBook}
    {e : Exec} {kB : Nat} {lvlB : PriceLevel} {mp : Nat} {mo : Order} {q : Nat}
    (hwf : WF b) (ho : hget b.heap p = some o) (hfr : PtrFresh b p)
    (hidx : mfind b.index o.id = none)
    (ctx : StepCtx b p o bres e kB lvlB mp mo q) :
    WF bres := by
  rw [ctx.hbres]
  by_cases hfill : mo.remaining - q = 0
  · rw [if_pos hfill]
    have hx : WFx (stepMid b p o kB lvlB mp mo q) mp :=
      stepMid_WFx hwf ho hfr hidx ctx
    have hmplt : mp < b.heap.length := hget_lt_length ctx.hmo
    have hom : hget (stepMid b p o kB lvlB mp mo q).heap mp
        = some (mo.reduceQuantity q) := by
      rw [stepMid_heap]
      exact hget_stepHeap_mp hmplt
    have hf : mfind (stepMid b p o kB lvlB mp mo q).index mo.id = some mp := by
      rw [stepMid_index]
      exact ctx.hidxmo
    have hl : mfind ((stepMid b p o kB lvlB mp mo q).sideLevels
          (mo.reduceQuantity q).side) (mo.reduceQuantity q).price
        = some (lvlB.updateQuantity mo.remaining (mo.remaining - q)) := by
      rw [reduceQuantity_side, reduceQuantity_price, ctx.hmoside, ctx.hmoprice,
        stepMid_side_self]
      exact mfind_minsert_self _ _ _
    have hmem : mp ∈ (lvlB.updateQuantity mo.remaining (mo.remaining - q)).orders := by
      rw [updateQuantity_orders]
      exact ctx.hmp
    exact cancel_resting_WF hx hf hom (reduceQuantity_id mo q) hl hmem
  · rw [if_neg hfill]
    exact stepMid_WF hwf ho hfr hidx ctx hfill

theorem reduceQuantity_quantity (o : Order) (q : Nat) :
    (o.reduceQuantity q).quantity = o.quantity := rfl

theorem reduceQuantity_timestamp (o : Order) (q : Nat) :
    (o.reduceQuantity q).timestamp = o.timestamp := rfl

theorem executeTrade_quantity (a c : Order) (pr q : Nat) :
    (executeTrade a c pr q).quantity = q := by
  unfold executeTrade
  split <;> rfl

theorem executeTrade_price (a c : Order) (pr q : Nat) :
    (executeTrade a c pr q).price = pr := by
  unfold executeTrade
  split <;> rfl

theorem executeTrade_buy (a c : Order) (pr q : Nat) :
    (executeTrade a c pr q).buy_order_id =
      (match a.side with | .BUY => a.id | .SELL => c.id) := by
  unfold executeTrade
  cases ha : a.side <;> simp [ha]

theorem executeTrade_sell (a c : Order) (pr q : Nat) :
    (executeTrade a c pr q).sell_order_id =
      (match a.side with | .BUY => c.id | .SELL => a.id) := by
  unfold executeTrade
  cases ha : a.side <;> simp [ha]

theorem executeTrade_refs (a c : Order) (pr q : Nat) (i : Nat) :
    ((executeTrade a c pr q).buy_order_id = i ∨
      (executeTrade a c pr q).sell_order_id = i) ↔ (a.id = i ∨ c.id = i) := by
  unfold executeTrade
  split <;> dsimp only <;> tauto

theorem mem_minsert_weak {α : Type} {m : List (Nat × α)} {k : Nat} {v : α}
    {a : Nat} {w : α} (h : (a, w) ∈ minsert m k v) : (a, w) ∈ m ∨ w = v := by
  induction m with
  | nil =>
    simp [minsert] at h
    exact Or.inr h.2
  | cons e t ih =>
    obtain ⟨ek, ev⟩ := e
    by_cases hk : ek = k
    · subst hk
      simp only [minsert, if_pos rfl] at h
      rcases List.mem_cons.mp h with h1 | h1
      · cases h1; exact Or.inr rfl
      · exact Or.inl (List.mem_cons_of_mem _ h1)
    · simp only [minsert, if_neg hk] at h
      rcases List.mem_cons.mp h with h1 | h1
      · exact Or.inl (h1 ▸ List.mem_cons_self _ _)
      · rcases ih h1 with h2 | h2
        · exact Or.inl (List.mem_cons_of_mem _ h2)
        · exact Or.inr h2

theorem removeOrder_orders_sub (heap : List Order) (lvl : PriceLevel) (oid : Nat) :
    ∀ x ∈ (lvl.removeOrder heap oid).1.orders, x ∈ lvl.orders := by
  unfold PriceLevel.removeOrder
  cases hr : removeFirstById heap oid lvl.orders with
  | none => intro x hx; exact hx
  | some pr =>
    obtain ⟨p0, rest⟩ := pr
    dsimp only
    intro x hx
    exact removeFirstById_rest_sub hr x hx

/-- Structural facts about `cancelOrder` needed independently of
well-formedness: the heap is untouched, the index is at most erased at
the cancelled id, and every surviving level's queue is a sub-queue of a
level previously on the same side. -/
theorem cancelOrder_struct (B : OrderBook) (oid : Nat) :
    ((B.cancelOrder oid).1).heap = B.heap ∧
    (((B.cancelOrder oid).1).index = B.index ∨
      ((B.cancelOrder oid).1).index = merase B.index oid) ∧
    (∀ (s : OrderSide) (k : Nat) (lvl : PriceLevel),
      (k, lvl) ∈ ((B.cancelOrder oid).1).sideLevels s →
      ∃ k' lvl', (k', lvl') ∈ B.sideLevels s ∧ ∀ x ∈ lvl.orders, x ∈ lvl'.orders) := by
  unfold OrderBook.cancelOrder
  cases hf : mfind B.index oid with
  | none => exact ⟨rfl, Or.inl rfl, fun s k lvl h => ⟨k, lvl, h, fun x hx => hx⟩⟩
  | some mp =>
    dsimp only
    cases hm : mfind (B.sideLevels ((hget B.heap mp).getD default).side)
        ((hget B.heap mp).getD default).price with
    | none =>
      dsimp only
      refine ⟨rfl, Or.inr rfl, ?_⟩
      intro s k lvl h
      rw [sideLevels_index_update] at h
      exact ⟨k, lvl, h, fun x hx => hx⟩
    | some lvl0 =>
      dsimp only
      refine ⟨by rw [setSideLevels_heap], Or.inr (by rw [setSideLevels_index]), ?_⟩
      intro s k lvl h
      rw [sideLevels_index_update] at h
      by_cases hs : s = ((hget B.heap mp).getD default).side
      · subst hs
        rw [sideLevels_set_self] at h
        have hmem' : (k, lvl) ∈
            minsert (B.sideLevels ((hget B.heap mp).getD default).side)
              ((hget B.heap mp).getD default).price
              (lvl0.removeOrder B.heap oid).1 := by
          by_cases hcond : ((lvl0.removeOrder B.heap oid).2 : Prop) ∧
              ((lvl0.removeOrder B.heap oid).1.isEmpty : Prop)
          · rw [if_pos hcond] at h
            exact mem_of_mem_merase h
          · rw [if_neg hcond] at h
            exact h
        rcases mem_minsert_weak hmem' with h1 | h1
        · exact ⟨k, lvl, h1, fun x hx => hx⟩
        · subst h1
          exact ⟨((hget B.heap mp).getD default).price, lvl0, mem_of_mfind hm,
            removeOrder_orders_sub B.heap lvl0 oid⟩
      · rw [sideLevels_set_other _ _ hs] at h
        exact ⟨k, lvl, h, fun x hx => hx⟩

/-- The best opposing level's key is price-optimal among the whole
opposing map. -/
theorem bestEntryFor_best {s : OrderSide} {m : List (Nat × PriceLevel)}
    {kB : Nat} {lvlB : PriceLevel}
    (h : bestEntryFor s.opposite m = some (kB, lvlB)) :
    ∀ a ∈ m, ¬priceBetter s a.1 kB := by
  intro a ha
  cases s with
  | BUY =>
    have := minEntry_isBot h a ha
    intro hc
    exact absurd hc (by unfold priceBetter; omega)
  | SELL =>
    have := maxEntry_isTop h a ha
    intro hc
    exact absurd hc (by unfold priceBetter; omega)

/-- Everything one successful match iteration guarantees, for the loop
induction and the per-trade claims. -/
structure StepFacts (b : OrderBook) (p : Nat) (o : Order) (bres : OrderBook)
    (e : Exec) : Prop where
  wf : WF bres
  execok : ExecOK e
  pre_eq : e.pre = b
  taker_eq : e.taker = o
  qty_pos : 0 < e.trade.quantity
  qty_le : e.trade.quantity ≤ o.remaining
  heap_len : bres.heap.length = b.heap.length
  taker_after : hget bres.heap p = some (o.reduceQuantity e.trade.quantity)
  ids_eq : bres.heap.map Order.id = b.heap.map Order.id
  fresh : PtrFresh bres p
  idx_none : mfind bres.index o.id = none
  conserve : ∀ (x : Nat) (ox' : Order), hget bres.heap x = some ox' →
    ∃ ox : Order, hget b.heap x = some ox ∧ ox'.id = ox.id ∧
      ox'.quantity = ox.quantity ∧ ox'.side = ox.side ∧ ox'.price = ox.price ∧
      ox'.timestamp = ox.timestamp ∧
      ox'.remaining + (if e.trade.buy_order_id = ox.id ∨ e.trade.sell_order_id = ox.id
        then e.trade.quantity else 0) = ox.remaining
  tids : ∀ i : Nat, (e.trade.buy_order_id = i ∨ e.trade.sell_order_id = i) →
    i ∈ b.heap.map Order.id

/-- Master lemma about one successful iteration of the matching loop. -/
theorem matchStep_facts {b : OrderBook} {p : Nat} {o : Order} {bres : OrderBook}
    {e : Exec}
    (hwf : WF b) (ho : hget b.heap p = some o) (hfr : PtrFresh b p)
    (hidx : mfind b.index o.id = none)
    (hstep : matchStep p b = some (bres, e)) :
    StepFacts b p o bres e := by
  rcases matchStep_ctx hwf ho hfr hidx hstep with ⟨kB, lvlB, mp, mo, q, ctx⟩
  have hplt : p < b.heap.length := hget_lt_length ho
  have hmplt : mp < b.heap.length := hget_lt_length ctx.hmo
  have hqty : e.trade.quantity = q := by rw [ctx.he, executeTrade_quantity]
  have hidne : o.id ≠ mo.id := by
    intro hc
    rw [hc, ctx.hidxmo] at hidx
    cases hidx
  have hbheap : bres.heap = stepHeap b p o mp mo q := by
    rw [ctx.hbres]
    by_cases hfill : mo.remaining - q = 0
    · rw [if_pos hfill, (cancelOrder_struct _ _).1, stepMid_heap]
    · rw [if_neg hfill, stepMid_heap]
  have hbindex : bres.index = b.index ∨ bres.index = merase b.index mo.id := by
    rw [ctx.hbres]
    by_cases hfill : mo.remaining - q = 0
    · rw [if_pos hfill]
      rcases (cancelOrder_struct (stepMid b p o kB lvlB mp mo q) mo.id).2.1 with h1 | h1
      · rw [h1, stepMid_index]
        exact Or.inl rfl
      · rw [h1, stepMid_index]
        exact Or.inr rfl
    · rw [if_neg hfill, stepMid_index]
      exact Or.inl rfl
  have hmid_sub : ∀ (s : OrderSide) (k : Nat) (lvl : PriceLevel),
      (k, lvl) ∈ (stepMid b p o kB lvlB mp mo q).sideLevels s →
      ∃ k' lvl', (k', lvl') ∈ b.sideLevels s ∧ ∀ x ∈ lvl.orders, x ∈ lvl'.orders := by
    intro s k lvl hm
    rcases stepMid_levels hwf ctx s k lvl hm with ⟨hs, hk, hv⟩ | ⟨hold, _⟩
    · refine ⟨kB, lvlB, ?_, ?_⟩
      · rw [hs]
        exact ctx.hlmem
      · intro x hx
        rw [hv, updateQuantity_orders] at hx
        exact hx
    · exact ⟨k, lvl, hold, fun x hx => hx⟩
  have hsub : ∀ (s : OrderSide) (k : Nat) (lvl : PriceLevel),
      (k, lvl) ∈ bres.sideLevels s →
      ∃ k' lvl', (k', lvl') ∈ b.sideLevels s ∧ ∀ x ∈ lvl.orders, x ∈ lvl'.orders := by
    rw [ctx.hbres]
    by_cases hfill : mo.remaining - q = 0
    · rw [if_pos hfill]
      intro s k lvl hm
      rcases (cancelOrder_struct (stepMid b p o kB lvlB mp mo q) mo.id).2.2 s k lvl hm
        with ⟨k1, lvl1, hm1, hs1⟩
      rcases hmid_sub s k1 lvl1 hm1 with ⟨k2, lvl2, hm2, hs2⟩
      exact ⟨k2, lvl2, hm2, fun x hx => hs2 x (hs1 x hx)⟩
    · rw [if_neg hfill]
      exact hmid_sub
  refine ⟨matchStep_WF hwf ho hfr hidx ctx, ?_, by rw [ctx.he], by rw [ctx.he],
    ?_, ?_, ?_, ?_, ?_, ?_, ?_, ?_, ?_⟩
  · -- ExecOK
    rw [ctx.he]
    refine ⟨⟨kB, lvlB, ctx.hlmem, ctx.hmp⟩, ctx.hmo, ctx.hmoside, ctx.hmopos,
      Nat.pos_of_ne_zero ctx.hrem, ?_, ?_, ?_, ?_, ?_⟩
    · rw [executeTrade_quantity]
      exact ctx.hq
    · exact executeTrade_price o mo mo.price q
    · exact executeTrade_buy o mo mo.price q
    · exact executeTrade_sell o mo mo.price q
    · intro k lvl x oc hml hxl hgoc hocpos hxne hcon
      dsimp only at hml hxl hgoc hocpos hxne hcon
      rcases (hwf.levelsWF _ hml).mem x hxl with ⟨oc₁, hg₁, hp₁, hs₁, _, _⟩
      rw [hgoc] at hg₁
      cases hg₁
      rcases hcon with hcon | hcon
      · rw [hp₁, ctx.hmoprice] at hcon
        exact bestEntryFor_best ctx.hbest (k, lvl) hml hcon
      · have hkk : k = kB := by
          rw [← hp₁, hcon.1, ctx.hmoprice]
        subst hkk
        have hlvl : lvl = lvlB := by
          have e1 := mfind_eq_of_mem (hwf.sideKeys o.side.opposite) hml
          have e2 := mfind_eq_of_mem (hwf.sideKeys o.side.opposite) ctx.hlmem
          rw [e1] at e2
          cases e2
          rfl
        subst hlvl
        have hcompat : compatible o oc = true :=
          compatible_congr ctx.hcompat (by rw [hs₁, ctx.hmoside]) hcon.1
        have := ctx.hmin x hxl oc hgoc (by omega) hcompat
        omega
  · rw [hqty]
    exact ctx.hqpos
  · rw [hqty]
    exact ctx.hqo
  · rw [hbheap]
    exact stepHeap_length _ _ _ _ _ _
  · rw [hbheap, hqty]
    exact hget_stepHeap_p ctx.hpne hplt
  · rw [hbheap]
    exact stepHeap_ids ho ctx.hmo ctx.hpne
  · intro s k lvl hm
    rcases hsub s k lvl hm with ⟨k', lvl', hm', hs'⟩
    intro hc
    exact hfr s k' lvl' hm' (hs' p hc)
  · rcases hbindex with h1 | h1
    · rw [h1]
      exact hidx
    · rw [h1, mfind_merase_ne hidne]
      exact hidx
  · intro x ox' hg
    rw [hbheap] at hg
    by_cases hxp : x = p
    · subst hxp
      rw [hget_stepHeap_p ctx.hpne hplt] at hg
      cases hg
      refine ⟨o, ho, reduceQuantity_id o q, reduceQuantity_quantity o q,
        reduceQuantity_side o q, reduceQuantity_price o q,
        reduceQuantity_timestamp o q, ?_⟩
      rw [if_pos ?hc]
      case hc =>
        rw [ctx.he]
        dsimp only
        exact (executeTrade_refs o mo mo.price q o.id).mpr (Or.inl rfl)
      rw [hqty, reduceQuantity_remaining ctx.hqo]
      have := ctx.hqo
      omega
    · by_cases hxmp : x = mp
      · subst hxmp
        rw [hget_stepHeap_mp hmplt] at hg
        cases hg
        refine ⟨mo, ctx.hmo, reduceQuantity_id mo q, reduceQuantity_quantity mo q,
          reduceQuantity_side mo q, reduceQuantity_price mo q,
          reduceQuantity_timestamp mo q, ?_⟩
        rw [if_pos ?hc2]
        case hc2 =>
          rw [ctx.he]
          dsimp only
          exact (executeTrade_refs o mo mo.price q mo.id).mpr (Or.inr rfl)
        rw [hqty, reduceQuantity_remaining ctx.hqmo]
        have := ctx.hqmo
        omega
      · rw [hget_stepHeap_other hxp hxmp] at hg
        refine ⟨ox', hg, rfl, rfl, rfl, rfl, rfl, ?_⟩
        rw [if_neg ?hc3]
        case hc3 =>
          rw [ctx.he]
          dsimp only
          intro hc
          rcases (executeTrade_refs o mo mo.price q ox'.id).mp hc with h1 | h1
          · exact hget_ids_ne hwf.idsNodup ho hg (fun hpe => hxp hpe.symm) h1
          · exact hget_ids_ne hwf.idsNodup ctx.hmo hg (fun hpe => hxmp hpe.symm) h1
        omega
  · intro i hi
    rw [ctx.he] at hi
    dsimp only at hi
    rcases (executeTrade_refs o mo mo.price q i).mp hi with h1 | h1
    · rw [← h1]
      exact List.mem_map.mpr ⟨o, hget_mem ho, rfl⟩
    · rw [← h1]
      exact List.mem_map.mpr ⟨mo, hget_mem ctx.hmo, rfl⟩

theorem tradeSum_eq_zero {tr : List Exec} {i : Nat}
    (h : ∀ e ∈ tr, ¬(e.trade.buy_order_id = i ∨ e.trade.sell_order_id = i)) :
    tradeSum tr i = 0 := by
  induction tr with
  | nil => rfl
  | cons e t ih =>
    rw [tradeSum_cons, if_neg (h e (List.mem_cons_self _ _)),
      ih (fun e' he' => h e' (List.mem_cons_of_mem _ he'))]

/-- Cumulative facts about a full run of the matching loop. -/
structure LoopFacts (b : OrderBook) (p : Nat) (o : Order) (bfin : OrderBook)
    (tr : List Exec) : Prop where
  wf : WF bfin
  execok : ∀ e ∈ tr, ExecOK e
  heap_len : bfin.heap.length = b.heap.length
  ids_eq : bfin.heap.map Order.id = b.heap.map Order.id
  fresh : PtrFresh bfin p
  idx_none : mfind bfin.index o.id = none
  conserve : ∀ (x : Nat) (ox' : Order), hget bfin.heap x = some ox' →
    ∃ ox : Order, hget b.heap x = some ox ∧ ox'.id = ox.id ∧
      ox'.quantity = ox.quantity ∧ ox'.side = ox.side ∧ ox'.price = ox.price ∧
      ox'.timestamp = ox.timestamp ∧
      ox'.remaining + tradeSum tr ox.id = ox.remaining
  tids : ∀ e ∈ tr, ∀ i : Nat,
    (e.trade.buy_order_id = i ∨ e.trade.sell_order_id = i) →
    i ∈ b.heap.map Order.id

/-- Master induction over the fuelled matching loop. -/
theorem matchLoop_facts : ∀ (fuel : Nat) {b : OrderBook} {p : Nat} {o : Order},
    WF b → hget b.heap p = some o → PtrFresh b p → mfind b.index o.id = none →
    LoopFacts b p o (matchLoop fuel p b).1 (matchLoop fuel p b).2 := by
  intro fuel
  induction fuel with
  | zero =>
    intro b p o hwf ho hfr hidx
    refine ⟨hwf, fun e he => absurd he (List.not_mem_nil e), rfl, rfl, hfr, hidx,
      ?_, fun e he => absurd he (List.not_mem_nil e)⟩
    intro x ox' hg
    exact ⟨ox', hg, rfl, rfl, rfl, rfl, rfl, rfl⟩
  | succ fuel ih =>
    intro b p o hwf ho hfr hidx
    cases hstep : matchStep p b with
    | none =>
      show LoopFacts b p o (matchLoop (fuel + 1) p b).1 (matchLoop (fuel + 1) p b).2
      rw [show matchLoop (fuel + 1) p b = (b, []) by unfold matchLoop; rw [hstep]]
      refine ⟨hwf, fun e he => absurd he (List.not_mem_nil e), rfl, rfl, hfr, hidx,
        ?_, fun e he => absurd he (List.not_mem_nil e)⟩
      intro x ox' hg
      exact ⟨ox', hg, rfl, rfl, rfl, rfl, rfl, rfl⟩
    | some be =>
      obtain ⟨b', e⟩ := be
      have sf : StepFacts b p o b' e := matchStep_facts hwf ho hfr hidx hstep
      have hid' : (o.reduceQuantity e.trade.quantity).id = o.id :=
        reduceQuantity_id o _
      have lf : LoopFacts b' p (o.reduceQuantity e.trade.quantity)
          (matchLoop fuel p b').1 (matchLoop fuel p b').2 :=
        ih sf.wf sf.taker_after sf.fresh (by rw [hid']; exact sf.idx_none)
      have hres : matchLoop (fuel + 1) p b =
          ((matchLoop fuel p b').1, e :: (matchLoop fuel p b').2) := by
        conv_lhs => rw [matchLoop]
        rw [hstep]
      rw [hres]
      refine ⟨lf.wf, ?_, lf.heap_len.trans sf.heap_len,
        lf.ids_eq.trans sf.ids_eq, lf.fresh, by rw [← hid']; exact lf.idx_none,
        ?_, ?_⟩
      · intro e' he'
        rcases List.mem_cons.mp he' with h1 | h1
        · rw [h1]
          exact sf.execok
        · exact lf.execok e' h1
      · intro x ox'' hg
        rcases lf.conserve x ox'' hg with ⟨ox', hg', hid1, hq1, hs1, hp1, ht1, hr1⟩
        rcases sf.conserve x ox' hg' with ⟨ox, hg0, hid0, hq0, hs0, hp0, ht0, hr0⟩
        refine ⟨ox, hg0, hid1.trans hid0, hq1.trans hq0, hs1.trans hs0,
          hp1.trans hp0, ht1.trans ht0, ?_⟩
        rw [tradeSum_cons]
        rw [hid0] at hr1
        omega
      · intro e' he' i hi
        rcases List.mem_cons.mp he' with h1 | h1
        · subst h1
          exact sf.tids i hi
        · rw [← sf.ids_eq]
          exact lf.tids e' h1 i hi

/-- With fuel at least the incoming remaining quantity, the loop runs to
completion: its final state admits no further match step. -/
theorem matchLoop_exit : ∀ (fuel : Nat) {b : OrderBook} {p : Nat} {o : Order},
    WF b → hget b.heap p = some o → PtrFresh b p → mfind b.index o.id = none →
    o.remaining ≤ fuel →
    matchStep p (matchLoop fuel p b).1 = none := by
  intro fuel
  induction fuel with
  | zero =>
    intro b p o hwf ho hfr hidx hfuel
    show matchStep p (matchLoop 0 p b).1 = none
    rw [show (matchLoop 0 p b).1 = b from rfl]
    unfold matchStep
    rw [ho]
    dsimp only
    rw [if_pos (by omega)]
  | succ fuel ih =>
    intro b p o hwf ho hfr hidx hfuel
    cases hstep : matchStep p b with
    | none =>
      show matchStep p (matchLoop (fuel + 1) p b).1 = none
      rw [show matchLoop (fuel + 1) p b = (b, []) by unfold matchLoop; rw [hstep]]
      exact hstep
    | some be =>
      obtain ⟨b', e⟩ := be
      have sf : StepFacts b p o b' e := matchStep_facts hwf ho hfr hidx hstep
      have hres : (matchLoop (fuel + 1) p b).1 = (matchLoop fuel p b').1 := by
        conv_lhs => rw [matchLoop]
        rw [hstep]
      rw [hres]
      have hrem' : (o.reduceQuantity e.trade.quantity).remaining ≤ fuel := by
        rw [reduceQuantity_remaining sf.qty_le]
        have := sf.qty_pos
        omega
      exact ih sf.wf sf.taker_after sf.fresh
        (by rw [reduceQuantity_id]; exact sf.idx_none) hrem'

/-- When the matching loop stops with the taker still unfilled, the
taker's limit is strictly on its own side of the opposing best price:
`priceBetter` of the taker's own price against the opposing best key
(strictly below the best ask for a buyer, strictly above the best bid
for a seller). -/
theorem matchStep_none_nocross {B : OrderBook} {p : Nat} {ot : Order}
    (hwf : WF B) (hgp : hget B.heap p = some ot) (hrem : ¬ot.remaining = 0)
    (hnone : matchStep p B = none) :
    ∀ kB lvlB, bestEntryFor ot.side.opposite (B.sideLevels ot.side.opposite)
      = some (kB, lvlB) → priceBetter ot.side ot.price kB := by
  intro kB lvlB hbest
  have hlw : LevelWF B.heap B.index ot.side.opposite kB lvlB :=
    hwf.levelsWF _ (bestEntryFor_mem hbest)
  unfold matchStep at hnone
  rw [hgp] at hnone
  dsimp only at hnone
  rw [if_neg hrem] at hnone
  rw [getOrdersForMatching_some hbest] at hnone
  rw [if_neg (by
    intro hc
    exact hlw.nonempty (List.isEmpty_iff.mp hc))] at hnone
  cases hscan : scanBest ot B.heap lvlB.orders none 0 with
  | mk ores bp =>
    rw [hscan] at hnone
    cases ores with
    | some mm => obtain ⟨mp, mo⟩ := mm; dsimp only at hnone; cases hnone
    | none =>
      have hall := (scanBest_none ot B.heap lvlB.orders none 0 (by rw [hscan])).2
      rcases List.exists_mem_of_ne_nil lvlB.orders hlw.nonempty with ⟨x, hx⟩
      rcases hlw.mem x hx with ⟨oc, hgc, hpc, hsc, hrc, _⟩
      have hincomp := hall x hx oc hgc (by omega)
      unfold compatible at hincomp
      cases hside : ot.side with
      | BUY =>
        have hsc' : oc.side = OrderSide.SELL := by
          rw [hsc, hside]
          rfl
        rw [hside] at hincomp
        simp [hsc'] at hincomp
        unfold priceBetter
        rw [← hpc]
        omega
      | SELL =>
        have hsc' : oc.side = OrderSide.BUY := by
          rw [hsc, hside]
          rfl
        rw [hside] at hincomp
        simp [hsc'] at hincomp
        unfold priceBetter
        rw [← hpc]
        omega

/-- Inserting the taker as a maker: appending the unfilled incoming
order to the (possibly fresh) level at its own price preserves
well-formedness, provided its price does not reach the opposing best. -/
theorem addLevel_WF {B : OrderBook} {p : Nat} {ot : Order} {lvl : PriceLevel}
    (hwf : WF B) (hgp : hget B.heap p = some ot) (hfr : PtrFresh B p)
    (hidx : mfind B.index ot.id = none) (hpos : 0 < ot.remaining)
    (hnc : ∀ kB lvlB, bestEntryFor ot.side.opposite (B.sideLevels ot.side.opposite)
      = some (kB, lvlB) → priceBetter ot.side ot.price kB)
    (hLnodup : lvl.orders.Nodup)
    (hLpf : p ∉ lvl.orders)
    (hLmem : ∀ x ∈ lvl.orders, ∃ o : Order, hget B.heap x = some o ∧
      o.price = ot.price ∧ o.side = ot.side ∧ 0 < o.remaining ∧
      mfind B.index o.id = some x)
    (hLagg : lvl.total_quantity = sumRem B.heap lvl.orders)
    (hLdisj : ∀ (s' : OrderSide) (k' : Nat) (lvl' : PriceLevel),
      (k', lvl') ∈ B.sideLevels s' → ¬(s' = ot.side ∧ k' = ot.price) →
      ∀ x ∈ lvl.orders, x ∉ lvl'.orders) :
    WF (({ B with index := minsert B.index ot.id p } : OrderBook).setSideLevels
      ot.side (minsert (B.sideLevels ot.side) ot.price (lvl.addOrder B.heap p))) := by
  set L := lvl.addOrder B.heap p with hL
  set B' := (({ B with index := minsert B.index ot.id p } : OrderBook).setSideLevels
    ot.side (minsert (B.sideLevels ot.side) ot.price L)) with hB'
  have hB'heap : B'.heap = B.heap := by rw [hB', setSideLevels_heap]
  have hB'index : B'.index = minsert B.index ot.id p := by
    rw [hB', setSideLevels_index]
  have hB'self : B'.sideLevels ot.side
      = minsert (B.sideLevels ot.side) ot.price L := by
    rw [hB', sideLevels_set_self]
  have hB'other : ∀ s, s ≠ ot.side → B'.sideLevels s = B.sideLevels s := by
    intro s hs
    rw [hB', sideLevels_set_other _ _ hs, sideLevels_index_update]
  have hLorders : L.orders = lvl.orders ++ [p] := rfl
  have hLtotal : L.total_quantity = lvl.total_quantity + remOf B.heap p := rfl
  have hxnep : ∀ x ∈ lvl.orders, x ≠ p := fun x hx hc => hLpf (hc ▸ hx)
  have hidne : ∀ (x : Nat) (ox : Order), hget B.heap x = some ox → x ≠ p →
      ox.id ≠ ot.id := by
    intro x ox hg hne
    exact hget_ids_ne hwf.idsNodup hg hgp hne
  have hkeys : ∀ s, (keys (B'.sideLevels s)).Nodup := by
    intro s
    by_cases hs : s = ot.side
    · subst hs
      rw [hB'self]
      exact keys_minsert_nodup _ (hwf.sideKeys _)
    · rw [hB'other s hs]
      exact hwf.sideKeys s
  have hmemchar : ∀ (s : OrderSide) (k : Nat) (lvl₁ : PriceLevel),
      (k, lvl₁) ∈ B'.sideLevels s →
      (s = ot.side ∧ k = ot.price ∧ lvl₁ = L) ∨
      ((k, lvl₁) ∈ B.sideLevels s ∧ ¬(s = ot.side ∧ k = ot.price)) := by
    intro s k lvl₁ hm
    by_cases hs : s = ot.side
    · subst hs
      rw [hB'self] at hm
      rcases mem_minsert_elim (hwf.sideKeys _) hm with ⟨h1, h2⟩ | ⟨h1, h2⟩
      · exact Or.inl ⟨rfl, h1, h2⟩
      · exact Or.inr ⟨h1, fun hc => h2 hc.2⟩
    · rw [hB'other s hs] at hm
      exact Or.inr ⟨hm, fun hc => hs hc.1⟩
  refine ⟨hkeys OrderSide.BUY, hkeys OrderSide.SELL, ?_, ?_, ?_, ?_, ?_, ?_⟩
  · rw [hB'index]
    exact keys_minsert_nodup _ hwf.idxKeys
  · -- levelsWF
    intro s k lvl₁ hm
    rw [hB'heap, hB'index]
    rcases hmemchar s k lvl₁ hm with ⟨hs, hk, hv⟩ | ⟨hold, _⟩
    · subst hs
      subst hk
      subst hv
      refine ⟨?_, ?_, ?_, ?_⟩
      · rw [hLorders]
        simp
      · rw [hLorders, List.nodup_append]
        refine ⟨hLnodup, List.nodup_singleton p, ?_⟩
        intro a ha hb
        rw [List.mem_singleton] at hb
        exact hxnep a ha hb
      · intro x hx
        rw [hLorders] at hx
        rcases List.mem_append.mp hx with hxl | hxr
        · rcases hLmem x hxl with ⟨o, hg, hp1, hs1, hr1, hi1⟩
          refine ⟨o, hg, hp1, hs1, hr1, ?_⟩
          rw [mfind_minsert_ne _ (hidne x o hg (hxnep x hxl))]
          exact hi1
        · rw [List.mem_singleton] at hxr
          subst hxr
          exact ⟨ot, hgp, rfl, rfl, hpos, mfind_minsert_self _ _ _⟩
      · rw [hLtotal, hLagg, hLorders, sumRem_append, sumRem_cons, sumRem_nil]
        omega
    · have hlw := hwf.levelsWF s hold
      refine LevelWF_congr hlw (fun x hx => rfl) ?_
      intro x hx o hg
      have hxp : x ≠ p := fun hc => hfr s k lvl₁ hold (hc ▸ hx)
      rw [mfind_minsert_ne _ (hidne x o hg hxp)]
  · -- disjoint
    intro s k lvl₁ s' k' lvl₂ h1 h2 hne x hx
    rcases hmemchar s k lvl₁ h1 with ⟨hs1, hk1, hv1⟩ | ⟨ho1, hn1⟩
    · rcases hmemchar s' k' lvl₂ h2 with ⟨hs2, hk2, hv2⟩ | ⟨ho2, hn2⟩
      · exact absurd ⟨hs1.trans hs2.symm, hk1.trans hk2.symm⟩ hne
      · rw [hv1, hLorders] at hx
        rcases List.mem_append.mp hx with hxl | hxr
        · exact hLdisj s' k' lvl₂ ho2 hn2 x hxl
        · rw [List.mem_singleton] at hxr
          subst hxr
          exact hfr s' k' lvl₂ ho2
    · rcases hmemchar s' k' lvl₂ h2 with ⟨hs2, hk2, hv2⟩ | ⟨ho2, hn2⟩
      · rw [hv2]
        intro hc
        rw [hLorders] at hc
        rcases List.mem_append.mp hc with hxl | hxr
        · exact hLdisj s k lvl₁ ho1 hn1 x hxl hx
        · rw [List.mem_singleton] at hxr
          subst hxr
          exact hfr s k lvl₁ ho1 hx
      · exact hwf.disjoint s k lvl₁ s' k' lvl₂ ho1 ho2 hne x hx
  · -- idxWF
    intro i x hm
    rw [hB'index] at hm
    rw [hB'heap]
    rcases mem_minsert_elim hwf.idxKeys hm with ⟨h1, h2⟩ | ⟨h1, _⟩
    · subst h1
      subst h2
      exact ⟨ot, hgp, rfl⟩
    · exact hwf.idxWF h1
  · -- idsNodup
    show (B'.heap.map Order.id).Nodup
    rw [hB'heap]
    exact hwf.idsNodup
  · -- nocross
    intro hb ha
    cases hside : ot.side with
    | BUY =>
      have hasks : B'.asks = B.asks := by
        rw [show B'.asks = B'.sideLevels OrderSide.SELL from rfl,
          hB'other OrderSide.SELL (by simp [hside])]
        rfl
      have hbids : B'.bids = minsert B.bids ot.price L := by
        rw [show B'.bids = B'.sideLevels OrderSide.BUY from rfl, ← hside, hB'self,
          hside]
        rfl
      have hane : B.asks ≠ [] := by
        rw [← hasks]
        exact ha
      obtain ⟨eA, heA⟩ : ∃ e, minEntry B.asks = some e := by
        cases hh : minEntry B.asks with
        | none => exact absurd (minEntry_eq_none_iff.mp hh) hane
        | some e => exact ⟨e, rfl⟩
      obtain ⟨aK, aL⟩ := eA
      have hbestA : bestEntryFor ot.side.opposite (B.sideLevels ot.side.opposite)
          = some (aK, aL) := by
        rw [hside]
        show minEntry B.asks = some (aK, aL)
        rw [heA]
      have hPa : ot.price < aK := by
        have h := hnc aK aL hbestA
        rw [hside] at h
        exact h
      have hga : B'.getBestAsk = aK := by
        unfold OrderBook.getBestAsk
        rw [hasks, heA]
      cases hmaxB : maxEntry B'.bids with
      | none => exact absurd (maxEntry_eq_none_iff.mp hmaxB) hb
      | some eB =>
        obtain ⟨bK, bL⟩ := eB
        have hgb : B'.getBestBid = bK := by
          unfold OrderBook.getBestBid
          rw [hmaxB]
        rw [hgb, hga]
        have hmem := maxEntry_mem hmaxB
        rw [hbids] at hmem
        rcases mem_minsert_elim hwf.bidsKeys hmem with ⟨h1, _⟩ | ⟨h1, _⟩
        · rw [h1]
          exact hPa
        · have hBb : B.bids ≠ [] := List.ne_nil_of_mem h1
          obtain ⟨e0, he0⟩ : ∃ e, maxEntry B.bids = some e := by
            cases hh : maxEntry B.bids with
            | none => exact absurd (maxEntry_eq_none_iff.mp hh) hBb
            | some e => exact ⟨e, rfl⟩
          have hle : bK ≤ e0.1 := maxEntry_isTop he0 (bK, bL) h1
          have hold := hwf.nocross hBb hane
          have h2 : B.getBestBid = e0.1 := by
            unfold OrderBook.getBestBid
            rw [he0]
          have h3 : B.getBestAsk = aK := by
            unfold OrderBook.getBestAsk
            rw [heA]
          rw [h2, h3] at hold
          omega
    | SELL =>
      have hbids : B'.bids = B.bids := by
        rw [show B'.bids = B'.sideLevels OrderSide.BUY from rfl,
          hB'other OrderSide.BUY (by simp [hside])]
        rfl
      have hasks : B'.asks = minsert B.asks ot.price L := by
        rw [show B'.asks = B'.sideLevels OrderSide.SELL from rfl, ← hside, hB'self,
          hside]
        rfl
      have hbne : B.bids ≠ [] := by
        rw [← hbids]
        exact hb
      obtain ⟨eB, heB⟩ : ∃ e, maxEntry B.bids = some e := by
        cases hh : maxEntry B.bids with
        | none => exact absurd (maxEntry_eq_none_iff.mp hh) hbne
        | some e => exact ⟨e, rfl⟩
      obtain ⟨bK, bL⟩ := eB
      have hbestB : bestEntryFor ot.side.opposite (B.sideLevels ot.side.opposite)
          = some (bK, bL) := by
        rw [hside]
        show maxEntry B.bids = some (bK, bL)
        rw [heB]
      have hPb : bK < ot.price := by
        have h := hnc bK bL hbestB
        rw [hside] at h
        exact h
      have hgb : B'.getBestBid = bK := by
        unfold OrderBook.getBestBid
        rw [hbids, heB]
      cases hminA : minEntry B'.asks with
      | none => exact absurd (minEntry_eq_none_iff.mp hminA) ha
      | some eA =>
        obtain ⟨aK, aL⟩ := eA
        have hga : B'.getBestAsk = aK := by
          unfold OrderBook.getBestAsk
          rw [hminA]
        rw [hgb, hga]
        have hmem := minEntry_mem hminA
        rw [hasks] at hmem
        rcases mem_minsert_elim hwf.asksKeys hmem with ⟨h1, _⟩ | ⟨h1, _⟩
        · rw [h1]
          exact hPb
        · have hBa : B.asks ≠ [] := List.ne_nil_of_mem h1
          obtain ⟨e0, he0⟩ : ∃ e, minEntry B.asks = some e := by
            cases hh : minEntry B.asks with
            | none => exact absurd (minEntry_eq_none_iff.mp hh) hBa
            | some e => exact ⟨e, rfl⟩
          have hle : e0.1 ≤ aK := minEntry_isBot he0 (aK, aL) h1
          have hold := hwf.nocross hbne hBa
          have h2 : B.getBestBid = bK := by
            unfold OrderBook.getBestBid
            rw [heB]
          have h3 : B.getBestAsk = e0.1 := by
            unfold OrderBook.getBestAsk
            rw [he0]
          rw [h2, h3] at hold
          omega

/-- `OrderBook::addOrder` of a fresh unfilled order that does not cross
the opposing best preserves well-formedness. -/
theorem addOrder_WF {B : OrderBook} {p : Nat} {ot : Order}
    (hwf : WF B) (hgp : hget B.heap p = some ot) (hfr : PtrFresh B p)
    (hidx : mfind B.index ot.id = none) (hpos : 0 < ot.remaining)
    (hnc : ∀ kB lvlB, bestEntryFor ot.side.opposite (B.sideLevels ot.side.opposite)
      = some (kB, lvlB) → priceBetter ot.side ot.price kB) :
    WF (B.addOrder p).1 := by
  cases hml : mfind (B.sideLevels ot.side) ot.price with
  | some lvl =>
    rw [addOrder_eq_found hgp hml]
    have hlw := hwf.levelsWF ot.side (mem_of_mfind hml)
    exact addLevel_WF hwf hgp hfr hidx hpos hnc hlw.nodup
      (hfr _ _ _ (mem_of_mfind hml))
      (fun x hx => hlw.mem x hx)
      hlw.agg
      (fun s' k' lvl' hm' hne' x hx =>
        hwf.disjoint ot.side ot.price lvl s' k' lvl' (mem_of_mfind hml) hm'
          (fun hc => hne' ⟨hc.1.symm, hc.2.symm⟩) x hx)
  | none =>
    rw [addOrder_eq_new hgp hml]
    refine @addLevel_WF B p ot ⟨ot.price, 0, []⟩ hwf hgp hfr hidx hpos hnc
      List.nodup_nil (by simp) ?_ rfl ?_
    · intro x hx
      exact absurd hx (List.not_mem_nil x)
    · intro s' k' lvl' _ _ x hx
      exact absurd hx (List.not_mem_nil x)

/-- Allocating a fresh order object at the end of the heap (the
`shared_ptr` the engine creates before matching) preserves
well-formedness. -/
theorem WF_appendFresh {B : OrderBook} {o : Order} (hwf : WF B)
    (hfresh : o.id ∉ B.heap.map Order.id) :
    WF ({ B with heap := B.heap ++ [o] }) := by
  refine ⟨hwf.bidsKeys, hwf.asksKeys, hwf.idxKeys, ?_, ?_, ?_, ?_, hwf.nocross⟩
  · intro s k lvl hm
    rw [sideLevels_heap_update] at hm
    have hlw := hwf.levelsWF s hm
    refine LevelWF_congr hlw ?_ (fun x hx oo hg => rfl)
    intro x hx
    rcases hlw.mem x hx with ⟨ox, hgx, _⟩
    exact hget_append_lt (hget_lt_length hgx)
  · intro s k lvl s' k' lvl' h1 h2 hne
    rw [sideLevels_heap_update] at h1 h2
    exact hwf.disjoint s k lvl s' k' lvl' h1 h2 hne
  · intro i x hm
    rcases hwf.idxWF hm with ⟨ox, hgx, hid⟩
    exact ⟨ox, by rw [hget_append_lt (hget_lt_length hgx)]; exact hgx, hid⟩
  · show ((B.heap ++ [o]).map Order.id).Nodup
    rw [List.map_append]
    rw [List.nodup_append]
    refine ⟨hwf.idsNodup, List.nodup_singleton o.id, ?_⟩
    intro a ha hb
    rw [List.map_singleton, List.mem_singleton] at hb
    subst hb
    exact hfresh ha

/-- The unfolded shape of `submitOrder`. -/
theorem submitOrder_eq (o : Order) (b : OrderBook) :
    submitOrder o b =
      (if remOf (matchLoop o.remaining b.heap.length
            { b with heap := b.heap ++ [o] }).1.heap b.heap.length = 0
       then ((matchLoop o.remaining b.heap.length { b with heap := b.heap ++ [o] }).1,
         (matchLoop o.remaining b.heap.length { b with heap := b.heap ++ [o] }).2, true)
       else (((matchLoop o.remaining b.heap.length
             { b with heap := b.heap ++ [o] }).1.addOrder b.heap.length).1,
         (matchLoop o.remaining b.heap.length { b with heap := b.heap ++ [o] }).2,
         true)) := rfl

/-- Master theorem about one `submitOrder` call on a well-formed book
with a fresh id: the final state of the incoming order object, overall
conservation, per-trade correctness, and the residue insertion
behaviour. -/
theorem submitOrder_facts {b : OrderBook} {o : Order}
    (hwf : WF b) (hfresh : o.id ∉ b.heap.map Order.id)
    (hidx : mfind b.index o.id = none) :
    ∃ ot : Order,
      hget (submitOrder o b).1.heap b.heap.length = some ot ∧
      ot.id = o.id ∧ ot.side = o.side ∧ ot.price = o.price ∧
      ot.quantity = o.quantity ∧ ot.timestamp = o.timestamp ∧
      ot.remaining + tradeSum (submitOrder o b).2.1 o.id = o.remaining ∧
      WF (submitOrder o b).1 ∧
      (∀ e ∈ (submitOrder o b).2.1, ExecOK e) ∧
      (submitOrder o b).1.heap.map Order.id = b.heap.map Order.id ++ [o.id] ∧
      (∀ (x : Nat) (ox' : Order), hget (submitOrder o b).1.heap x = some ox' →
        x ≠ b.heap.length →
        ∃ ox, hget b.heap x = some ox ∧ ox'.id = ox.id ∧ ox'.quantity = ox.quantity ∧
          ox'.side = ox.side ∧ ox'.price = ox.price ∧ ox'.timestamp = ox.timestamp ∧
          ox'.remaining + tradeSum (submitOrder o b).2.1 ox.id = ox.remaining) ∧
      (∀ e ∈ (submitOrder o b).2.1, ∀ i : Nat,
        (e.trade.buy_order_id = i ∨ e.trade.sell_order_id = i) →
        i ∈ b.heap.map Order.id ++ [o.id]) ∧
      (0 < ot.remaining →
        mfind (submitOrder o b).1.index o.id = some b.heap.length ∧
        ∃ lvl, (o.price, lvl) ∈ (submitOrder o b).1.sideLevels o.side ∧
          b.heap.length ∈ lvl.orders) ∧
      (ot.remaining = 0 →
        mfind (submitOrder o b).1.index o.id = none ∧
        PtrFresh (submitOrder o b).1 b.heap.length) := by
  have hwf1 : WF ({ b with heap := b.heap ++ [o] }) := WF_appendFresh hwf hfresh
  have hg1 : hget ({ b with heap := b.heap ++ [o] } : OrderBook).heap b.heap.length
      = some o := hget_append_self b.heap o
  have hfr1 : PtrFresh ({ b with heap := b.heap ++ [o] }) b.heap.length := by
    intro s k lvl hm
    rw [sideLevels_heap_update] at hm
    intro hc
    rcases (hwf.levelsWF s hm).mem _ hc with ⟨ox, hgx, _⟩
    have := hget_lt_length hgx
    omega
  have hidx1 : mfind ({ b with heap := b.heap ++ [o] } : OrderBook).index o.id
      = none := hidx
  have lf := matchLoop_facts o.remaining hwf1 hg1 hfr1 hidx1
  have hexit := matchLoop_exit o.remaining hwf1 hg1 hfr1 hidx1 (le_refl _)
  set r := matchLoop o.remaining b.heap.length { b with heap := b.heap ++ [o] }
    with hr
  have hb1len : ({ b with heap := b.heap ++ [o] } : OrderBook).heap.length
      = b.heap.length + 1 := by simp
  have hplt : b.heap.length < r.1.heap.length := by
    rw [lf.heap_len, hb1len]
    omega
  obtain ⟨ot, hot⟩ := hget_of_lt hplt
  rcases lf.conserve b.heap.length ot hot with
    ⟨o0, hg0, hid0, hq0, hs0, hp0, ht0, hr0⟩
  rw [hg1] at hg0
  cases hg0
  have hrem_eq : remOf r.1.heap b.heap.length = ot.remaining := by
    simp [remOf, hot]
  have hids1 : r.1.heap.map Order.id = b.heap.map Order.id ++ [o.id] := by
    rw [lf.ids_eq]
    show (b.heap ++ [o]).map Order.id = b.heap.map Order.id ++ [o.id]
    rw [List.map_append, List.map_singleton]
  have hcons : ∀ (x : Nat) (ox' : Order), hget r.1.heap x = some ox' →
      x ≠ b.heap.length →
      ∃ ox, hget b.heap x = some ox ∧ ox'.id = ox.id ∧ ox'.quantity = ox.quantity ∧
        ox'.side = ox.side ∧ ox'.price = ox.price ∧ ox'.timestamp = ox.timestamp ∧
        ox'.remaining + tradeSum r.2 ox.id = ox.remaining := by
    intro x ox' hg hne
    rcases lf.conserve x ox' hg with ⟨ox, hg2, h3, h4, h5, h6, h7, h8⟩
    have hxlt : x < b.heap.length + 1 := by
      have := hget_lt_length hg2
      rw [hb1len] at this
      exact this
    have hxlt2 : x < b.heap.length := by omega
    refine ⟨ox, ?_, h3, h4, h5, h6, h7, h8⟩
    rw [← hget_append_lt hxlt2]
    exact hg2
  have htids : ∀ e ∈ r.2, ∀ i : Nat,
      (e.trade.buy_order_id = i ∨ e.trade.sell_order_id = i) →
      i ∈ b.heap.map Order.id ++ [o.id] := by
    intro e he i hi
    have := lf.tids e he i hi
    rw [show ({ b with heap := b.heap ++ [o] } : OrderBook).heap.map Order.id
        = b.heap.map Order.id ++ [o.id] by
      rw [show ({ b with heap := b.heap ++ [o] } : OrderBook).heap
          = b.heap ++ [o] from rfl, List.map_append, List.map_singleton]] at this
    exact this
  rw [submitOrder_eq]
  rw [← hr, hrem_eq]
  by_cases hz : ot.remaining = 0
  · rw [if_pos hz]
    refine ⟨ot, hot, hid0, hs0, hp0, hq0, ht0, hr0, lf.wf, lf.execok, hids1,
      hcons, htids, ?_, ?_⟩
    · intro hpos
      omega
    · intro _
      exact ⟨lf.idx_none, lf.fresh⟩
  · rw [if_neg hz]
    have hotpos : 0 < ot.remaining := Nat.pos_of_ne_zero hz
    have hnc := matchStep_none_nocross lf.wf hot hz hexit
    have hwfres : WF ((r.1.addOrder b.heap.length).1) :=
      addOrder_WF lf.wf hot lf.fresh (by rw [hid0]; exact lf.idx_none) hotpos hnc
    have hheapres : ((r.1.addOrder b.heap.length).1).heap = r.1.heap := by
      cases hml : mfind (r.1.sideLevels ot.side) ot.price with
      | some lvl =>
        rw [addOrder_eq_found hot hml]
        rw [setSideLevels_heap]
      | none =>
        rw [addOrder_eq_new hot hml]
        rw [setSideLevels_heap]
    have hidxres : ((r.1.addOrder b.heap.length).1).index
        = minsert r.1.index ot.id b.heap.length := by
      cases hml : mfind (r.1.sideLevels ot.side) ot.price with
      | some lvl =>
        rw [addOrder_eq_found hot hml]
        rw [setSideLevels_index]
      | none =>
        rw [addOrder_eq_new hot hml]
        rw [setSideLevels_index]
    have hrest : ∃ lvl, (ot.price, lvl) ∈
        ((r.1.addOrder b.heap.length).1).sideLevels ot.side ∧
        b.heap.length ∈ lvl.orders := by
      cases hml : mfind (r.1.sideLevels ot.side) ot.price with
      | some lvl =>
        rw [addOrder_eq_found hot hml]
        refine ⟨lvl.addOrder r.1.heap b.heap.length, ?_, ?_⟩
        · rw [sideLevels_set_self]
          exact self_mem_minsert _ _ _
        · show b.heap.length ∈ lvl.orders ++ [b.heap.length]
          simp
      | none =>
        rw [addOrder_eq_new hot hml]
        refine ⟨PriceLevel.addOrder r.1.heap ⟨ot.price, 0, []⟩ b.heap.length, ?_, ?_⟩
        · rw [sideLevels_set_self]
          exact self_mem_minsert _ _ _
        · show b.heap.length ∈ [] ++ [b.heap.length]
          simp
    refine ⟨ot, by rw [hheapres]; exact hot, hid0, hs0, hp0, hq0, ht0, hr0, hwfres,
      lf.execok, by rw [hheapres]; exact hids1, ?_, htids, ?_, ?_⟩
    · intro x ox' hg hne
      rw [hheapres] at hg
      exact hcons x ox' hg hne
    · intro _
      constructor
      · rw [hidxres, ← hid0]
        exact mfind_minsert_self _ _ _
      · rw [← hp0, ← hs0]
        exact hrest
    · intro hzz
      omega

/-- The engine-level cancel returns the same book as the book-level
cancel. -/
theorem engineCancelOrder_book (oid : Nat) (b : OrderBook) :
    (engineCancelOrder oid b).1 = (b.cancelOrder oid).1 := by
  unfold engineCancelOrder
  by_cases h : (b.cancelOrder oid).2
  · rw [if_pos h]
  · rw [if_neg h]

/-- The global invariant of every reachable engine state: the book is
well-formed, allocated ids were all submitted, quantity is conserved
per order object against the trade trace, and every emitted trade
satisfies its per-trade specification. -/
structure EngineInv (b : OrderBook) (used : List Nat) (tr : List Exec) : Prop where
  wf : WF b
  ids_used : ∀ i ∈ b.heap.map Order.id, i ∈ used
  conserve : ∀ (x : Nat) (ox : Order), hget b.heap x = some ox →
    ox.remaining + tradeSum tr ox.id = ox.quantity
  execok : ∀ e ∈ tr, ExecOK e
  tids : ∀ e ∈ tr, ∀ i : Nat,
    (e.trade.buy_order_id = i ∨ e.trade.sell_order_id = i) →
    i ∈ b.heap.map Order.id

/-- In an invariant state, an id that was never submitted is absent from
the id index. -/
theorem EngineInv_unused_idx {b : OrderBook} {used : List Nat} {tr : List Exec}
    (inv : EngineInv b used tr) {i : Nat} (hi : i ∉ used) : mfind b.index i = none := by
  cases hmf : mfind b.index i with
  | none => rfl
  | some p =>
    rcases inv.wf.idxWF (mem_of_mfind hmf) with ⟨ox, hg, hoxid⟩
    exact absurd (inv.ids_used i (List.mem_map.mpr ⟨ox, hget_mem hg, hoxid⟩)) hi

/-- Every reachable state satisfies the global invariant. -/
theorem Reach_Inv {b : OrderBook} {used : List Nat} {tr : List Exec}
    (h : Reach b used tr) : EngineInv b used tr := by
  induction h with
  | empty =>
    refine ⟨WF.empty, ?_, ?_, ?_, ?_⟩
    · intro i hi
      simp [OrderBook.empty] at hi
    · intro x ox hg
      simp [OrderBook.empty, hget] at hg
    · intro e he
      exact absurd he (List.not_mem_nil e)
    · intro e he
      exact absurd he (List.not_mem_nil e)
  | submit id price qty ts side h hid ih =>
    rename_i b used tr
    have hfresh : (⟨id, side, price, qty, qty, ts⟩ : Order).id
        ∉ b.heap.map Order.id := fun hc => hid (ih.ids_used id hc)
    have hidx : mfind b.index (⟨id, side, price, qty, qty, ts⟩ : Order).id = none :=
      EngineInv_unused_idx ih hid
    rcases submitOrder_facts ih.wf hfresh hidx with
      ⟨ot, h1, h2, h3, h4, h5, h6, h7, h8, h9, h10, h11, h12, h13, h14⟩
    have htr0 : tradeSum tr id = 0 := by
      refine tradeSum_eq_zero ?_
      intro e he hc
      exact hid (ih.ids_used id (ih.tids e he id hc))
    refine ⟨h8, ?_, ?_, ?_, ?_⟩
    · intro i hi
      rw [h10] at hi
      rcases List.mem_append.mp hi with h0 | h0
      · exact List.mem_cons_of_mem _ (ih.ids_used i h0)
      · rw [List.mem_singleton] at h0
        rw [h0]
        exact List.mem_cons_self _ _
    · intro x ox hg
      by_cases hxp : x = b.heap.length
      · subst hxp
        rw [h1] at hg
        cases hg
        rw [tradeSum_append, h2, htr0, h5]
        rw [show (⟨id, side, price, qty, qty, ts⟩ : Order).quantity = qty from rfl]
        have h7x := h7
        rw [show (⟨id, side, price, qty, qty, ts⟩ : Order).remaining = qty from
          rfl] at h7x
        omega
      · rcases h11 x ox hg hxp with ⟨ox0, hg0, e2, e3, e4, e5, e6, e7⟩
        have := ih.conserve x ox0 hg0
        rw [tradeSum_append, e2, e3]
        omega
    · intro e he
      rcases List.mem_append.mp he with h0 | h0
      · exact ih.execok e h0
      · exact h9 e h0
    · intro e he i hi
      rw [h10]
      rcases List.mem_append.mp he with h0 | h0
      · exact List.mem_append_left _ (ih.tids e h0 i hi)
      · exact h12 e h0 i hi
  | cancel oid h ih =>
    rename_i b used tr
    rw [engineCancelOrder_book]
    have hheap : ((b.cancelOrder oid).1).heap = b.heap := (cancelOrder_struct b oid).1
    refine ⟨WF_cancelOrder ih.wf oid, ?_, ?_, ih.execok, ?_⟩
    · intro i hi
      rw [hheap] at hi
      exact ih.ids_used i hi
    · intro x ox hg
      rw [hheap] at hg
      exact ih.conserve x ox hg
    · intro e he i hi
      rw [hheap]
      exact ih.tids e he i hi

/- ### Concrete scenarios used by the claim witnesses -/

/-- Submit SELL id 1 @100 qty 5 into the empty book. -/
def wsub1 := submitOrder ⟨1, OrderSide.SELL, 100, 5, 5, 0⟩ OrderBook.empty

/-- Then SELL id 2 @100 qty 7 (same price, later arrival). -/
def wsub2 := submitOrder ⟨2, OrderSide.SELL, 100, 7, 7, 1⟩ wsub1.1

/-- Then BUY id 3 @100 qty 4 — it trades against the earlier id 1. -/
def wsub3 := submitOrder ⟨3, OrderSide.BUY, 100, 4, 4, 2⟩ wsub2.1

/-- The trade trace of the three submissions. -/
def wtr3 : List Exec := (([] ++ wsub1.2.1) ++ wsub2.2.1) ++ wsub3.2.1

/-- The book at the moment the single trade of the scenario executed. -/
def wpre : OrderBook :=
  ⟨[⟨1, OrderSide.SELL, 100, 5, 5, 0⟩, ⟨2, OrderSide.SELL, 100, 7, 7, 1⟩,
    ⟨3, OrderSide.BUY, 100, 4, 4, 2⟩],
   [], [(100, ⟨100, 12, [0, 1]⟩)], [(1, 0), (2, 1)]⟩

/-- The single emitted trade of the scenario, with its execution context. -/
def wexec : Exec :=
  ⟨wpre, ⟨3, OrderSide.BUY, 100, 4, 4, 2⟩, 0, ⟨1, OrderSide.SELL, 100, 5, 5, 0⟩,
   ⟨3, 1, 100, 4⟩⟩

/-- Submit SELL id 1 @101 into the empty book (for the no-cross witness). -/
def csub1 := submitOrder ⟨1, OrderSide.SELL, 101, 5, 5, 0⟩ OrderBook.empty

/-- Then BUY id 2 @99 — both sides now rest without crossing. -/
def csub2 := submitOrder ⟨2, OrderSide.BUY, 99, 5, 5, 1⟩ csub1.1

theorem wreach1 : Reach wsub1.1 [1] ([] ++ wsub1.2.1) :=
  Reach.submit 1 100 5 0 OrderSide.SELL Reach.empty (by decide)

theorem wreach2 : Reach wsub2.1 [2, 1] (([] ++ wsub1.2.1) ++ wsub2.2.1) :=
  Reach.submit 2 100 7 1 OrderSide.SELL wreach1 (by decide)

theorem wreach3 : Reach wsub3.1 [3, 2, 1] wtr3 :=
  Reach.submit 3 100 4 2 OrderSide.BUY wreach2 (by decide)

theorem creach1 : Reach csub1.1 [1] ([] ++ csub1.2.1) :=
  Reach.submit 1 101 5 0 OrderSide.SELL Reach.empty (by decide)

theorem creach2 : Reach csub2.1 [2, 1] (([] ++ csub1.2.1) ++ csub2.2.1) :=
  Reach.submit 2 99 5 1 OrderSide.BUY creach1 (by decide)

/- ### Claim C1 -/

/-- C1: price–time priority.  For every trade emitted while processing a
submission in any sequential run with pairwise-distinct ids, at the
moment the trade executed there was no other resting order on the
opposing side, with positive remaining quantity, offering either a
strictly better price than the chosen maker or an equal price with a
strictly earlier arrival timestamp.  Hence trades are emitted best
opposing price first and earliest arrival first within a level. -/
theorem priceTimePriority (b : OrderBook) (used : List Nat) (tr : List Exec)
    (h : Reach b used tr) (e : Exec) (he : e ∈ tr)
    (k : Nat) (lvl : PriceLevel) (q : Nat) (oc : Order)
    (hml : (k, lvl) ∈ e.pre.sideLevels e.taker.side.opposite)
    (hq : q ∈ lvl.orders) (hoc : hget e.pre.heap q = some oc)
    (hpos : 0 < oc.remaining) (hne : q ≠ e.makerPtr) :
    ¬(priceBetter e.taker.side oc.price e.maker.price ∨
      (oc.price = e.maker.price ∧ oc.timestamp < e.maker.timestamp)) :=
  ((Reach_Inv h).execok e he).optimal hml hq hoc hpos hne

/-- C1 witness: in the concrete three-order scenario, the resting
competitor id 2 (same price 100, later timestamp 1) is refuted as a
better candidate than the chosen maker id 1. -/
theorem priceTimePriority_witness :
    (wexec ∈ wtr3 ∧
      (100, (⟨100, 12, [0, 1]⟩ : PriceLevel)) ∈
        wexec.pre.sideLevels wexec.taker.side.opposite ∧
      1 ∈ (⟨100, 12, [0, 1]⟩ : PriceLevel).orders ∧
      hget wexec.pre.heap 1 = some ⟨2, OrderSide.SELL, 100, 7, 7, 1⟩ ∧
      0 < (⟨2, OrderSide.SELL, 100, 7, 7, 1⟩ : Order).remaining ∧
      1 ≠ wexec.makerPtr) ∧
    ¬(priceBetter wexec.taker.side
        (⟨2, OrderSide.SELL, 100, 7, 7, 1⟩ : Order).price wexec.maker.price ∨
      ((⟨2, OrderSide.SELL, 100, 7, 7, 1⟩ : Order).price = wexec.maker.price ∧
        (⟨2, OrderSide.SELL, 100, 7, 7, 1⟩ : Order).timestamp
          < wexec.maker.timestamp)) :=
  ⟨⟨by decide, by decide, by decide, by decide, by decide, by decide⟩,
   priceTimePriority wsub3.1 [3, 2, 1] wtr3 wreach3 wexec (by decide) 100
     ⟨100, 12, [0, 1]⟩ 1 ⟨2, OrderSide.SELL, 100, 7, 7, 1⟩ (by decide) (by decide)
     (by decide) (by decide) (by decide)⟩

/- ### Claim C2 -/

/-- C2: every emitted trade's price equals the maker's posted limit
price, and the trade record names the BUY-side participant in
`buy_order_id` and the SELL-side participant in `sell_order_id`,
whichever side was incoming. -/
theorem tradePriceAndSides (b : OrderBook) (used : List Nat) (tr : List Exec)
    (h : Reach b used tr) (e : Exec) (he : e ∈ tr) :
    e.trade.price = e.maker.price ∧
    e.maker.side = e.taker.side.opposite ∧
    e.trade.buy_order_id =
      (match e.taker.side with | .BUY => e.taker.id | .SELL => e.maker.id) ∧
    e.trade.sell_order_id =
      (match e.taker.side with | .BUY => e.maker.id | .SELL => e.taker.id) :=
  ⟨((Reach_Inv h).execok e he).price_eq, ((Reach_Inv h).execok e he).maker_side,
   ((Reach_Inv h).execok e he).buy_id, ((Reach_Inv h).execok e he).sell_id⟩

/-- C2 witness: the concrete trade (BUY 3 hits resting SELL 1) priced at
the maker's 100 with buy id 3 and sell id 1. -/
theorem tradePriceAndSides_witness :
    (wexec ∈ wtr3) ∧
    (wexec.trade.price = wexec.maker.price ∧
      wexec.maker.side = wexec.taker.side.opposite ∧
      wexec.trade.buy_order_id =
        (match wexec.taker.side with | .BUY => wexec.taker.id | .SELL => wexec.maker.id) ∧
      wexec.trade.sell_order_id =
        (match wexec.taker.side with | .BUY => wexec.maker.id | .SELL => wexec.taker.id)) :=
  ⟨by decide, tradePriceAndSides wsub3.1 [3, 2, 1] wtr3 wreach3 wexec (by decide)⟩

/- ### Claim C3 -/

/-- C3: after the matching loop of a submission exits, the incoming
order is inserted into the book — its id bound in the index and its
pointer queued in a level on its own side at its own limit price — if
and only if its remaining quantity is still positive; a fully filled
incoming order is discarded: its id is absent from the index and its
pointer from every level. -/
theorem residueInsertion (b : OrderBook) (used : List Nat) (tr : List Exec)
    (h : Reach b used tr) (id price qty ts : Nat) (side : OrderSide)
    (hid : id ∉ used) :
    ∃ ot : Order,
      hget (submitOrder ⟨id, side, price, qty, qty, ts⟩ b).1.heap b.heap.length
        = some ot ∧ ot.id = id ∧
      (0 < ot.remaining →
        mfind (submitOrder ⟨id, side, price, qty, qty, ts⟩ b).1.index id
          = some b.heap.length ∧
        ∃ lvl, (price, lvl) ∈
            (submitOrder ⟨id, side, price, qty, qty, ts⟩ b).1.sideLevels side ∧
          b.heap.length ∈ lvl.orders) ∧
      (ot.remaining = 0 →
        mfind (submitOrder ⟨id, side, price, qty, qty, ts⟩ b).1.index id = none ∧
        PtrFresh (submitOrder ⟨id, side, price, qty, qty, ts⟩ b).1 b.heap.length) := by
  have inv := Reach_Inv h
  have hfresh : (⟨id, side, price, qty, qty, ts⟩ : Order).id ∉ b.heap.map Order.id :=
    fun hc => hid (inv.ids_used id hc)
  have hidx : mfind b.index (⟨id, side, price, qty, qty, ts⟩ : Order).id = none :=
    EngineInv_unused_idx inv hid
  rcases submitOrder_facts inv.wf hfresh hidx with
    ⟨ot, h1, h2, h3, h4, h5, h6, h7, h8, h9, h10, h11, h12, h13, h14⟩
  exact ⟨ot, h1, h2, h13, h14⟩

/-- C3 witness: submitting BUY id 3 @100 qty 20 against 12 resting units
leaves remaining 8, so the residue is inserted on the bid side. -/
theorem residueInsertion_witness :
    (3 ∉ [2, 1]) ∧
    (∃ ot : Order,
      hget (submitOrder ⟨3, OrderSide.BUY, 100, 20, 20, 2⟩ wsub2.1).1.heap
          wsub2.1.heap.length = some ot ∧ ot.id = 3 ∧
      (0 < ot.remaining →
        mfind (submitOrder ⟨3, OrderSide.BUY, 100, 20, 20, 2⟩ wsub2.1).1.index 3
          = some wsub2.1.heap.length ∧
        ∃ lvl, (100, lvl) ∈
            (submitOrder ⟨3, OrderSide.BUY, 100, 20, 20, 2⟩ wsub2.1).1.sideLevels
              OrderSide.BUY ∧
          wsub2.1.heap.length ∈ lvl.orders) ∧
      (ot.remaining = 0 →
        mfind (submitOrder ⟨3, OrderSide.BUY, 100, 20, 20, 2⟩ wsub2.1).1.index 3
          = none ∧
        PtrFresh (submitOrder ⟨3, OrderSide.BUY, 100, 20, 20, 2⟩ wsub2.1).1
          wsub2.1.heap.length)) :=
  ⟨by decide,
   residueInsertion wsub2.1 [2, 1] (([] ++ wsub1.2.1) ++ wsub2.2.1) wreach2
     3 100 20 2 OrderSide.BUY (by decide)⟩

/- ### Claim C4 -/

/-- C4: no resting cross.  After every operation of any sequential run
with distinct ids, whenever both sides of the book are non-empty the
best ask price strictly exceeds the best bid price; an order whose
limit still crossed the opposing best never rests. -/
theorem noRestingCross (b : OrderBook) (used : List Nat) (tr : List Exec)
    (h : Reach b used tr) (hb : b.bids ≠ []) (ha : b.asks ≠ []) :
    b.getBestBid < b.getBestAsk :=
  (Reach_Inv h).wf.nocross hb ha

/-- C4 witness: after resting SELL @101 and BUY @99, best bid 99 is
strictly below best ask 101. -/
theorem noRestingCross_witness :
    (csub2.1.bids ≠ [] ∧ csub2.1.asks ≠ []) ∧
    csub2.1.getBestBid < csub2.1.getBestAsk :=
  ⟨⟨by decide, by decide⟩,
   noRestingCross csub2.1 [2, 1] (([] ++ csub1.2.1) ++ csub2.2.1) creach2
     (by decide) (by decide)⟩

/- ### Claim C5 -/

/-- C5: aggregate consistency.  In every reachable book state, every
price level present on either side has a non-empty order queue, and its
cached `total_quantity` equals the sum of the remaining quantities of
the orders in its queue. -/
theorem aggregateConsistency (b : OrderBook) (used : List Nat) (tr : List Exec)
    (h : Reach b used tr) (s : OrderSide) (k : Nat) (lvl : PriceLevel)
    (hm : (k, lvl) ∈ b.sideLevels s) :
    lvl.orders ≠ [] ∧ lvl.total_quantity = sumRem b.heap lvl.orders :=
  ⟨((Reach_Inv h).wf.levelsWF s hm).nonempty, ((Reach_Inv h).wf.levelsWF s hm).agg⟩

/-- C5 witness: the resting ask level 100 of the two-seller scenario has
queue [0, 1] and aggregate 12 = 5 + 7. -/
theorem aggregateConsistency_witness :
    ((100, (⟨100, 12, [0, 1]⟩ : PriceLevel)) ∈ wsub2.1.sideLevels OrderSide.SELL) ∧
    ((⟨100, 12, [0, 1]⟩ : PriceLevel).orders ≠ [] ∧
      (⟨100, 12, [0, 1]⟩ : PriceLevel).total_quantity
        = sumRem wsub2.1.heap (⟨100, 12, [0, 1]⟩ : PriceLevel).orders) :=
  ⟨by decide,
   aggregateConsistency wsub2.1 [2, 1] (([] ++ wsub1.2.1) ++ wsub2.2.1) wreach2
     OrderSide.SELL 100 ⟨100, 12, [0, 1]⟩ (by decide)⟩

/- ### Claim C6 -/

/-- C6: conservation of quantity.  In every reachable state, every order
object ever allocated satisfies `original quantity = current remaining +
Σ quantity of emitted trades referencing its id`; in particular its
remaining quantity never exceeds its original quantity and only
decreases by exactly the traded amounts. -/
theorem quantityConservation (b : OrderBook) (used : List Nat) (tr : List Exec)
    (h : Reach b used tr) (x : Nat) (ox : Order)
    (hg : hget b.heap x = some ox) :
    ox.remaining + tradeSum tr ox.id = ox.quantity ∧ ox.remaining ≤ ox.quantity := by
  have hc := (Reach_Inv h).conserve x ox hg
  exact ⟨hc, by omega⟩

/-- C6 witness: after the 4-unit trade, maker id 1 has remaining 1 and
the trace references id 1 with quantity 4; 1 + 4 = 5, its original
quantity. -/
theorem quantityConservation_witness :
    (hget wsub3.1.heap 0 = some ⟨1, OrderSide.SELL, 100, 5, 1, 0⟩) ∧
    ((⟨1, OrderSide.SELL, 100, 5, 1, 0⟩ : Order).remaining
        + tradeSum wtr3 (⟨1, OrderSide.SELL, 100, 5, 1, 0⟩ : Order).id
      = (⟨1, OrderSide.SELL, 100, 5, 1, 0⟩ : Order).quantity ∧
      (⟨1, OrderSide.SELL, 100, 5, 1, 0⟩ : Order).remaining
        ≤ (⟨1, OrderSide.SELL, 100, 5, 1, 0⟩ : Order).quantity) :=
  ⟨by decide,
   quantityConservation wsub3.1 [3, 2, 1] wtr3 wreach3 0
     ⟨1, OrderSide.SELL, 100, 5, 1, 0⟩ (by decide)⟩
